import Mathlib

/-!
# Verification of the `struct-rx` fine-grained reactive state tree

This file is a shallow embedding of `packages/struct-rx/src/index.tsx`:
a reactive state tree made of `Topic`s (observable cells), `Node`s
(tree positions, themselves topics over their content), and `Branch`es
(object/array content: a `keys` topic plus an owned child map).

Modelling conventions, fixed once here:

* JavaScript values passed to `update` are modelled by `JSVal`.
  Numbers are modelled by `Int` (IEEE-754 oddities such as `NaN`,
  whose strict equality is irreflexive, are outside the model);
  functions are modelled by an identity token, since the code only
  ever compares them by reference (`!==`).  A non-plain object
  instance (e.g. `new Date()`) is `JSVal.exotic`.
* The mutable object graph is modelled by a pure tree `Tree` plus an
  allocation counter for topic identities.  Every topic (a leaf value
  topic, a branch `keys` topic, or a node's own content topic) carries
  a `Nat` identity allocated from the counter, so "which topics fired"
  is observable across operations.
* `Topic.set` marks every current subscriber dirty iff the stored
  value changes under JavaScript strict (reference) inequality.  For
  the `keys` topic the stored value is an `immutable.js OrderedSet`,
  whose `add`/`delete`/`intersect` return the receiver itself when
  nothing changed (`withMutations` returns `this` when unaltered), so
  reference inequality coincides with list inequality of the ordered
  key sequence; leaf topics store primitives where strict equality is
  value equality (functions: identity tokens).  Mutating operations
  therefore return the list of identities of the topics that fired;
  a subscriber is marked dirty iff one of its dependencies fired.
* `Topic.tryDetach` fires when the topic has a detach callback, no
  subscribers and an `undefined` value.  Only child nodes carry a
  detach callback (`Branch.createChild`), and it deletes the child
  from the owning branch's `nodes` map.  The model fixes the
  zero-subscriber case (subscribers are modelled extensionally as
  dependency sets, not stored in the tree), so a child node whose
  content becomes `undefined` is deleted from the map at once.
-/

set_option maxHeartbeats 1000000

namespace StructRx

/-- Atomic (leaf) JavaScript values accepted by `isAtomicValue`:
booleans, strings, numbers and functions.  Functions are compared by
reference in the code, modelled by an identity token. -/
inductive Atom where
  | bool (b : Bool)
  | num (n : Int)
  | str (s : String)
  | func (id : Nat)
  deriving DecidableEq, Repr

/-- JavaScript values as fed to `update`/`createState`.  `exotic` is a
non-plain object instance (prototype constructor differs from
`Object`), e.g. `new Date()`.  Record fields are listed in the
object's own enumeration order; JavaScript objects cannot carry
duplicate keys. -/
inductive JSVal where
  | undef
  | null
  | atom (a : Atom)
  | arr (elems : List JSVal)
  | obj (fields : List (String × JSVal))
  | exotic (id : Nat)
  deriving Repr

namespace JSVal

mutual
/-- `validateStateInput` as a Boolean predicate: `true` iff the code's
validation pass returns without throwing.  `undefined`/`null` and
atomics are accepted, arrays and plain records are traversed, any
non-plain object instance throws. -/
def validate : JSVal → Bool
  | .undef => true
  | .null => true
  | .atom _ => true
  | .arr es => validateL es
  | .obj fs => validateF fs
  | .exotic _ => false

def validateL : List JSVal → Bool
  | [] => true
  | e :: es => validate e && validateL es

def validateF : List (String × JSVal) → Bool
  | [] => true
  | f :: fs => validate f.2 && validateF fs
end

mutual
/-- A non-plain object instance occurs somewhere in the value. -/
def hasExotic : JSVal → Bool
  | .undef => false
  | .null => false
  | .atom _ => false
  | .arr es => hasExoticL es
  | .obj fs => hasExoticF fs
  | .exotic _ => true

def hasExoticL : List JSVal → Bool
  | [] => false
  | e :: es => hasExotic e || hasExoticL es

def hasExoticF : List (String × JSVal) → Bool
  | [] => false
  | f :: fs => hasExotic f.2 || hasExoticF fs
end

mutual
/-- No `null` occurs anywhere in the value (`undefined` may). -/
def nullFree : JSVal → Bool
  | .undef => true
  | .null => false
  | .atom _ => true
  | .arr es => nullFreeL es
  | .obj fs => nullFreeF fs
  | .exotic _ => true

def nullFreeL : List JSVal → Bool
  | [] => true
  | e :: es => nullFree e && nullFreeL es

def nullFreeF : List (String × JSVal) → Bool
  | [] => true
  | f :: fs => nullFree f.2 && nullFreeF fs
end

mutual
/-- A value acceptable at a *child* position without triggering the
key-removal path: not `undefined`/`null` (those empty the position),
and recursively so inside; record field names are distinct (as they
are for every real JavaScript object). -/
def cleanIn : JSVal → Bool
  | .undef => false
  | .null => false
  | .atom _ => true
  | .arr es => cleanL es
  | .obj fs => (fs.map Prod.fst).Nodup && cleanF fs
  | .exotic _ => false

def cleanL : List JSVal → Bool
  | [] => true
  | e :: es => cleanIn e && cleanL es

def cleanF : List (String × JSVal) → Bool
  | [] => true
  | f :: fs => cleanIn f.2 && cleanF fs
end

/-- A value that is `undefined`/`null`-free strictly inside structures;
the top-level value itself may be empty. -/
def cleanTop : JSVal → Bool
  | .undef => true
  | .null => true
  | v => cleanIn v

end JSVal

/-- The content of a `Node` (the value carried by the node's own
topic): `undefined`, a leaf `Topic` (identity + stored value), or a
`Branch`.  A branch holds `isArray`, its `keys` topic (identity +
ordered key list, no duplicates by construction), and the `nodes` map
(insertion-ordered, modelled as an association list of
`key ↦ (child node identity, child content)`). -/
inductive Tree where
  | tUndef
  | tLeaf (lid : Nat) (v : Option Atom)
  | tBranch (isArray : Bool) (kid : Nat) (keys : List String)
      (m : List (String × Nat × Tree))
  deriving Repr

/-- The `nodes` map of a branch: key ↦ (child node id, child content). -/
abbrev ChildMap := List (String × Nat × Tree)

/-- Topic identities fired during an operation (subscribers of these
topics are marked dirty). -/
abbrev Events := List Nat

namespace Tree

/-- `Map.get` (JavaScript insertion-ordered map lookup). -/
def clookup (m : ChildMap) (k : String) : Option (Nat × Tree) :=
  List.lookup k m

/-- `Map.set`: replace in place if present, else append (JavaScript
maps preserve insertion order). -/
def cset (m : ChildMap) (k : String) (v : Nat × Tree) : ChildMap :=
  match m with
  | [] => [(k, v)]
  | (k', v') :: rest =>
      if k' = k then (k, v) :: rest else (k', v') :: cset rest k v

/-- `Map.delete`. -/
def cdel (m : ChildMap) (k : String) : ChildMap :=
  match m with
  | [] => []
  | (k', v') :: rest => if k' = k then cdel rest k else (k', v') :: cdel rest k

/-- Content is `undefined` (`=== undefined` on the node's value). -/
def isUndef : Tree → Bool
  | .tUndef => true
  | _ => false

/-- Content is a `Branch` (`instanceof Branch`). -/
def isBranch : Tree → Bool
  | .tBranch _ _ _ _ => true
  | _ => false

end Tree

open Tree

/-- `Object.keys` of an array value of the given length: the decimal
index strings in ascending order. -/
def arrKeys (n : Nat) : List String :=
  (List.range n).map (fun i => toString i)

/-- `Object.keys` of a plain record: its field names in enumeration
order (JavaScript objects have no duplicate keys). -/
def objKeys (fs : List (String × JSVal)) : List String :=
  fs.map Prod.fst

/-- `value === undefined || value === null` — the emptying case of
`Node.update`. -/
def isEmptyVal : JSVal → Bool
  | .undef => true
  | .null => true
  | _ => false

/-- `Branch.getOrCreateNode` for one key: create the child node in the
`nodes` map when missing (`createChild`: fresh node id, `undefined`
content, detach callback deleting it from the map), then add the key
to the `keys` topic when absent (which fires that topic).  Returns the
new counter, keys, map, fired topics, and the child's id and content. -/
def gocn (c kid : Nat) (keys : List String) (m : ChildMap) (k : String) :
    Nat × List String × ChildMap × Events × Nat × Tree :=
  let step :=
    match clookup m k with
    | some (cid, ct) => (c, m, cid, ct)
    | none => (c + 1, cset m k (c, .tUndef), c, Tree.tUndef)
  match step with
  | (c1, m1, cid, ct) =>
    if k ∈ keys then (c1, keys, m1, ([] : Events), cid, ct)
    else (c1, keys ++ [k], m1, [kid], cid, ct)

/-- `Branch.removeKey`: delete the key from the `keys` topic (fires it
iff the key was present — `OrderedSet.delete` returns the same
reference otherwise), then set the child node's content to `undefined`
(fires the child's node topic iff it held content) — whereupon the
child's `tryDetach` deletes it from the `nodes` map (zero-subscriber
case, see the header). -/
def brRemoveKey (kid : Nat) (keys : List String) (m : ChildMap) (k : String) :
    List String × ChildMap × Events :=
  let ev1 : Events := if k ∈ keys then [kid] else []
  let keys1 := keys.erase k
  match clookup m k with
  | none => (keys1, m, ev1)
  | some (cid, ct) =>
      (keys1, cdel m k, ev1 ++ (if ct.isUndef then [] else [cid]))

/-- The stale-child pass of `Node.update`: for every current key not in
the new key set, set that child's content to `undefined` (firing its
node topic iff it held content; its `tryDetach` then deletes it from
the map). -/
def staleClear (keys newKeys : List String) (m : ChildMap) : ChildMap × Events :=
  match keys with
  | [] => (m, [])
  | k :: ks =>
      if k ∈ newKeys then staleClear ks newKeys m
      else
        match clookup m k with
        | none => staleClear ks newKeys m
        | some (cid, ct) =>
            match staleClear ks newKeys (cdel m k) with
            | (m1, ev) => (m1, (if ct.isUndef then [] else [cid]) ++ ev)

/-- `Node.getOrCreateTopic().set(a)` on a node with id `nid` and
content `t`: if the content is already a leaf topic, set it (fires the
leaf topic iff the stored value differs under strict equality);
otherwise first store a fresh topic as the node's content (always
fires the node topic: a fresh object is never reference-equal), then
set it (firing the fresh leaf topic, `undefined !== atomic`). -/
def leafSet (c nid : Nat) (t : Tree) (a : Atom) : Nat × Tree × Events :=
  match t with
  | .tLeaf lid w =>
      (c, .tLeaf lid (some a), if w = some a then [] else [lid])
  | _ => (c + 1, .tLeaf c (some a), [nid, c])

/-- `Node.getOrCreateBranch` on a node with id `nid` and content `t`:
keep an existing branch, otherwise store a fresh one (`isArray =
false`, empty keys topic with a fresh id, empty map), firing the node
topic.  Returns counter, `isArray`, keys id, keys, map, events. -/
def ensureBranch (c nid : Nat) (t : Tree) :
    Nat × Bool × Nat × List String × ChildMap × Events :=
  match t with
  | .tBranch isArr kid keys m => (c, isArr, kid, keys, m, [])
  | _ => (c + 1, false, c, [], [], [nid])

mutual

/-- `Node.update` on a node with id `nid` and content `t`, for the root
case (no back-link: `update(undefined)` sets the content itself).
Children reached through a branch are updated by `updArr`/`updObj`,
which route their `undefined`/`null` sub-values through the owning
branch's `removeKey`, exactly as the back-link does in the code.
A structural value: ensure a branch, set `isArray`, clear stale
children, set the keys topic to old ∩ new (`OrderedSet.intersect`
keeps the old order and returns the same reference when nothing was
removed, so it fires iff a key was dropped), then get-or-create and
recursively update every child in new-key order.  A non-plain object
instance also lands in the structural arm (`typeof` is "object"); it
is modelled with no own enumerable keys (true of `new Date()`), and is
unreachable through the validated facade anyway. -/
def updateGo (c nid : Nat) (t : Tree) (v : JSVal) : Nat × Tree × Events :=
  match v with
  | .undef => (c, .tUndef, if t.isUndef then [] else [nid])
  | .null => (c, .tUndef, if t.isUndef then [] else [nid])
  | .atom a => leafSet c nid t a
  | .arr es =>
      match ensureBranch c nid t with
      | (c1, _, kid, keys0, m0, ev0) =>
        let nk := arrKeys es.length
        match staleClear keys0 nk m0 with
        | (m1, ev1) =>
          let keys1 := keys0.filter (fun k => decide (k ∈ nk))
          let ev2 : Events := if keys1 = keys0 then [] else [kid]
          match updArr c1 kid keys1 m1 0 es with
          | (c2, keys2, m2, ev3) =>
            (c2, .tBranch true kid keys2 m2, ev0 ++ ev1 ++ ev2 ++ ev3)
  | .obj fs =>
      match ensureBranch c nid t with
      | (c1, _, kid, keys0, m0, ev0) =>
        let nk := objKeys fs
        match staleClear keys0 nk m0 with
        | (m1, ev1) =>
          let keys1 := keys0.filter (fun k => decide (k ∈ nk))
          let ev2 : Events := if keys1 = keys0 then [] else [kid]
          match updObj c1 kid keys1 m1 fs with
          | (c2, keys2, m2, ev3) =>
            (c2, .tBranch false kid keys2 m2, ev0 ++ ev1 ++ ev2 ++ ev3)
  | .exotic _ =>
      match ensureBranch c nid t with
      | (c1, _, kid, keys0, m0, ev0) =>
        match staleClear keys0 [] m0 with
        | (m1, ev1) =>
          let keys1 := keys0.filter (fun k => decide (k ∈ ([] : List String)))
          let ev2 : Events := if keys1 = keys0 then [] else [kid]
          (c1, .tBranch false kid keys1 m1, ev0 ++ ev1 ++ ev2)

/-- The per-element loop of `Node.update` for an array value: for index
`i` onward, `getOrCreateNode(String(i)).update(elems[i])`.  An
`undefined`/`null` element removes its key through the branch
(`removeKey`), an atomic element sets the child's leaf topic, and a
structural element recurses. -/
def updArr (c kid : Nat) (keys : List String) (m : ChildMap) (i : Nat) :
    List JSVal → Nat × List String × ChildMap × Events
  | [] => (c, keys, m, [])
  | e :: es =>
    match gocn c kid keys m (toString i) with
    | (c1, keys1, m1, ev1, cid, ct) =>
      match e with
      | .undef =>
          match brRemoveKey kid keys1 m1 (toString i) with
          | (keys2, m2, ev2) =>
            match updArr c1 kid keys2 m2 (i + 1) es with
            | (c3, keys3, m3, ev3) => (c3, keys3, m3, ev1 ++ ev2 ++ ev3)
      | .null =>
          match brRemoveKey kid keys1 m1 (toString i) with
          | (keys2, m2, ev2) =>
            match updArr c1 kid keys2 m2 (i + 1) es with
            | (c3, keys3, m3, ev3) => (c3, keys3, m3, ev1 ++ ev2 ++ ev3)
      | .atom a =>
          match leafSet c1 cid ct a with
          | (c2, ct1, ev2) =>
            match updArr c2 kid keys1 (cset m1 (toString i) (cid, ct1)) (i + 1) es with
            | (c3, keys3, m3, ev3) => (c3, keys3, m3, ev1 ++ ev2 ++ ev3)
      | e' =>
          match updateGo c1 cid ct e' with
          | (c2, ct1, ev2) =>
            match updArr c2 kid keys1 (cset m1 (toString i) (cid, ct1)) (i + 1) es with
            | (c3, keys3, m3, ev3) => (c3, keys3, m3, ev1 ++ ev2 ++ ev3)

/-- The per-field loop of `Node.update` for a record value, analogous
to `updArr`. -/
def updObj (c kid : Nat) (keys : List String) (m : ChildMap) :
    List (String × JSVal) → Nat × List String × ChildMap × Events
  | [] => (c, keys, m, [])
  | (k, vk) :: fs =>
    match gocn c kid keys m k with
    | (c1, keys1, m1, ev1, cid, ct) =>
      match vk with
      | .undef =>
          match brRemoveKey kid keys1 m1 k with
          | (keys2, m2, ev2) =>
            match updObj c1 kid keys2 m2 fs with
            | (c3, keys3, m3, ev3) => (c3, keys3, m3, ev1 ++ ev2 ++ ev3)
      | .null =>
          match brRemoveKey kid keys1 m1 k with
          | (keys2, m2, ev2) =>
            match updObj c1 kid keys2 m2 fs with
            | (c3, keys3, m3, ev3) => (c3, keys3, m3, ev1 ++ ev2 ++ ev3)
      | .atom a =>
          match leafSet c1 cid ct a with
          | (c2, ct1, ev2) =>
            match updObj c2 kid keys1 (cset m1 k (cid, ct1)) fs with
            | (c3, keys3, m3, ev3) => (c3, keys3, m3, ev1 ++ ev2 ++ ev3)
      | v' =>
          match updateGo c1 cid ct v' with
          | (c2, ct1, ev2) =>
            match updObj c2 kid keys1 (cset m1 k (cid, ct1)) fs with
            | (c3, keys3, m3, ev3) => (c3, keys3, m3, ev1 ++ ev2 ++ ev3)

end

/-- Lookup in an extracted-children list, defaulting to `undefined`. -/
def lookupD (l : List (String × JSVal)) (k : String) : JSVal :=
  (List.lookup k l).getD .undef

mutual

/-- `Node.extractValue`: `undefined` content (or a leaf topic holding
`undefined`) extracts to `undefined`; a leaf topic to its value; a
branch to an array or record assembled from its children in key order.
The children are extracted through the map (`nodes.get(k)!`); a key
missing from the map — impossible for the states the code produces —
is modelled as extracting to `undefined`. -/
def extractT : Tree → JSVal
  | .tUndef => .undef
  | .tLeaf _ w =>
      (match w with
       | none => .undef
       | some a => .atom a)
  | .tBranch isArr _ keys m =>
      let ext := extractM m
      if isArr then .arr (keys.map (fun k => lookupD ext k))
      else .obj (keys.map (fun k => (k, lookupD ext k)))

/-- Extraction of every child in the `nodes` map, in map order. -/
def extractM : ChildMap → List (String × JSVal)
  | [] => []
  | (k, _, ct) :: rest => (k, extractT ct) :: extractM rest

end

/-- `Node.getNode`: read-only walk; `none` when an intermediate content
is not a branch or a key is absent from its map.  Returns the resolved
node's id and content. -/
def getNodeT (nid : Nat) (t : Tree) : List String → Option (Nat × Tree)
  | [] => some (nid, t)
  | k :: rest =>
      match t with
      | .tBranch _ _ _ m =>
          match clookup m k with
          | some (cid, ct) => getNodeT cid ct rest
          | none => none
      | _ => none

mutual
/-- `Node.collectTopicsInto`: the topics reachable under a node's
content — a leaf topic; or a branch's keys topic followed by, for
every child in the `nodes` map, the child's node topic and recursively
its content's topics. -/
def collectT : Tree → List Nat
  | .tUndef => []
  | .tLeaf lid _ => [lid]
  | .tBranch _ kid _ m => kid :: collectM m

def collectM : ChildMap → List Nat
  | [] => []
  | (_, cid, ct) :: rest => (cid :: collectT ct) ++ collectM rest
end

/-- `Node.getNodeAndTopics`: tracked walk.  Missing keys get a
*volatile* child node (fresh id, `undefined` content, added to the map
but not to the keys topic); the walk returns every node topic visited
in order, plus the resolved node (or `none` when a non-branch content
was hit).  Returns counter, updated tree, resolved node, topics. -/
def gnat (c nid : Nat) (t : Tree) : List String → Nat × Tree × Option (Nat × Tree) × List Nat
  | [] => (c, t, some (nid, t), [nid])
  | k :: rest =>
      match t with
      | .tBranch isArr kid keys m =>
          match clookup m k with
          | some (cid, ct) =>
              match gnat c cid ct rest with
              | (c1, ct1, res, tps) =>
                (c1, .tBranch isArr kid keys (cset m k (cid, ct1)), res, nid :: tps)
          | none =>
              match gnat (c + 1) c .tUndef rest with
              | (c1, ct1, res, tps) =>
                (c1, .tBranch isArr kid keys (cset m k (c, ct1)), res, nid :: tps)
      | _ => (c, t, none, [nid])

/-- The dependency set a `use()` at path `p` subscribes to: the node
topics along the walk plus every topic under the resolved subtree. -/
def useDeps (c : Nat) (t : Tree) (p : List String) : Nat × Tree × List Nat :=
  match gnat c 0 t p with
  | (c1, t1, some (_, ct), tps) => (c1, t1, tps ++ collectT ct)
  | (c1, t1, none, tps) => (c1, t1, tps)

/-- The dependency set a `useSize()` at path `p` subscribes to: the
node topics along the walk plus — when the resolved content is a
branch — its keys topic only, never its children. -/
def useSizeDeps (c : Nat) (t : Tree) (p : List String) : Nat × Tree × List Nat :=
  match gnat c 0 t p with
  | (c1, t1, some (_, .tBranch _ kid _ _), tps) => (c1, t1, tps ++ [kid])
  | (c1, t1, _, tps) => (c1, t1, tps)

/-- A subscriber whose dependency set is `deps` is marked dirty by an
operation iff one of its dependencies fired. -/
def marksDirty (deps : List Nat) (es : Events) : Bool :=
  deps.any (fun d => d ∈ es)

/-- Facade `readKeys()`: branch content's ordered keys, else `[]`. -/
def readKeysP (t : Tree) (p : List String) : List String :=
  match getNodeT 0 t p with
  | some (_, .tBranch _ _ keys _) => keys
  | _ => []

/-- Facade `readSize()`: branch content's key count, else `0`. -/
def readSizeP (t : Tree) (p : List String) : Nat :=
  match getNodeT 0 t p with
  | some (_, .tBranch _ _ keys _) => keys.length
  | _ => 0

/-- `getStateKind` of a node content (or of a failed navigation):
`"atomic"` for a leaf topic, `"array"`/`"object"` for a branch
according to `isArray`, `"undefined"` otherwise.  These four strings
are the `StateKind` literals of the code. -/
def getStateKind : Option Tree → String
  | some (.tLeaf _ _) => "atomic"
  | some (.tBranch true _ _ _) => "array"
  | some (.tBranch false _ _ _) => "object"
  | _ => "undefined"

/-- Facade `readKind()`. -/
def readKindP (t : Tree) (p : List String) : String :=
  getStateKind ((getNodeT 0 t p).map (fun x => x.2))

/-- Facade `read()`: untracked extraction, `undefined` on a miss. -/
def readP (t : Tree) (p : List String) : JSVal :=
  match getNodeT 0 t p with
  | none => .undef
  | some (_, ct) => extractT ct

/-- Facade `update(value)` after validation: resolve the path with
`getOrCreateNode` (ensuring a branch at every step and adding each key,
which can fire node and keys topics along the way), then run
`Node.update` at the target — whose `undefined`/`null` case goes
through the owning branch's `removeKey` when the path is non-empty. -/
def facadeGo (c nid : Nat) (t : Tree) (p : List String) (v : JSVal) : Nat × Tree × Events :=
  match p with
  | [] => updateGo c nid t v
  | k :: rest =>
      match ensureBranch c nid t with
      | (c1, isArr, kid, keys0, m0, ev0) =>
        match gocn c1 kid keys0 m0 k with
        | (c2, keys1, m1, ev1, cid, ct) =>
          match rest, isEmptyVal v with
          | [], true =>
              match brRemoveKey kid keys1 m1 k with
              | (keys2, m2, ev2) =>
                (c2, .tBranch isArr kid keys2 m2, ev0 ++ ev1 ++ ev2)
          | _, _ =>
              match facadeGo c2 cid ct rest v with
              | (c3, ct1, ev2) =>
                (c3, .tBranch isArr kid keys1 (cset m1 k (cid, ct1)), ev0 ++ ev1 ++ ev2)

/-- The public facade `update`: `validateStateInput` first — throwing
(flag `true`) on a non-plain object instance *before any mutation*, so
the tree and counter are returned untouched and no topic fires — then
the structural update. -/
def facadeUpdateV (c : Nat) (t : Tree) (p : List String) (v : JSVal) :
    (Nat × Tree × Events) × Bool :=
  if JSVal.validate v then (facadeGo c 0 t p v, false) else ((c, t, []), true)

/-- The public facade `removeKey`: resolve the path read-only; when the
content there is a branch, run its `removeKey`. -/
def facadeRemoveKey (t : Tree) (p : List String) (k : String) : Tree × Events :=
  match p with
  | [] =>
      match t with
      | .tBranch isArr kid keys m =>
          match brRemoveKey kid keys m k with
          | (keys1, m1, ev) => (.tBranch isArr kid keys1 m1, ev)
      | _ => (t, [])
  | k' :: rest =>
      match t with
      | .tBranch isArr kid keys m =>
          match clookup m k' with
          | some (cid, ct) =>
              match facadeRemoveKey ct rest k with
              | (ct1, ev) => (.tBranch isArr kid keys (cset m k' (cid, ct1)), ev)
          | none => (t, [])
      | _ => (t, [])

/-- `createState(v)`: a fresh root node (id 0, `undefined` content, no
detach callback), immediately updated with `v`; topic ids are
allocated from 1. -/
def buildState (v : JSVal) : Nat × Tree × Events :=
  facadeGo 1 0 .tUndef [] v

/-! ## Basic lemmas about the child-map operations -/

namespace Tree

theorem clookup_nil (k : String) : clookup [] k = none := rfl

theorem clookup_cons (e : String × Nat × Tree) (m : ChildMap) (k : String) :
    clookup (e :: m) k = if k = e.1 then some e.2 else clookup m k := by
  obtain ⟨k', v⟩ := e
  by_cases h : k = k'
  · subst h
    simp [clookup, List.lookup]
  · simp only [clookup, List.lookup]
    rw [beq_eq_false_iff_ne.mpr h]
    simp [h]

theorem clookup_cset (m : ChildMap) (k k' : String) (v : Nat × Tree) :
    clookup (cset m k v) k' = if k' = k then some v else clookup m k' := by
  induction m with
  | nil => simp [cset, clookup_cons, clookup_nil]
  | cons e rest ih =>
      obtain ⟨ke, ve⟩ := e
      simp only [cset]
      by_cases h : ke = k
      · subst h
        by_cases h2 : k' = ke <;> simp [clookup_cons, h2]
      · rw [if_neg h]
        by_cases h2 : k' = ke
        · subst h2
          have h3 : ¬k' = k := fun hh => h (hh ▸ rfl)
          simp [clookup_cons, h3]
        · simp [clookup_cons, h2, ih]

theorem cset_id (m : ChildMap) (k : String) (v : Nat × Tree)
    (h : clookup m k = some v) : cset m k v = m := by
  induction m with
  | nil => simp [clookup_nil] at h
  | cons e rest ih =>
      obtain ⟨ke, ve⟩ := e
      rw [clookup_cons] at h
      simp only [cset]
      by_cases h2 : ke = k
      · subst h2
        rw [if_pos rfl] at h ⊢
        simp only [Option.some.injEq] at h
        rw [h]
      · rw [if_neg h2]
        rw [if_neg (fun hh : k = ke => h2 hh.symm)] at h
        rw [ih h]

theorem clookup_cdel (m : ChildMap) (k k' : String) :
    clookup (cdel m k) k' = if k' = k then none else clookup m k' := by
  induction m with
  | nil => simp [cdel, clookup_nil]
  | cons e rest ih =>
      obtain ⟨ke, ve⟩ := e
      simp only [cdel]
      by_cases h : ke = k
      · subst h
        rw [if_pos rfl, ih]
        by_cases h2 : k' = ke <;> simp [clookup_cons, h2]
      · rw [if_neg h]
        by_cases h2 : k' = ke
        · subst h2
          have h3 : ¬k' = k := fun hh => h (hh ▸ rfl)
          simp [clookup_cons, h3, ih]
        · simp [clookup_cons, h2, ih]

end Tree

/-! ## Induction principles for the nested inductives -/

/-- Structural induction over `JSVal`, with membership hypotheses for
the nested lists. -/
def JSVal.indOn {P : JSVal → Prop}
    (h1 : P .undef) (h2 : P .null) (h3 : ∀ a, P (.atom a)) (h4 : ∀ i, P (.exotic i))
    (h5 : ∀ es, (∀ e ∈ es, P e) → P (.arr es))
    (h6 : ∀ fs, (∀ f ∈ fs, P f.2) → P (.obj fs)) : ∀ v, P v
  | .undef => h1
  | .null => h2
  | .atom a => h3 a
  | .exotic i => h4 i
  | .arr es => h5 es (fun e he => JSVal.indOn h1 h2 h3 h4 h5 h6 e)
  | .obj fs => h6 fs (fun f hf => JSVal.indOn h1 h2 h3 h4 h5 h6 f.2)
termination_by v => sizeOf v
decreasing_by
  · calc sizeOf e < sizeOf es := List.sizeOf_lt_of_mem he
      _ < sizeOf (JSVal.arr es) := by simp_arith
  · obtain ⟨k, w⟩ := f
    calc sizeOf w < sizeOf (k, w) := by simp_arith
      _ ≤ sizeOf fs := Nat.le_of_lt (List.sizeOf_lt_of_mem hf)
      _ < sizeOf (JSVal.obj fs) := by simp_arith

/-- Structural induction over `Tree`, with membership hypotheses for
the child map. -/
def Tree.indOn {P : Tree → Prop}
    (h1 : P .tUndef) (h2 : ∀ lid w, P (.tLeaf lid w))
    (h3 : ∀ ia kid keys m, (∀ e ∈ m, P e.2.2) → P (.tBranch ia kid keys m)) : ∀ t, P t
  | .tUndef => h1
  | .tLeaf lid w => h2 lid w
  | .tBranch ia kid keys m => h3 ia kid keys m (fun e he => Tree.indOn h1 h2 h3 e.2.2)
termination_by t => sizeOf t
decreasing_by
  obtain ⟨k, cid, ct⟩ := e
  calc sizeOf ct < sizeOf (k, cid, ct) := by simp_arith
    _ ≤ sizeOf m := Nat.le_of_lt (List.sizeOf_lt_of_mem he)
    _ < sizeOf (Tree.tBranch ia kid keys m) := by simp_arith

/-! ## List-level unfoldings of the mutual definitions -/

namespace JSVal

@[simp] theorem validateL_eq (es : List JSVal) : validateL es = es.all validate := by
  induction es with
  | nil => rfl
  | cons e es ih => simp [validateL, ih]

@[simp] theorem validateF_eq (fs : List (String × JSVal)) :
    validateF fs = fs.all (fun f => validate f.2) := by
  induction fs with
  | nil => rfl
  | cons f fs ih => simp [validateF, ih]

@[simp] theorem hasExoticL_eq (es : List JSVal) : hasExoticL es = es.any hasExotic := by
  induction es with
  | nil => rfl
  | cons e es ih => simp [hasExoticL, ih]

@[simp] theorem hasExoticF_eq (fs : List (String × JSVal)) :
    hasExoticF fs = fs.any (fun f => hasExotic f.2) := by
  induction fs with
  | nil => rfl
  | cons f fs ih => simp [hasExoticF, ih]

@[simp] theorem nullFreeL_eq (es : List JSVal) : nullFreeL es = es.all nullFree := by
  induction es with
  | nil => rfl
  | cons e es ih => simp [nullFreeL, ih]

@[simp] theorem nullFreeF_eq (fs : List (String × JSVal)) :
    nullFreeF fs = fs.all (fun f => nullFree f.2) := by
  induction fs with
  | nil => rfl
  | cons f fs ih => simp [nullFreeF, ih]

@[simp] theorem cleanL_eq (es : List JSVal) : cleanL es = es.all cleanIn := by
  induction es with
  | nil => rfl
  | cons e es ih => simp [cleanL, ih]

@[simp] theorem cleanF_eq (fs : List (String × JSVal)) :
    cleanF fs = fs.all (fun f => cleanIn f.2) := by
  induction fs with
  | nil => rfl
  | cons f fs ih => simp [cleanF, ih]

/-- Validation fails on every value containing a non-plain object
instance at any depth. -/
theorem validate_eq_false_of_hasExotic :
    ∀ v : JSVal, hasExotic v = true → validate v = false := by
  intro v
  induction v using JSVal.indOn with
  | h1 => intro h; cases h
  | h2 => intro h; cases h
  | h3 a => intro h; cases h
  | h4 i => intro h; rfl
  | h5 es ih =>
      intro h
      simp only [hasExotic, hasExoticL_eq, List.any_eq_true] at h
      obtain ⟨e, he, hex⟩ := h
      simp only [validate, validateL_eq]
      cases hall : es.all validate
      · rfl
      · exfalso
        rw [List.all_eq_true] at hall
        have := hall e he
        rw [ih e he hex] at this
        cases this
  | h6 fs ih =>
      intro h
      simp only [hasExotic, hasExoticF_eq, List.any_eq_true] at h
      obtain ⟨f, hf, hex⟩ := h
      simp only [validate, validateF_eq]
      cases hall : fs.all (fun f => JSVal.validate f.2)
      · rfl
      · exfalso
        rw [List.all_eq_true] at hall
        have := hall f hf
        rw [ih f hf hex] at this
        cases this

end JSVal

/-! ## The standalone `Topic` detach state machine (for the detach
lifecycle claims).

`Topic.set` stores the new value, notifies on strict change, and then
always runs `tryDetach`; `Topic.subscribe` only adds to the subscriber
set; `Topic.unsubscribe` removes and then runs `tryDetach`.
`tryDetach` invokes the owner-supplied detach callback whenever the
callback exists, the subscriber set is empty and the value is
`undefined` — it has no once-only latch.  The machine counts detach
invocations; notification is not tracked here (it is irrelevant to the
detach lifecycle).  Subscribers are identity tokens held in a `Set`
(deduplicating add, removing delete); the value payload is abstract
(`Option Nat`, `none` = `undefined`). -/

structure TopicM where
  value : Option Nat
  subs : List Nat
  hasDetach : Bool
  deriving DecidableEq, Repr

/-- `Topic.tryDetach`: 1 invocation iff the callback exists, there are
no subscribers, and the value is `undefined`. -/
def tryDetachN (st : TopicM) : Nat :=
  if st.hasDetach = true ∧ st.subs = [] ∧ st.value = none then 1 else 0

/-- The operations of the Topic state machine. -/
inductive TOp where
  | tset (v : Option Nat)
  | tsub (s : Nat)
  | tunsub (s : Nat)
  deriving DecidableEq, Repr

/-- One operation: returns the new state and the number of detach
invocations it performed. -/
def tstep : TopicM → TOp → TopicM × Nat
  | st, .tset v =>
      let st1 : TopicM := ⟨v, st.subs, st.hasDetach⟩
      (st1, tryDetachN st1)
  | st, .tsub s =>
      (⟨st.value, if s ∈ st.subs then st.subs else st.subs ++ [s], st.hasDetach⟩, 0)
  | st, .tunsub s =>
      let st1 : TopicM := ⟨st.value, st.subs.filter (fun x => x ≠ s), st.hasDetach⟩
      (st1, tryDetachN st1)

/-- Run a sequence of operations, totalling detach invocations. -/
def trun : TopicM → List TOp → TopicM × Nat
  | st, [] => (st, 0)
  | st, op :: ops =>
      match tstep st op with
      | (st1, d) =>
          match trun st1 ops with
          | (st2, ds) => (st2, d + ds)

/-- `set` and `unsubscribe` call `tryDetach`; `subscribe` does not. -/
def checksDetachB : TOp → Bool
  | .tsub _ => false
  | _ => true

/-- The detach condition, observed on a state. -/
def detachCondB (st : TopicM) : Bool :=
  st.hasDetach && st.subs.isEmpty && st.value.isNone

/-- The states after each successive operation. -/
def stTrace (st : TopicM) : List TOp → List TopicM
  | [] => []
  | op :: ops =>
      match tstep st op with
      | (st1, _) => st1 :: stTrace st1 ops

theorem tryDetachN_eq (st : TopicM) :
    tryDetachN st = if detachCondB st then 1 else 0 := by
  by_cases h : st.hasDetach = true ∧ st.subs = [] ∧ st.value = none
  · obtain ⟨h1, h2, h3⟩ := h
    simp [tryDetachN, detachCondB, h1, h2, h3]
  · rw [tryDetachN, if_neg h]
    have : detachCondB st = false := by
      rw [detachCondB]
      by_cases h1 : st.hasDetach = true
      · by_cases h2 : st.subs = []
        · by_cases h3 : st.value = none
          · exact absurd ⟨h1, h2, h3⟩ h
          · simp [h1, h2, h3, Option.isNone_iff_eq_none, Option.isSome_iff_ne_none]
        · simp [h1, List.isEmpty_iff, h2]
      · simp [Bool.eq_false_iff.mpr h1]
    simp [this]

/-- Detach invocations per operation: exactly one iff the operation is
a `set` or `unsubscribe` and the post-state satisfies the detach
condition. -/
theorem tstep_detach_iff (st : TopicM) (op : TOp) :
    (tstep st op).2 = if checksDetachB op && detachCondB (tstep st op).1 then 1 else 0 := by
  cases op with
  | tset v => simp [tstep, checksDetachB, tryDetachN_eq]
  | tsub s => simp [tstep, checksDetachB]
  | tunsub s => simp [tstep, checksDetachB, tryDetachN_eq]

theorem trun_state_eq_last (st : TopicM) (op : TOp) (ops : List TOp) :
    (trun st (op :: ops)).1 = (trun (tstep st op).1 ops).1 := by
  simp only [trun]

/-- Total detach count over a run: the number of operations that are a
`set`/`unsubscribe` and whose post-state satisfies the condition. -/
theorem trun_detach_count (ops : List TOp) : ∀ st : TopicM,
    (trun st ops).2 =
      ((ops.zip (stTrace st ops)).filter
        (fun p => checksDetachB p.1 && detachCondB p.2)).length := by
  induction ops with
  | nil => intro st; rfl
  | cons op ops ih =>
      intro st
      rw [trun]
      cases hs : tstep st op with
      | mk st1 d =>
        rw [stTrace, hs]
        simp only [List.zip_cons_cons, List.filter_cons]
        cases htr : trun st1 ops with
        | mk st2 ds =>
          have hd : d = if checksDetachB op && detachCondB st1 then 1 else 0 := by
            have := tstep_detach_iff st op
            rw [hs] at this
            exact this
          have hds : ds = ((ops.zip (stTrace st1 ops)).filter
              (fun p => checksDetachB p.1 && detachCondB p.2)).length := by
            have := ih st1
            rw [htr] at this
            exact this
          by_cases hc : (checksDetachB op && detachCondB st1) = true
          · simp [hc, hd, hds, Nat.add_comm]
          · simp [hc, hd, hds, Bool.eq_false_iff.mpr hc]

/-! ## Claim theorems: C8, C4, C9, C5 -/

/-- **C8 counterexample.**  The claim states that across any sequence of
set/subscribe/unsubscribe operations a detachable Topic's detach
callback runs exactly once — never zero times when the condition
(zero subscribers, empty value) is reached, never a second time.  On a
topic created with a detach callback, no subscribers and an empty
value, the sequence subscribe 0, unsubscribe 0, subscribe 0,
unsubscribe 0 invokes detach twice, and the empty sequence invokes it
zero times although the condition holds from construction on. -/
theorem C8_counterexample :
    (trun ⟨none, [], true⟩ [.tsub 0, .tunsub 0, .tsub 0, .tunsub 0]).2 = 2 ∧
    (trun ⟨none, [], true⟩ []).2 = 0 :=
  ⟨rfl, rfl⟩

/-- **C8 (amended).**  For a Topic with an owner-supplied detach
callback, each individual `set`/`unsubscribe` operation invokes the
callback exactly once iff the state it leaves behind has zero
subscribers and an empty value; `subscribe` operations and
construction never invoke it; over a whole run the invocation count is
the number of `set`/`unsubscribe` operations whose post-state
satisfies the condition — at least one when the condition is entered
by such an operation, but possibly more than one over the sequence. -/
theorem C8_detach_per_operation :
    (∀ (st : TopicM) (op : TOp),
      (tstep st op).2 =
        if checksDetachB op && detachCondB (tstep st op).1 then 1 else 0) ∧
    (∀ (ops : List TOp) (st : TopicM),
      (trun st ops).2 =
        ((ops.zip (stTrace st ops)).filter
          (fun p => checksDetachB p.1 && detachCondB p.2)).length) :=
  ⟨tstep_detach_iff, trun_detach_count⟩

/-- **C4.**  For every input value containing a non-plain object
instance at any depth, the facade `update` throws the invalid-input
error before performing any mutation: the returned tree and allocation
counter are exactly the ones passed in, no topic fires, and the thrown
flag is set. -/
theorem C4_validation_rejection (c : Nat) (t : Tree) (p : List String) (v : JSVal)
    (h : JSVal.hasExotic v = true) :
    facadeUpdateV c t p v = ((c, t, []), true) := by
  unfold facadeUpdateV
  rw [JSVal.validate_eq_false_of_hasExotic v h]
  simp

/-- Witness for `C4_validation_rejection`: `update({d: new Date()})` on
a leaf-holding tree throws and leaves the tree untouched. -/
theorem C4_validation_rejection_witness :
    JSVal.hasExotic (.obj [("d", .exotic 0)]) = true ∧
    facadeUpdateV 6 (.tLeaf 1 (some (.num 5))) [] (.obj [("d", .exotic 0)]) =
      ((6, .tLeaf 1 (some (.num 5)), []), true) :=
  ⟨rfl, C4_validation_rejection 6 (.tLeaf 1 (some (.num 5))) [] (.obj [("d", .exotic 0)]) rfl⟩

/-- **C9.**  For every path that resolves to a node whose content is
not a branch — an atomic leaf, an empty node, or no node at all —
`readKeys()` returns `[]` and `readSize()` returns `0`.  (Both are
defined through the read-only `getNode` walk, which neither creates
nor mutates anything, and neither operation can throw.) -/
theorem C9_navigation_miss (t : Tree) (p : List String)
    (h : ∀ nid ct, getNodeT 0 t p = some (nid, ct) → ct.isBranch = false) :
    readKeysP t p = [] ∧ readSizeP t p = 0 := by
  cases hg : getNodeT 0 t p with
  | none => exact ⟨by simp [readKeysP, hg], by simp [readSizeP, hg]⟩
  | some x =>
      obtain ⟨nid, ct⟩ := x
      have hb := h nid ct hg
      cases ct with
      | tUndef => exact ⟨by simp [readKeysP, hg], by simp [readSizeP, hg]⟩
      | tLeaf lid w => exact ⟨by simp [readKeysP, hg], by simp [readSizeP, hg]⟩
      | tBranch ia kid keys m => simp [Tree.isBranch] at hb

/-- Witness for `C9_navigation_miss`: reading keys and size through a
missing path on an empty root. -/
theorem C9_navigation_miss_witness :
    readKeysP .tUndef [ "a"] = [] ∧ readSizeP .tUndef [ "a"] = 0 :=
  C9_navigation_miss .tUndef [ "a"] (fun _ _ hh => Option.noConfusion hh)

/-- The tree built by `createState({a: 1, b: 2})` followed by the
facade `removeKey("a")` at the root. -/
def rmTree : Tree :=
  (facadeRemoveKey
    (buildState (.obj [("a", .atom (.num 1)), ("b", .atom (.num 2))])).2.1 [] "a").1

/-- **C5 counterexample.**  The claim asserts that after
`removeKey("a")` on `{a: 1, b: 2}`, `get("a").readKind()` reports the
kind `empty` (with kind enumeration atomic/array/object/empty).  The
code's `StateKind` enumeration is `"atomic" | "object" | "array" |
"undefined"`: the removed key's kind is reported as the string
`"undefined"`, not `"empty"`. -/
theorem C5_counterexample : ¬ readKindP rmTree ["a"] = "empty" := by decide

/-- **C5 (amended).**  After building `{a: 1, b: 2}` and calling
`removeKey("a")`: `readKeys()` is `["b"]`, `readSize()` is `1`, and
`get("a").readKind()` reports `"undefined"` — the code's name for the
empty kind — where `readKind` always returns one of `"atomic"`,
`"object"`, `"array"`, `"undefined"`. -/
theorem C5_removal_semantics :
    readKeysP rmTree [] = ["b"] ∧ readSizeP rmTree [] = 1 ∧
    readKindP rmTree ["a"] = "undefined" ∧
    ∀ (t : Tree) (p : List String),
      readKindP t p = "atomic" ∨ readKindP t p = "object" ∨
      readKindP t p = "array" ∨ readKindP t p = "undefined" := by
  refine ⟨rfl, rfl, rfl, ?_⟩
  intro t p
  simp only [readKindP]
  cases hg : getNodeT 0 t p with
  | none => simp [getStateKind]
  | some x =>
      obtain ⟨nid, ct⟩ := x
      cases ct with
      | tUndef => simp [getStateKind]
      | tLeaf lid w => simp [getStateKind]
      | tBranch ia kid keys m => cases ia <;> simp [getStateKind]

/-! ## C10: null is normalized to empty -/

theorem lookup_mem {α β : Type} [BEq α] [LawfulBEq α] {l : List (α × β)} {k : α} {v : β}
    (h : List.lookup k l = some v) : (k, v) ∈ l := by
  induction l with
  | nil => cases h
  | cons e rest ih =>
      obtain ⟨k', v'⟩ := e
      rw [List.lookup] at h
      split at h
      · rename_i hb
        injection h with h
        have : k = k' := eq_of_beq hb
        subst this
        subst h
        exact List.mem_cons_self _ _
      · exact List.mem_cons_of_mem _ (ih h)

theorem extractM_eq (m : ChildMap) :
    extractM m = m.map (fun e => (e.1, extractT e.2.2)) := by
  induction m with
  | nil => rfl
  | cons e rest ih =>
      obtain ⟨k, cid, ct⟩ := e
      simp [extractM, ih]

/-- Extraction never produces `null` anywhere: leaf topics only ever
hold atomic values or `undefined`, never `null`. -/
theorem nullFree_extractT : ∀ t : Tree, JSVal.nullFree (extractT t) = true := by
  intro t
  induction t using Tree.indOn with
  | h1 => rfl
  | h2 lid w => cases w <;> rfl
  | h3 ia kid keys m ih =>
      have hE : ∀ k, JSVal.nullFree (lookupD (extractM m) k) = true := by
        intro k
        unfold lookupD
        cases hl : List.lookup k (extractM m) with
        | none => rfl
        | some v =>
            rw [extractM_eq] at hl
            have hmem := lookup_mem hl
            rw [List.mem_map] at hmem
            obtain ⟨e, he, hfe⟩ := hmem
            have hv : v = extractT e.2.2 := by
              have := congrArg Prod.snd hfe
              simpa using this.symm
            rw [Option.getD_some, hv]
            exact ih e he
      show JSVal.nullFree (extractT (.tBranch ia kid keys m)) = true
      rw [extractT]
      cases ia with
      | true =>
          rw [if_pos rfl]
          simp only [JSVal.nullFree, JSVal.nullFreeL_eq, List.all_eq_true]
          intro x hx
          rw [List.mem_map] at hx
          obtain ⟨k, _, hk⟩ := hx
          rw [← hk]
          exact hE k
      | false =>
          rw [if_neg (by simp)]
          simp only [JSVal.nullFree, JSVal.nullFreeF_eq, List.all_eq_true]
          intro x hx
          rw [List.mem_map] at hx
          obtain ⟨k, _, hk⟩ := hx
          rw [← hk]
          exact hE k

/-- `update(null)` and `update(undefined)` run the same code path at
every path of every tree. -/
theorem facadeGo_null_eq_undef : ∀ (p : List String) (c nid : Nat) (t : Tree),
    facadeGo c nid t p .null = facadeGo c nid t p .undef := by
  intro p
  induction p with
  | nil => intro c nid t; rfl
  | cons k rest ih =>
      intro c nid t
      cases rest with
      | nil => rfl
      | cons r rs =>
          rw [facadeGo.eq_def]
          rw [facadeGo.eq_def]
          dsimp only
          simp only [isEmptyVal, ih]

/-- The tree after `createState({a: 1})` followed by the facade
`update({a: null})` at the root. -/
def nullUpdTree : Tree :=
  (facadeUpdateV (buildState (.obj [("a", .atom (.num 1))])).1
    (buildState (.obj [("a", .atom (.num 1))])).2.1 [] (.obj [("a", .null)])).1.2.1

/-- **C10.**  `null` is normalized to empty: (i) updating with `null`
is the very same operation as updating with `undefined` at every path
of every tree (both run the emptying branch of `Node.update`, removing
the key from the owning branch when one exists); (ii) a read never
returns `null` — extraction is `null`-free for every tree; (iii) a
`null` nested inside an updated record empties that sub-position: after
`update({a: null})` on `{a: 1}` the key set is empty and reading `a`
yields `undefined`, not `null`. -/
theorem C10_null_normalization :
    (∀ (p : List String) (c nid : Nat) (t : Tree),
        facadeGo c nid t p .null = facadeGo c nid t p .undef) ∧
    (∀ t : Tree, JSVal.nullFree (extractT t) = true) ∧
    readKeysP nullUpdTree [] = [] ∧ readP nullUpdTree ["a"] = .undef :=
  ⟨facadeGo_null_eq_undef, nullFree_extractT, rfl, rfl⟩

/-! ## Injectivity of the decimal key encoding

Array indices are used as map keys through `String(i)`; distinctness
of these key strings underpins the key-set arithmetic of structural
array updates. -/

theorem toDigitsCore_eq_digits (fuel : Nat) :
    ∀ (n : Nat) (l : List Char), n < fuel → 0 < n →
    Nat.toDigitsCore 10 fuel n l = ((Nat.digits 10 n).map Nat.digitChar).reverse ++ l := by
  induction fuel with
  | zero => intro n l hf _; omega
  | succ fuel ih =>
      intro n l hf hn
      rw [Nat.toDigitsCore]
      have hd : Nat.digits 10 n = n % 10 :: Nat.digits 10 (n / 10) :=
        Nat.digits_def' (by norm_num) hn
      by_cases h0 : n / 10 = 0
      · simp only [h0, if_pos rfl]
        rw [hd, h0]
        simp
      · simp only [if_neg h0]
        have hlt : n / 10 < fuel := by
          have : n / 10 < n := Nat.div_lt_self hn (by norm_num)
          omega
        rw [ih (n / 10) (Nat.digitChar (n % 10) :: l) hlt (Nat.pos_of_ne_zero h0)]
        rw [hd]
        simp

theorem toDigits_eq (n : Nat) :
    Nat.toDigits 10 n =
      if n = 0 then ['0'] else ((Nat.digits 10 n).map Nat.digitChar).reverse := by
  by_cases h : n = 0
  · subst h; rfl
  · rw [if_neg h, Nat.toDigits,
      toDigitsCore_eq_digits (n + 1) n [] (by omega) (Nat.pos_of_ne_zero h)]
    simp

theorem digitChar_inj_lt : ∀ a < 10, ∀ b < 10, Nat.digitChar a = Nat.digitChar b → a = b := by
  decide

theorem map_digitChar_inj : ∀ (l1 l2 : List Nat), (∀ x ∈ l1, x < 10) → (∀ x ∈ l2, x < 10) →
    l1.map Nat.digitChar = l2.map Nat.digitChar → l1 = l2 := by
  intro l1
  induction l1 with
  | nil =>
      intro l2 _ _ h
      cases l2 with
      | nil => rfl
      | cons b l2 => simp at h
  | cons a l ih =>
      intro l2 h1 h2 h
      cases l2 with
      | nil => simp at h
      | cons b l2 =>
          simp only [List.map_cons, List.cons.injEq] at h
          obtain ⟨hab, hl⟩ := h
          have hae := digitChar_inj_lt a (h1 a (List.mem_cons_self a l)) b
            (h2 b (List.mem_cons_self b l2)) hab
          have hle := ih l2 (fun x hx => h1 x (List.mem_cons_of_mem a hx))
            (fun x hx => h2 x (List.mem_cons_of_mem b hx)) hl
          rw [hae, hle]

/-- A nonzero number's digit-character list is never `['0']`. -/
theorem digits_map_ne_zero_singleton {n : Nat} (hn : n ≠ 0) :
    ((Nat.digits 10 n).map Nat.digitChar).reverse ≠ ['0'] := by
  intro h
  have h2 : (Nat.digits 10 n).map Nat.digitChar = ['0'] := by
    have := congrArg List.reverse h
    simpa using this
  have h3 : Nat.digits 10 n = [0] := by
    apply map_digitChar_inj _ [0]
    · intro x hx; exact Nat.digits_lt_base (by norm_num) hx
    · intro x hx; simp at hx; omega
    · simpa using h2
  apply hn
  calc n = Nat.ofDigits 10 (Nat.digits 10 n) := (Nat.ofDigits_digits 10 n).symm
    _ = Nat.ofDigits 10 [0] := by rw [h3]
    _ = 0 := by simp [Nat.ofDigits]

theorem natRepr_inj {a b : Nat} (h : Nat.repr a = Nat.repr b) : a = b := by
  have h2 : Nat.toDigits 10 a = Nat.toDigits 10 b := by
    rw [Nat.repr, Nat.repr] at h
    have := congrArg String.data h
    simpa [List.asString] using this
  rw [toDigits_eq, toDigits_eq] at h2
  by_cases ha : a = 0 <;> by_cases hb : b = 0
  · rw [ha, hb]
  · rw [if_pos ha, if_neg hb] at h2
    exact absurd h2.symm (digits_map_ne_zero_singleton hb)
  · rw [if_neg ha, if_pos hb] at h2
    exact absurd h2 (digits_map_ne_zero_singleton ha)
  · rw [if_neg ha, if_neg hb] at h2
    have h3 : (Nat.digits 10 a).map Nat.digitChar = (Nat.digits 10 b).map Nat.digitChar := by
      have := congrArg List.reverse h2
      simpa using this
    have h4 : Nat.digits 10 a = Nat.digits 10 b :=
      map_digitChar_inj _ _ (fun x hx => Nat.digits_lt_base (by norm_num) hx)
        (fun x hx => Nat.digits_lt_base (by norm_num) hx) h3
    calc a = Nat.ofDigits 10 (Nat.digits 10 a) := (Nat.ofDigits_digits 10 a).symm
      _ = Nat.ofDigits 10 (Nat.digits 10 b) := by rw [h4]
      _ = b := Nat.ofDigits_digits 10 b

/-- `String(i)` on array indices is injective. -/
theorem natToString_inj {a b : Nat} (h : toString a = toString b) : a = b :=
  natRepr_inj h

theorem mem_arrKeys_iff {j n : Nat} : toString j ∈ arrKeys n ↔ j < n := by
  constructor
  · intro h
    rw [arrKeys, List.mem_map] at h
    obtain ⟨i, hi, he⟩ := h
    rw [List.mem_range] at hi
    exact natToString_inj he ▸ hi
  · intro h
    rw [arrKeys, List.mem_map]
    exact ⟨j, List.mem_range.mpr h, rfl⟩

theorem arrKeys_nodup (n : Nat) : (arrKeys n).Nodup := by
  rw [arrKeys]
  exact (List.nodup_range n).map_on
    (fun a _ b _ h => natToString_inj h)

theorem arrKeys_succ (n : Nat) : arrKeys (n + 1) = arrKeys n ++ [toString n] := by
  rw [arrKeys, arrKeys, List.range_succ, List.map_append]
  rfl

/-- The decimal key strings for indices `i, i+1, …, i+n-1` (the keys an
array-update loop starting at index `i` walks through). -/
def idxKeys (i n : Nat) : List String :=
  (List.range' i n).map (fun j => toString j)

theorem idxKeys_zero_eq_arrKeys (n : Nat) : idxKeys 0 n = arrKeys n := by
  rw [idxKeys, arrKeys, List.range_eq_range']

theorem mem_idxKeys_iff {j i n : Nat} : toString j ∈ idxKeys i n ↔ (i ≤ j ∧ j < i + n) := by
  constructor
  · intro h
    rw [idxKeys, List.mem_map] at h
    obtain ⟨x, hx, he⟩ := h
    rw [List.mem_range'] at hx
    obtain ⟨d, hd, hxe⟩ := hx
    obtain rfl := natToString_inj he
    omega
  · intro h
    rw [idxKeys, List.mem_map]
    refine ⟨j, List.mem_range'.mpr ⟨j - i, by omega, by omega⟩, rfl⟩

theorem idxKeys_succ_left (i n : Nat) :
    idxKeys i (n + 1) = toString i :: idxKeys (i + 1) n := by
  rw [idxKeys, idxKeys, List.range'_succ]
  rfl

/-! ## `repV`: the tree currently represents the value

`repV t v` states that updating a node whose content is `t` with `v`
finds everything already in place: a leaf topic already holding the
atomic value, or a branch with matching `isArray`, a keys topic whose
key *set* equals the value's own key set, and children each
representing their sub-value.  An `undefined`/`null` *sub*-value is
never "in place" (its update goes through `removeKey` and touches the
keys topic), while at a root position it is represented by `undefined`
content. -/

/-- Equality of ordered key sets *as sets* (`OrderedSet.intersect` and
the get-or-create loop only ever compare membership). -/
def keysSetEq (a b : List String) : Bool :=
  a.all (fun k => decide (k ∈ b)) && b.all (fun k => decide (k ∈ a))

theorem keysSetEq_iff {a b : List String} :
    keysSetEq a b = true ↔ ((∀ k ∈ a, k ∈ b) ∧ (∀ k ∈ b, k ∈ a)) := by
  simp [keysSetEq, List.all_eq_true]

mutual

def repV : Tree → JSVal → Bool
  | t, .undef => t.isUndef
  | t, .null => t.isUndef
  | t, .atom a =>
      (match t with
       | .tLeaf _ w => w = some a
       | _ => false)
  | t, .arr es =>
      (match t with
       | .tBranch true _ keys m => keysSetEq keys (arrKeys es.length) && repArr m 0 es
       | _ => false)
  | t, .obj fs =>
      (match t with
       | .tBranch false _ keys m => keysSetEq keys (objKeys fs) && repObj m fs
       | _ => false)
  | _, .exotic _ => false

def repArr (m : ChildMap) (i : Nat) : List JSVal → Bool
  | [] => true
  | e :: es =>
      (!(isEmptyVal e) &&
        match clookup m (toString i) with
        | some p => repV p.2 e
        | none => false) && repArr m (i + 1) es

def repObj (m : ChildMap) : List (String × JSVal) → Bool
  | [] => true
  | f :: fs =>
      (!(isEmptyVal f.2) &&
        match clookup m f.1 with
        | some p => repV p.2 f.2
        | none => false) && repObj m fs

end

/-! ## Specification lemmas for the operation pieces -/

theorem gocn_spec {c kid : Nat} {keys : List String} {m : ChildMap} {k : String}
    {c1 : Nat} {keys1 : List String} {m1 : ChildMap} {ev1 : Events} {cid : Nat} {ct : Tree}
    (h : gocn c kid keys m k = (c1, keys1, m1, ev1, cid, ct)) :
    keys1 = (if k ∈ keys then keys else keys ++ [k]) ∧
    ev1 = (if k ∈ keys then [] else [kid]) ∧
    clookup m1 k = some (cid, ct) ∧
    (∀ k2, k2 ≠ k → clookup m1 k2 = clookup m k2) ∧
    c ≤ c1 := by
  rw [gocn] at h
  cases hlk : clookup m k with
  | some p =>
      obtain ⟨cid0, ct0⟩ := p
      rw [hlk] at h
      dsimp only at h
      by_cases hk : k ∈ keys
      · rw [if_pos hk] at h
        simp only [Prod.mk.injEq] at h
        obtain ⟨rfl, rfl, rfl, rfl, rfl, rfl⟩ := h
        exact ⟨(if_pos hk).symm, (if_pos hk).symm, hlk, fun k2 _ => rfl, Nat.le_refl c⟩
      · rw [if_neg hk] at h
        simp only [Prod.mk.injEq] at h
        obtain ⟨rfl, rfl, rfl, rfl, rfl, rfl⟩ := h
        exact ⟨(if_neg hk).symm, (if_neg hk).symm, hlk, fun k2 _ => rfl, Nat.le_refl c⟩
  | none =>
      rw [hlk] at h
      dsimp only at h
      by_cases hk : k ∈ keys
      · rw [if_pos hk] at h
        simp only [Prod.mk.injEq] at h
        obtain ⟨rfl, rfl, rfl, rfl, rfl, rfl⟩ := h
        refine ⟨(if_pos hk).symm, (if_pos hk).symm, ?_, ?_, Nat.le_succ c⟩
        · rw [clookup_cset, if_pos rfl]
        · intro k2 hk2
          rw [clookup_cset, if_neg hk2]
      · rw [if_neg hk] at h
        simp only [Prod.mk.injEq] at h
        obtain ⟨rfl, rfl, rfl, rfl, rfl, rfl⟩ := h
        refine ⟨(if_neg hk).symm, (if_neg hk).symm, ?_, ?_, Nat.le_succ c⟩
        · rw [clookup_cset, if_pos rfl]
        · intro k2 hk2
          rw [clookup_cset, if_neg hk2]

theorem brRemoveKey_spec {kid : Nat} {keys : List String} {m : ChildMap} {k : String}
    {keys2 : List String} {m2 : ChildMap} {ev2 : Events}
    (h : brRemoveKey kid keys m k = (keys2, m2, ev2)) :
    keys2 = keys.erase k ∧
    clookup m2 k = none ∧
    (∀ k2, k2 ≠ k → clookup m2 k2 = clookup m k2) ∧
    ev2 = (if k ∈ keys then [kid] else []) ++
      (match clookup m k with
       | some p => if p.2.isUndef then [] else [p.1]
       | none => []) := by
  rw [brRemoveKey] at h
  cases hlk : clookup m k with
  | none =>
      rw [hlk] at h
      dsimp only at h
      simp only [Prod.mk.injEq] at h
      obtain ⟨rfl, rfl, rfl⟩ := h
      exact ⟨rfl, hlk, fun k2 _ => rfl, by simp⟩
  | some p =>
      obtain ⟨cid0, ct0⟩ := p
      rw [hlk] at h
      dsimp only at h
      simp only [Prod.mk.injEq] at h
      obtain ⟨rfl, rfl, rfl⟩ := h
      refine ⟨rfl, ?_, ?_, rfl⟩
      · rw [clookup_cdel, if_pos rfl]
      · intro k2 hk2
        rw [clookup_cdel, if_neg hk2]

theorem staleClear_kept (keys : List String) : ∀ (nk : List String) (m : ChildMap)
    (k : String), k ∈ nk → clookup (staleClear keys nk m).1 k = clookup m k := by
  induction keys with
  | nil => intro nk m k _; rfl
  | cons k0 ks ih =>
      intro nk m k hk
      rw [staleClear]
      by_cases h0 : k0 ∈ nk
      · rw [if_pos h0]
        exact ih nk m k hk
      · rw [if_neg h0]
        cases hlk : clookup m k0 with
        | none => exact ih nk m k hk
        | some p =>
            obtain ⟨cid0, ct0⟩ := p
            cases hsc : staleClear ks nk (cdel m k0) with
            | mk m1 ev =>
                dsimp only
                have := ih nk (cdel m k0) k hk
                rw [hsc] at this
                dsimp only at this
                rw [this, clookup_cdel, if_neg (fun he => h0 (by rw [← he]; exact hk))]

theorem staleClear_stale (keys : List String) : ∀ (nk : List String) (m : ChildMap)
    (k : String), k ∉ nk →
    clookup (staleClear keys nk m).1 k = (if k ∈ keys then none else clookup m k) := by
  induction keys with
  | nil =>
      intro nk m k _
      simp [staleClear]
  | cons k0 ks ih =>
      intro nk m k hk
      rw [staleClear]
      by_cases h0 : k0 ∈ nk
      · rw [if_pos h0]
        rw [ih nk m k hk]
        have hne : ¬k = k0 := fun he => hk (he ▸ h0)
        by_cases hks : k ∈ ks
        · rw [if_pos hks, if_pos (List.mem_cons_of_mem k0 hks)]
        · rw [if_neg hks, if_neg (by simp [hne, hks])]
      · rw [if_neg h0]
        cases hlk : clookup m k0 with
        | none =>
            rw [ih nk m k hk]
            by_cases he : k = k0
            · subst he
              simp [hlk]
            · by_cases hks : k ∈ ks
              · rw [if_pos hks, if_pos (List.mem_cons_of_mem k0 hks)]
              · rw [if_neg hks, if_neg (by simp [he, hks])]
        | some p =>
            obtain ⟨cid0, ct0⟩ := p
            cases hsc : staleClear ks nk (cdel m k0) with
            | mk m1 ev =>
                dsimp only
                have := ih nk (cdel m k0) k hk
                rw [hsc] at this
                dsimp only at this
                rw [this, clookup_cdel]
                by_cases he : k = k0
                · subst he
                  simp
                · rw [if_neg he]
                  by_cases hks : k ∈ ks
                  · rw [if_pos hks, if_pos (List.mem_cons_of_mem k0 hks)]
                  · rw [if_neg hks, if_neg (by simp [he, hks])]

theorem staleClear_events (keys : List String) : ∀ (nk : List String) (m : ChildMap),
    ∀ x ∈ (staleClear keys nk m).2, ∃ k p, k ∈ keys ∧ k ∉ nk ∧
      clookup m k = some p ∧ p.2.isUndef = false ∧ x = p.1 := by
  induction keys with
  | nil => intro nk m x hx; cases hx
  | cons k0 ks ih =>
      intro nk m x hx
      rw [staleClear] at hx
      by_cases h0 : k0 ∈ nk
      · rw [if_pos h0] at hx
        obtain ⟨k, p, h1, h2, h3, h4, h5⟩ := ih nk m x hx
        exact ⟨k, p, List.mem_cons_of_mem k0 h1, h2, h3, h4, h5⟩
      · rw [if_neg h0] at hx
        cases hlk : clookup m k0 with
        | none =>
            rw [hlk] at hx
            obtain ⟨k, p, h1, h2, h3, h4, h5⟩ := ih nk m x hx
            exact ⟨k, p, List.mem_cons_of_mem k0 h1, h2, h3, h4, h5⟩
        | some p0 =>
            obtain ⟨cid0, ct0⟩ := p0
            rw [hlk] at hx
            cases hsc : staleClear ks nk (cdel m k0) with
            | mk m1 ev =>
                rw [hsc] at hx
                dsimp only at hx
                rw [List.mem_append] at hx
                cases hx with
                | inl hx =>
                    by_cases hu : ct0.isUndef
                    · rw [if_pos hu] at hx
                      cases hx
                    · rw [if_neg hu] at hx
                      simp only [List.mem_singleton] at hx
                      exact ⟨k0, (cid0, ct0), List.mem_cons_self k0 ks, h0, hlk,
                        Bool.eq_false_iff.mpr hu, hx⟩
                | inr hx =>
                    have := ih nk (cdel m k0) x (by rw [hsc]; exact hx)
                    obtain ⟨k, p, h1, h2, h3, h4, h5⟩ := this
                    rw [clookup_cdel] at h3
                    by_cases he : k = k0
                    · rw [if_pos he] at h3
                      cases h3
                    · rw [if_neg he] at h3
                      exact ⟨k, p, List.mem_cons_of_mem k0 h1, h2, h3, h4, h5⟩

/-- When every current key survives, the stale pass does nothing. -/
theorem staleClear_noop (keys : List String) : ∀ (nk : List String) (m : ChildMap),
    (∀ k ∈ keys, k ∈ nk) → staleClear keys nk m = (m, []) := by
  induction keys with
  | nil => intro nk m _; rfl
  | cons k0 ks ih =>
      intro nk m hsub
      rw [staleClear, if_pos (hsub k0 (List.mem_cons_self k0 ks))]
      exact ih nk m (fun k hk => hsub k (List.mem_cons_of_mem k0 hk))

theorem keysFilter_self {keys nk : List String} (h : ∀ k ∈ keys, k ∈ nk) :
    keys.filter (fun k => decide (k ∈ nk)) = keys :=
  List.filter_eq_self.mpr (fun a ha => decide_eq_true (h a ha))

theorem leafSet_noop (c nid lid : Nat) (a : Atom) :
    leafSet c nid (.tLeaf lid (some a)) a = (c, .tLeaf lid (some a), []) := by
  simp [leafSet]

/-- The result of a leaf set is a leaf holding the atomic value. -/
theorem leafSet_shape (c nid : Nat) (t : Tree) (a : Atom) :
    ∃ lid, (leafSet c nid t a).2.1 = .tLeaf lid (some a) := by
  cases t with
  | tLeaf lid w => exact ⟨lid, rfl⟩
  | tUndef => exact ⟨c, rfl⟩
  | tBranch ia kid keys m => exact ⟨c, rfl⟩

theorem leafSet_counter (c nid : Nat) (t : Tree) (a : Atom) :
    c ≤ (leafSet c nid t a).1 := by
  cases t with
  | tLeaf lid w => simp [leafSet]
  | tUndef => simp [leafSet]
  | tBranch ia kid keys m => simp [leafSet]

theorem gocn_mem {c kid : Nat} {keys : List String} {m : ChildMap} {k : String}
    {p : Nat × Tree} (hk : k ∈ keys) (hlk : clookup m k = some p) :
    gocn c kid keys m k = (c, keys, m, [], p.1, p.2) := by
  rw [gocn, hlk]
  dsimp only
  rw [if_pos hk]

/-- `Node.update` on a branch content with a record value, spelled out
as its three passes. -/
theorem updateGo_obj_eq (c nid : Nat) (ia : Bool) (kid : Nat) (keys : List String)
    (m : ChildMap) (fs : List (String × JSVal)) :
    updateGo c nid (.tBranch ia kid keys m) (.obj fs) =
      ((updObj c kid (keys.filter (fun k => decide (k ∈ objKeys fs)))
          (staleClear keys (objKeys fs) m).1 fs).1,
       .tBranch false kid
         (updObj c kid (keys.filter (fun k => decide (k ∈ objKeys fs)))
            (staleClear keys (objKeys fs) m).1 fs).2.1
         (updObj c kid (keys.filter (fun k => decide (k ∈ objKeys fs)))
            (staleClear keys (objKeys fs) m).1 fs).2.2.1,
       (staleClear keys (objKeys fs) m).2 ++
         (if keys.filter (fun k => decide (k ∈ objKeys fs)) = keys then [] else [kid]) ++
         (updObj c kid (keys.filter (fun k => decide (k ∈ objKeys fs)))
            (staleClear keys (objKeys fs) m).1 fs).2.2.2) := by
  rw [updateGo]
  dsimp only [ensureBranch]
  cases staleClear keys (objKeys fs) m with
  | mk m1 ev1 =>
      dsimp only
      cases updObj c kid (keys.filter (fun k => decide (k ∈ objKeys fs))) m1 fs with
      | mk c2 r =>
          obtain ⟨keys2, m2, ev3⟩ := r
          dsimp only
          simp

/-- `Node.update` on a branch content with an array value. -/
theorem updateGo_arr_eq (c nid : Nat) (ia : Bool) (kid : Nat) (keys : List String)
    (m : ChildMap) (es : List JSVal) :
    updateGo c nid (.tBranch ia kid keys m) (.arr es) =
      ((updArr c kid (keys.filter (fun k => decide (k ∈ arrKeys es.length)))
          (staleClear keys (arrKeys es.length) m).1 0 es).1,
       .tBranch true kid
         (updArr c kid (keys.filter (fun k => decide (k ∈ arrKeys es.length)))
            (staleClear keys (arrKeys es.length) m).1 0 es).2.1
         (updArr c kid (keys.filter (fun k => decide (k ∈ arrKeys es.length)))
            (staleClear keys (arrKeys es.length) m).1 0 es).2.2.1,
       (staleClear keys (arrKeys es.length) m).2 ++
         (if keys.filter (fun k => decide (k ∈ arrKeys es.length)) = keys then [] else [kid]) ++
         (updArr c kid (keys.filter (fun k => decide (k ∈ arrKeys es.length)))
            (staleClear keys (arrKeys es.length) m).1 0 es).2.2.2) := by
  rw [updateGo]
  dsimp only [ensureBranch]
  cases staleClear keys (arrKeys es.length) m with
  | mk m1 ev1 =>
      dsimp only
      cases updArr c kid (keys.filter (fun k => decide (k ∈ arrKeys es.length))) m1 0 es with
      | mk c2 r =>
          obtain ⟨keys2, m2, ev3⟩ := r
          dsimp only
          simp

/-! ## The no-op lemma: updating a subtree that already represents the
value changes nothing and fires no topic -/

theorem updArr_noop : ∀ (es : List JSVal) (c kid : Nat) (keys : List String)
    (m : ChildMap) (i : Nat),
    (∀ e ∈ es, ∀ (c2 nid2 : Nat) (t2 : Tree),
        repV t2 e = true → updateGo c2 nid2 t2 e = (c2, t2, [])) →
    (∀ j, j < es.length → toString (i + j) ∈ keys) →
    repArr m i es = true →
    updArr c kid keys m i es = (c, keys, m, []) := by
  intro es
  induction es with
  | nil => intro c kid keys m i _ _ _; rfl
  | cons e es ih =>
      intro c kid keys m i hIH hkeys hrep
      rw [repArr, Bool.and_eq_true, Bool.and_eq_true] at hrep
      obtain ⟨⟨hne, hre⟩, hres⟩ := hrep
      have hk0 : toString i ∈ keys := by
        have := hkeys 0 (by simp)
        rwa [Nat.add_zero] at this
      have hkeys2 : ∀ j, j < es.length → toString (i + 1 + j) ∈ keys := by
        intro j hj
        have := hkeys (j + 1) (by simpa using Nat.succ_lt_succ hj)
        rwa [show i + (j + 1) = i + 1 + j by omega] at this
      have htail : updArr c kid keys m (i + 1) es = (c, keys, m, []) :=
        ih c kid keys m (i + 1)
          (fun e2 he2 => hIH e2 (List.mem_cons_of_mem e he2)) hkeys2 hres
      cases hlk : clookup m (toString i) with
      | none => rw [hlk] at hre; cases hre
      | some p =>
          obtain ⟨cid, ct⟩ := p
          rw [hlk] at hre
          dsimp only at hre
          cases e with
          | undef => cases hne
          | null => cases hne
          | atom a =>
              cases ct with
              | tLeaf lid w =>
                  simp only [repV, decide_eq_true_eq] at hre
                  subst hre
                  rw [updArr, gocn_mem hk0 hlk]
                  dsimp only
                  rw [leafSet_noop]
                  dsimp only
                  rw [cset_id m (toString i) _ hlk, htail]
                  simp
              | tUndef => simp [repV] at hre
              | tBranch ia2 kid2 keys2 m2 => simp [repV] at hre
          | arr es2 =>
              rw [updArr, gocn_mem hk0 hlk]
              dsimp only
              rw [hIH (.arr es2) (List.mem_cons_self _ _) c cid ct hre]
              dsimp only
              rw [cset_id m (toString i) _ hlk, htail]
              simp
          | obj fs2 =>
              rw [updArr, gocn_mem hk0 hlk]
              dsimp only
              rw [hIH (.obj fs2) (List.mem_cons_self _ _) c cid ct hre]
              dsimp only
              rw [cset_id m (toString i) _ hlk, htail]
              simp
          | exotic id2 => simp [repV] at hre

theorem updObj_noop : ∀ (fs : List (String × JSVal)) (c kid : Nat) (keys : List String)
    (m : ChildMap),
    (∀ f ∈ fs, ∀ (c2 nid2 : Nat) (t2 : Tree),
        repV t2 f.2 = true → updateGo c2 nid2 t2 f.2 = (c2, t2, [])) →
    (∀ f ∈ fs, f.1 ∈ keys) →
    repObj m fs = true →
    updObj c kid keys m fs = (c, keys, m, []) := by
  intro fs
  induction fs with
  | nil => intro c kid keys m _ _ _; rfl
  | cons f fs ih =>
      intro c kid keys m hIH hkeys hrep
      obtain ⟨k0, v0⟩ := f
      rw [repObj, Bool.and_eq_true, Bool.and_eq_true] at hrep
      obtain ⟨⟨hne, hre⟩, hres⟩ := hrep
      have hk0 : k0 ∈ keys := hkeys (k0, v0) (List.mem_cons_self _ _)
      have htail : updObj c kid keys m fs = (c, keys, m, []) :=
        ih c kid keys m (fun f2 hf2 => hIH f2 (List.mem_cons_of_mem _ hf2))
          (fun f2 hf2 => hkeys f2 (List.mem_cons_of_mem _ hf2)) hres
      dsimp only at hne hre
      cases hlk : clookup m k0 with
      | none => rw [hlk] at hre; cases hre
      | some p =>
          obtain ⟨cid, ct⟩ := p
          rw [hlk] at hre
          dsimp only at hre
          cases v0 with
          | undef => cases hne
          | null => cases hne
          | atom a =>
              cases ct with
              | tLeaf lid w =>
                  simp only [repV, decide_eq_true_eq] at hre
                  subst hre
                  rw [updObj, gocn_mem hk0 hlk]
                  dsimp only
                  rw [leafSet_noop]
                  dsimp only
                  rw [cset_id m k0 _ hlk, htail]
                  simp
              | tUndef => simp [repV] at hre
              | tBranch ia2 kid2 keys2 m2 => simp [repV] at hre
          | arr es2 =>
              rw [updObj, gocn_mem hk0 hlk]
              dsimp only
              rw [hIH (k0, .arr es2) (List.mem_cons_self _ _) c cid ct hre]
              dsimp only
              rw [cset_id m k0 _ hlk, htail]
              simp
          | obj fs2 =>
              rw [updObj, gocn_mem hk0 hlk]
              dsimp only
              rw [hIH (k0, .obj fs2) (List.mem_cons_self _ _) c cid ct hre]
              dsimp only
              rw [cset_id m k0 _ hlk, htail]
              simp
          | exotic id2 => simp [repV] at hre

/-- **The frame lemma.**  Updating a node whose content already
represents the value is a complete no-op: the tree and counter are
unchanged and not a single topic fires — so no subscriber anywhere is
marked dirty. -/
theorem updateGo_noop : ∀ (v : JSVal) (c nid : Nat) (t : Tree),
    repV t v = true → updateGo c nid t v = (c, t, []) := by
  intro v
  induction v using JSVal.indOn with
  | h1 =>
      intro c nid t h
      cases t with
      | tUndef => simp [updateGo, Tree.isUndef]
      | tLeaf lid w => simp [repV, Tree.isUndef] at h
      | tBranch ia kid keys m => simp [repV, Tree.isUndef] at h
  | h2 =>
      intro c nid t h
      cases t with
      | tUndef => simp [updateGo, Tree.isUndef]
      | tLeaf lid w => simp [repV, Tree.isUndef] at h
      | tBranch ia kid keys m => simp [repV, Tree.isUndef] at h
  | h3 a =>
      intro c nid t h
      cases t with
      | tUndef => simp [repV] at h
      | tBranch ia kid keys m => simp [repV] at h
      | tLeaf lid w =>
          simp only [repV, decide_eq_true_eq] at h
          subst h
          show leafSet c nid (.tLeaf lid (some a)) a = _
          rw [leafSet_noop]
  | h4 i =>
      intro c nid t h
      simp [repV] at h
  | h5 es ih =>
      intro c nid t h
      cases t with
      | tUndef => simp [repV] at h
      | tLeaf lid w => simp [repV] at h
      | tBranch ia kid keys m =>
          cases ia with
          | false => simp [repV] at h
          | true =>
              rw [repV, Bool.and_eq_true] at h
              obtain ⟨hks, hrep⟩ := h
              rw [keysSetEq_iff] at hks
              rw [updateGo_arr_eq]
              rw [staleClear_noop keys (arrKeys es.length) m hks.1]
              dsimp only
              rw [keysFilter_self hks.1]
              rw [updArr_noop es c kid keys m 0 ih
                (fun j hj => by
                  rw [Nat.zero_add]
                  exact hks.2 (toString j) (mem_arrKeys_iff.mpr hj)) hrep]
              simp
  | h6 fs ih =>
      intro c nid t h
      cases t with
      | tUndef => simp [repV] at h
      | tLeaf lid w => simp [repV] at h
      | tBranch ia kid keys m =>
          cases ia with
          | true => simp [repV] at h
          | false =>
              rw [repV, Bool.and_eq_true] at h
              obtain ⟨hks, hrep⟩ := h
              rw [keysSetEq_iff] at hks
              rw [updateGo_obj_eq]
              rw [staleClear_noop keys (objKeys fs) m hks.1]
              dsimp only
              rw [keysFilter_self hks.1]
              rw [updObj_noop fs c kid keys m ih
                (fun f hf => hks.2 f.1 (List.mem_map_of_mem Prod.fst hf)) hrep]
              simp

/-! ## The establishment lemma: updating with a clean value leaves the
tree representing it -/

theorem mem_of_gocn_keys {keys keys1 : List String} {k0 : String}
    (h : keys1 = if k0 ∈ keys then keys else keys ++ [k0]) :
    ∀ k2, k2 ∈ keys1 ↔ (k2 ∈ keys ∨ k2 = k0) := by
  intro k2
  by_cases hk : k0 ∈ keys
  · rw [if_pos hk] at h
    subst h
    constructor
    · exact Or.inl
    · intro h2
      cases h2 with
      | inl h2 => exact h2
      | inr h2 => exact h2 ▸ hk
  · rw [if_neg hk] at h
    subst h
    simp [List.mem_append]

theorem updObj_establish : ∀ (fs : List (String × JSVal)) (c kid : Nat)
    (keys : List String) (m : ChildMap),
    (∀ f ∈ fs, JSVal.cleanIn f.2 = true) →
    (objKeys fs).Nodup →
    (∀ f ∈ fs, ∀ (c2 nid2 : Nat) (t2 : Tree),
        repV (updateGo c2 nid2 t2 f.2).2.1 f.2 = true) →
    (∀ k, k ∈ (updObj c kid keys m fs).2.1 ↔ (k ∈ keys ∨ k ∈ objKeys fs)) ∧
    (∀ k, k ∉ objKeys fs → clookup (updObj c kid keys m fs).2.2.1 k = clookup m k) ∧
    repObj (updObj c kid keys m fs).2.2.1 fs = true := by
  intro fs
  induction fs with
  | nil =>
      intro c kid keys m _ _ _
      refine ⟨fun k => ?_, fun k _ => rfl, rfl⟩
      simp [updObj, objKeys]
  | cons f fs ih =>
      intro c kid keys m hclean hnodup hIH
      obtain ⟨k0, v0⟩ := f
      have hcl0 : JSVal.cleanIn v0 = true := hclean (k0, v0) (List.mem_cons_self _ _)
      have hobjcons : objKeys ((k0, v0) :: fs) = k0 :: objKeys fs := rfl
      have hk0nin : k0 ∉ objKeys fs := by
        rw [hobjcons] at hnodup
        exact (List.nodup_cons.mp hnodup).1
      have hnodup2 : (objKeys fs).Nodup := by
        rw [hobjcons] at hnodup
        exact (List.nodup_cons.mp hnodup).2
      have hclean2 : ∀ f ∈ fs, JSVal.cleanIn f.2 = true :=
        fun f hf => hclean f (List.mem_cons_of_mem _ hf)
      have hIH2 : ∀ f ∈ fs, ∀ (c2 nid2 : Nat) (t2 : Tree),
          repV (updateGo c2 nid2 t2 f.2).2.1 f.2 = true :=
        fun f hf => hIH f (List.mem_cons_of_mem _ hf)
      rcases hgeq : gocn c kid keys m k0 with ⟨c1, keys1, m1, ev1, cid, ct⟩
      obtain ⟨hkeys1, _, hlk1, hpres1, _⟩ := gocn_spec hgeq
      have hmem1 := mem_of_gocn_keys hkeys1
      cases v0 with
      | undef => cases hcl0
      | null => cases hcl0
      | exotic i => cases hcl0
      | atom a =>
          rcases hls : leafSet c1 cid ct a with ⟨c2, ct2, ev2⟩
          have hshape : ∃ lid, ct2 = .tLeaf lid (some a) := by
            obtain ⟨lid, hs⟩ := leafSet_shape c1 cid ct a
            rw [hls] at hs
            exact ⟨lid, hs⟩
          obtain ⟨lid, rfl⟩ := hshape
          have hrun : updObj c kid keys m ((k0, .atom a) :: fs) =
              (let r := updObj c2 kid keys1 (cset m1 k0 (cid, .tLeaf lid (some a))) fs
               (r.1, r.2.1, r.2.2.1, ev1 ++ ev2 ++ r.2.2.2)) := by
            rw [updObj, hgeq]
            dsimp only
            rw [hls]
          obtain ⟨ihkeys, ihpres, ihrep⟩ :=
            ih c2 kid keys1 (cset m1 k0 (cid, .tLeaf lid (some a))) hclean2 hnodup2 hIH2
          rw [hrun]
          dsimp only
          have hlkf : clookup (updObj c2 kid keys1
              (cset m1 k0 (cid, .tLeaf lid (some a))) fs).2.2.1 k0 =
              some (cid, .tLeaf lid (some a)) := by
            rw [ihpres k0 hk0nin, clookup_cset, if_pos rfl]
          refine ⟨?_, ?_, ?_⟩
          · intro k
            rw [ihkeys k, hmem1 k, hobjcons]
            simp only [List.mem_cons]
            tauto
          · intro k hk
            rw [hobjcons, List.mem_cons] at hk
            push_neg at hk
            rw [ihpres k hk.2, clookup_cset, if_neg hk.1, hpres1 k hk.1]
          · rw [repObj, Bool.and_eq_true]
            refine ⟨?_, ihrep⟩
            rw [Bool.and_eq_true]
            constructor
            · rfl
            · dsimp only
              rw [hlkf]
              dsimp only
              rw [repV]
              simp
      | arr es0 =>
          rcases hup : updateGo c1 cid ct (.arr es0) with ⟨c2, ct2, ev2⟩
          have hrep0 : repV ct2 (.arr es0) = true := by
            have := hIH (k0, .arr es0) (List.mem_cons_self _ _) c1 cid ct
            rw [hup] at this
            exact this
          have hrun : updObj c kid keys m ((k0, .arr es0) :: fs) =
              (let r := updObj c2 kid keys1 (cset m1 k0 (cid, ct2)) fs
               (r.1, r.2.1, r.2.2.1, ev1 ++ ev2 ++ r.2.2.2)) := by
            rw [updObj, hgeq]
            dsimp only
            rw [hup]
          obtain ⟨ihkeys, ihpres, ihrep⟩ :=
            ih c2 kid keys1 (cset m1 k0 (cid, ct2)) hclean2 hnodup2 hIH2
          rw [hrun]
          dsimp only
          refine ⟨?_, ?_, ?_⟩
          · intro k
            rw [ihkeys k, hmem1 k, hobjcons]
            simp only [List.mem_cons]
            tauto
          · intro k hk
            rw [hobjcons, List.mem_cons] at hk
            push_neg at hk
            rw [ihpres k hk.2, clookup_cset, if_neg hk.1, hpres1 k hk.1]
          · rw [repObj, Bool.and_eq_true]
            refine ⟨?_, ihrep⟩
            rw [Bool.and_eq_true]
            refine ⟨rfl, ?_⟩
            dsimp only
            rw [ihpres k0 hk0nin, clookup_cset, if_pos rfl]
            exact hrep0
      | obj fs0 =>
          rcases hup : updateGo c1 cid ct (.obj fs0) with ⟨c2, ct2, ev2⟩
          have hrep0 : repV ct2 (.obj fs0) = true := by
            have := hIH (k0, .obj fs0) (List.mem_cons_self _ _) c1 cid ct
            rw [hup] at this
            exact this
          have hrun : updObj c kid keys m ((k0, .obj fs0) :: fs) =
              (let r := updObj c2 kid keys1 (cset m1 k0 (cid, ct2)) fs
               (r.1, r.2.1, r.2.2.1, ev1 ++ ev2 ++ r.2.2.2)) := by
            rw [updObj, hgeq]
            dsimp only
            rw [hup]
          obtain ⟨ihkeys, ihpres, ihrep⟩ :=
            ih c2 kid keys1 (cset m1 k0 (cid, ct2)) hclean2 hnodup2 hIH2
          rw [hrun]
          dsimp only
          refine ⟨?_, ?_, ?_⟩
          · intro k
            rw [ihkeys k, hmem1 k, hobjcons]
            simp only [List.mem_cons]
            tauto
          · intro k hk
            rw [hobjcons, List.mem_cons] at hk
            push_neg at hk
            rw [ihpres k hk.2, clookup_cset, if_neg hk.1, hpres1 k hk.1]
          · rw [repObj, Bool.and_eq_true]
            refine ⟨?_, ihrep⟩
            rw [Bool.and_eq_true]
            refine ⟨rfl, ?_⟩
            dsimp only
            rw [ihpres k0 hk0nin, clookup_cset, if_pos rfl]
            exact hrep0

theorem updArr_establish : ∀ (es : List JSVal) (c kid : Nat)
    (keys : List String) (m : ChildMap) (i : Nat),
    (∀ e ∈ es, JSVal.cleanIn e = true) →
    (∀ e ∈ es, ∀ (c2 nid2 : Nat) (t2 : Tree),
        repV (updateGo c2 nid2 t2 e).2.1 e = true) →
    (∀ k, k ∈ (updArr c kid keys m i es).2.1 ↔ (k ∈ keys ∨ k ∈ idxKeys i es.length)) ∧
    (∀ k, k ∉ idxKeys i es.length →
        clookup (updArr c kid keys m i es).2.2.1 k = clookup m k) ∧
    repArr (updArr c kid keys m i es).2.2.1 i es = true := by
  intro es
  induction es with
  | nil =>
      intro c kid keys m i _ _
      refine ⟨fun k => ?_, fun k _ => rfl, rfl⟩
      simp [updArr, idxKeys]
  | cons e es ih =>
      intro c kid keys m i hclean hIH
      have hcl0 : JSVal.cleanIn e = true := hclean e (List.mem_cons_self _ _)
      have hidxcons : idxKeys i (e :: es).length = toString i :: idxKeys (i + 1) es.length := by
        rw [List.length_cons, idxKeys_succ_left]
      have hk0nin : toString i ∉ idxKeys (i + 1) es.length := by
        intro hmem
        rw [mem_idxKeys_iff] at hmem
        omega
      have hclean2 : ∀ e2 ∈ es, JSVal.cleanIn e2 = true :=
        fun e2 he2 => hclean e2 (List.mem_cons_of_mem _ he2)
      have hIH2 : ∀ e2 ∈ es, ∀ (c2 nid2 : Nat) (t2 : Tree),
          repV (updateGo c2 nid2 t2 e2).2.1 e2 = true :=
        fun e2 he2 => hIH e2 (List.mem_cons_of_mem _ he2)
      rcases hgeq : gocn c kid keys m (toString i) with ⟨c1, keys1, m1, ev1, cid, ct⟩
      obtain ⟨hkeys1, _, hlk1, hpres1, _⟩ := gocn_spec hgeq
      have hmem1 := mem_of_gocn_keys hkeys1
      cases e with
      | undef => cases hcl0
      | null => cases hcl0
      | exotic j => cases hcl0
      | atom a =>
          rcases hls : leafSet c1 cid ct a with ⟨c2, ct2, ev2⟩
          have hshape : ∃ lid, ct2 = .tLeaf lid (some a) := by
            obtain ⟨lid, hs⟩ := leafSet_shape c1 cid ct a
            rw [hls] at hs
            exact ⟨lid, hs⟩
          obtain ⟨lid, rfl⟩ := hshape
          have hrun : updArr c kid keys m i (.atom a :: es) =
              (let r := updArr c2 kid keys1
                  (cset m1 (toString i) (cid, .tLeaf lid (some a))) (i + 1) es
               (r.1, r.2.1, r.2.2.1, ev1 ++ ev2 ++ r.2.2.2)) := by
            rw [updArr, hgeq]
            dsimp only
            rw [hls]
          obtain ⟨ihkeys, ihpres, ihrep⟩ :=
            ih c2 kid keys1 (cset m1 (toString i) (cid, .tLeaf lid (some a))) (i + 1)
              hclean2 hIH2
          rw [hrun]
          dsimp only
          refine ⟨?_, ?_, ?_⟩
          · intro k
            rw [ihkeys k, hmem1 k, hidxcons]
            simp only [List.mem_cons]
            tauto
          · intro k hk
            rw [hidxcons, List.mem_cons] at hk
            push_neg at hk
            rw [ihpres k hk.2, clookup_cset, if_neg hk.1, hpres1 k hk.1]
          · rw [repArr, Bool.and_eq_true]
            refine ⟨?_, ihrep⟩
            rw [Bool.and_eq_true]
            refine ⟨rfl, ?_⟩
            dsimp only
            rw [ihpres (toString i) hk0nin, clookup_cset, if_pos rfl]
            dsimp only
            rw [repV]
            simp
      | arr es0 =>
          rcases hup : updateGo c1 cid ct (.arr es0) with ⟨c2, ct2, ev2⟩
          have hrep0 : repV ct2 (.arr es0) = true := by
            have := hIH (.arr es0) (List.mem_cons_self _ _) c1 cid ct
            rw [hup] at this
            exact this
          have hrun : updArr c kid keys m i (.arr es0 :: es) =
              (let r := updArr c2 kid keys1 (cset m1 (toString i) (cid, ct2)) (i + 1) es
               (r.1, r.2.1, r.2.2.1, ev1 ++ ev2 ++ r.2.2.2)) := by
            rw [updArr, hgeq]
            dsimp only
            rw [hup]
          obtain ⟨ihkeys, ihpres, ihrep⟩ :=
            ih c2 kid keys1 (cset m1 (toString i) (cid, ct2)) (i + 1) hclean2 hIH2
          rw [hrun]
          dsimp only
          refine ⟨?_, ?_, ?_⟩
          · intro k
            rw [ihkeys k, hmem1 k, hidxcons]
            simp only [List.mem_cons]
            tauto
          · intro k hk
            rw [hidxcons, List.mem_cons] at hk
            push_neg at hk
            rw [ihpres k hk.2, clookup_cset, if_neg hk.1, hpres1 k hk.1]
          · rw [repArr, Bool.and_eq_true]
            refine ⟨?_, ihrep⟩
            rw [Bool.and_eq_true]
            refine ⟨rfl, ?_⟩
            dsimp only
            rw [ihpres (toString i) hk0nin, clookup_cset, if_pos rfl]
            exact hrep0
      | obj fs0 =>
          rcases hup : updateGo c1 cid ct (.obj fs0) with ⟨c2, ct2, ev2⟩
          have hrep0 : repV ct2 (.obj fs0) = true := by
            have := hIH (.obj fs0) (List.mem_cons_self _ _) c1 cid ct
            rw [hup] at this
            exact this
          have hrun : updArr c kid keys m i (.obj fs0 :: es) =
              (let r := updArr c2 kid keys1 (cset m1 (toString i) (cid, ct2)) (i + 1) es
               (r.1, r.2.1, r.2.2.1, ev1 ++ ev2 ++ r.2.2.2)) := by
            rw [updArr, hgeq]
            dsimp only
            rw [hup]
          obtain ⟨ihkeys, ihpres, ihrep⟩ :=
            ih c2 kid keys1 (cset m1 (toString i) (cid, ct2)) (i + 1) hclean2 hIH2
          rw [hrun]
          dsimp only
          refine ⟨?_, ?_, ?_⟩
          · intro k
            rw [ihkeys k, hmem1 k, hidxcons]
            simp only [List.mem_cons]
            tauto
          · intro k hk
            rw [hidxcons, List.mem_cons] at hk
            push_neg at hk
            rw [ihpres k hk.2, clookup_cset, if_neg hk.1, hpres1 k hk.1]
          · rw [repArr, Bool.and_eq_true]
            refine ⟨?_, ihrep⟩
            rw [Bool.and_eq_true]
            refine ⟨rfl, ?_⟩
            dsimp only
            rw [ihpres (toString i) hk0nin, clookup_cset, if_pos rfl]
            exact hrep0

theorem cleanTop_of_cleanIn {v : JSVal} (h : JSVal.cleanIn v = true) :
    JSVal.cleanTop v = true := by
  cases v <;> first | rfl | exact h

theorem updateGo_obj_tUndef (c nid : Nat) (fs : List (String × JSVal)) :
    updateGo c nid .tUndef (.obj fs) =
      ((updObj (c + 1) c [] [] fs).1,
       .tBranch false c (updObj (c + 1) c [] [] fs).2.1 (updObj (c + 1) c [] [] fs).2.2.1,
       [nid] ++ (updObj (c + 1) c [] [] fs).2.2.2) := rfl

theorem updateGo_obj_tLeaf (c nid lid : Nat) (w : Option Atom) (fs : List (String × JSVal)) :
    updateGo c nid (.tLeaf lid w) (.obj fs) =
      ((updObj (c + 1) c [] [] fs).1,
       .tBranch false c (updObj (c + 1) c [] [] fs).2.1 (updObj (c + 1) c [] [] fs).2.2.1,
       [nid] ++ (updObj (c + 1) c [] [] fs).2.2.2) := rfl

theorem updateGo_arr_tUndef (c nid : Nat) (es : List JSVal) :
    updateGo c nid .tUndef (.arr es) =
      ((updArr (c + 1) c [] [] 0 es).1,
       .tBranch true c (updArr (c + 1) c [] [] 0 es).2.1 (updArr (c + 1) c [] [] 0 es).2.2.1,
       [nid] ++ (updArr (c + 1) c [] [] 0 es).2.2.2) := rfl

theorem updateGo_arr_tLeaf (c nid lid : Nat) (w : Option Atom) (es : List JSVal) :
    updateGo c nid (.tLeaf lid w) (.arr es) =
      ((updArr (c + 1) c [] [] 0 es).1,
       .tBranch true c (updArr (c + 1) c [] [] 0 es).2.1 (updArr (c + 1) c [] [] 0 es).2.2.1,
       [nid] ++ (updArr (c + 1) c [] [] 0 es).2.2.2) := rfl

theorem establish_arr_core (es : List JSVal) (c2 kid : Nat) (keys0 : List String)
    (m0 : ChildMap)
    (hsub : ∀ k ∈ keys0, k ∈ arrKeys es.length)
    (hcl : ∀ e ∈ es, JSVal.cleanIn e = true)
    (hIH : ∀ e ∈ es, ∀ (c3 nid3 : Nat) (t3 : Tree),
        repV (updateGo c3 nid3 t3 e).2.1 e = true) :
    repV (.tBranch true kid (updArr c2 kid keys0 m0 0 es).2.1
      (updArr c2 kid keys0 m0 0 es).2.2.1) (.arr es) = true := by
  obtain ⟨ihkeys, _, ihrep⟩ := updArr_establish es c2 kid keys0 m0 0 hcl hIH
  rw [repV]
  rw [Bool.and_eq_true]
  constructor
  · rw [keysSetEq_iff]
    constructor
    · intro k hk
      rw [ihkeys k] at hk
      cases hk with
      | inl hk => exact hsub k hk
      | inr hk => rw [idxKeys_zero_eq_arrKeys] at hk; exact hk
    · intro k hk
      rw [ihkeys k]
      right
      rw [idxKeys_zero_eq_arrKeys]
      exact hk
  · exact ihrep

theorem establish_obj_core (fs : List (String × JSVal)) (c2 kid : Nat) (keys0 : List String)
    (m0 : ChildMap)
    (hsub : ∀ k ∈ keys0, k ∈ objKeys fs)
    (hcl : ∀ f ∈ fs, JSVal.cleanIn f.2 = true)
    (hnd : (objKeys fs).Nodup)
    (hIH : ∀ f ∈ fs, ∀ (c3 nid3 : Nat) (t3 : Tree),
        repV (updateGo c3 nid3 t3 f.2).2.1 f.2 = true) :
    repV (.tBranch false kid (updObj c2 kid keys0 m0 fs).2.1
      (updObj c2 kid keys0 m0 fs).2.2.1) (.obj fs) = true := by
  obtain ⟨ihkeys, _, ihrep⟩ := updObj_establish fs c2 kid keys0 m0 hcl hnd hIH
  rw [repV]
  rw [Bool.and_eq_true]
  constructor
  · rw [keysSetEq_iff]
    constructor
    · intro k hk
      rw [ihkeys k] at hk
      cases hk with
      | inl hk => exact hsub k hk
      | inr hk => exact hk
    · intro k hk
      rw [ihkeys k]
      exact Or.inr hk
  · exact ihrep

/-- **The establishment lemma.**  After `update` with a value that has
no `undefined`/`null` strictly inside (and no non-plain instance), the
target subtree represents the value. -/
theorem updateGo_establish : ∀ (v : JSVal) (c nid : Nat) (t : Tree),
    JSVal.cleanTop v = true →
    repV (updateGo c nid t v).2.1 v = true := by
  intro v
  induction v using JSVal.indOn with
  | h1 => intro c nid t _; rfl
  | h2 => intro c nid t _; rfl
  | h3 a =>
      intro c nid t _
      show repV (leafSet c nid t a).2.1 (.atom a) = true
      obtain ⟨lid, hs⟩ := leafSet_shape c nid t a
      rw [hs, repV]
      simp
  | h4 i =>
      intro c nid t h
      exact Bool.noConfusion h
  | h5 es ih =>
      intro c nid t h
      have h2 : JSVal.cleanL es = true := h
      rw [JSVal.cleanL_eq, List.all_eq_true] at h2
      have hIH : ∀ e ∈ es, ∀ (c3 nid3 : Nat) (t3 : Tree),
          repV (updateGo c3 nid3 t3 e).2.1 e = true :=
        fun e he c3 nid3 t3 => ih e he c3 nid3 t3 (cleanTop_of_cleanIn (h2 e he))
      cases t with
      | tUndef =>
          rw [updateGo_arr_tUndef]
          exact establish_arr_core es (c + 1) c [] [] (by simp) h2 hIH
      | tLeaf lid w =>
          rw [updateGo_arr_tLeaf]
          exact establish_arr_core es (c + 1) c [] [] (by simp) h2 hIH
      | tBranch ia kid keys m =>
          rw [updateGo_arr_eq]
          exact establish_arr_core es c kid _ _
            (fun k hk => by
              rw [List.mem_filter] at hk
              exact of_decide_eq_true hk.2) h2 hIH
  | h6 fs ih =>
      intro c nid t h
      have h2 : JSVal.cleanIn (.obj fs) = true := h
      rw [JSVal.cleanIn, Bool.and_eq_true] at h2
      obtain ⟨hnd, hcl⟩ := h2
      rw [JSVal.cleanF_eq, List.all_eq_true] at hcl
      have hnd2 : (objKeys fs).Nodup := by
        rw [objKeys]
        exact of_decide_eq_true hnd
      have hIH : ∀ f ∈ fs, ∀ (c3 nid3 : Nat) (t3 : Tree),
          repV (updateGo c3 nid3 t3 f.2).2.1 f.2 = true :=
        fun f hf c3 nid3 t3 => ih f hf c3 nid3 t3 (cleanTop_of_cleanIn (hcl f hf))
      cases t with
      | tUndef =>
          rw [updateGo_obj_tUndef]
          exact establish_obj_core fs (c + 1) c [] [] (by simp) hcl hnd2 hIH
      | tLeaf lid w =>
          rw [updateGo_obj_tLeaf]
          exact establish_obj_core fs (c + 1) c [] [] (by simp) hcl hnd2 hIH
      | tBranch ia kid keys m =>
          rw [updateGo_obj_eq]
          exact establish_obj_core fs c kid _ _
            (fun k hk => by
              rw [List.mem_filter] at hk
              exact of_decide_eq_true hk.2) hcl hnd2 hIH

/-! ## Claim theorems: C3 (idempotence) and C2 (locality) -/

/-- **C3 counterexample.**  The claim states idempotence for *every*
valid value.  The value `{a: null}` passes validation, yet the second
application of `update({a: null})` fires the root branch's keys topic
twice (the get-or-create loop re-adds the key `"a"`, then the nested
`null` removes it through `removeKey`), so a subscriber of the keys
topic (topic id 1 in the built state) is marked dirty again. -/
theorem C3_counterexample :
    JSVal.validate (.obj [("a", .null)]) = true ∧
    (buildState (.obj [("a", .null)])).2.1 = .tBranch false 1 [] [] ∧
    (updateGo (buildState (.obj [("a", .null)])).1 0
        (buildState (.obj [("a", .null)])).2.1 (.obj [("a", .null)])).2.2 = [1, 1] ∧
    marksDirty [1]
      (updateGo (buildState (.obj [("a", .null)])).1 0
        (buildState (.obj [("a", .null)])).2.1 (.obj [("a", .null)])).2.2 = true :=
  ⟨rfl, rfl, rfl, rfl⟩

/-- **C3 (amended).**  For every tree state and every valid value `v`
with no `undefined`/`null` strictly inside a record or array (the
top-level value may be empty), applying `Node.update` with `v` twice
makes the second application a complete no-op: it fires no topic at
all — neither a keys topic of any branch nor any node or leaf topic —
so no subscriber is marked dirty by the second application. -/
theorem C3_idempotence (c nid : Nat) (t : Tree) (v : JSVal)
    (h : JSVal.cleanTop v = true) :
    updateGo (updateGo c nid t v).1 nid (updateGo c nid t v).2.1 v
      = ((updateGo c nid t v).1, (updateGo c nid t v).2.1, []) :=
  updateGo_noop v _ nid _ (updateGo_establish v c nid t h)

/-- Witness for `C3_idempotence` at `{a: 1}` on a fresh root. -/
theorem C3_idempotence_witness :
    JSVal.cleanTop (.obj [("a", .atom (.num 1))]) = true ∧
    updateGo (updateGo 1 0 .tUndef (.obj [("a", .atom (.num 1))])).1 0
        (updateGo 1 0 .tUndef (.obj [("a", .atom (.num 1))])).2.1
        (.obj [("a", .atom (.num 1))])
      = ((updateGo 1 0 .tUndef (.obj [("a", .atom (.num 1))])).1,
         (updateGo 1 0 .tUndef (.obj [("a", .atom (.num 1))])).2.1, []) :=
  ⟨by decide, C3_idempotence 1 0 .tUndef (.obj [("a", .atom (.num 1))]) (by decide)⟩

/-- The tree built by `createState({a: {x: 1, y: 2}, b: 3})`.  Topic
identities in it: root node 0, root keys 1, node `a` 2, keys of `a` 3,
node `a.x` 4, leaf `a.x` 5, node `a.y` 6, leaf `a.y` 7, node `b` 8,
leaf `b` 9; the allocation counter ends at 10. -/
def c2tree : Tree :=
  (buildState (.obj [("a", .obj [("x", .atom (.num 1)), ("y", .atom (.num 2))]),
    ("b", .atom (.num 3))])).2.1

/-- The topics fired by updating that tree with
`{a: {x: 1, y: 9}, b: 3}`. -/
def c2events : Events :=
  (updateGo 10 0 c2tree (.obj [("a", .obj [("x", .atom (.num 1)), ("y", .atom (.num 9))]),
    ("b", .atom (.num 3))])).2.2

/-- **C2.**  Locality of update.  Concretely, on the tree built from
`{a: {x: 1, y: 2}, b: 3}`, updating with `{a: {x: 1, y: 9}, b: 3}`
fires exactly the leaf topic at `a.y` (id 7): a subscriber of that
topic is marked dirty, a subscriber tracking the whole subtree at `a`
(`use()` dependencies) is marked dirty, while subscribers whose only
dependencies are the topics at `a.x` or at `b` are not.  Generally, a
structural update never touches a child subtree whose sub-value is
unchanged: updating any subtree that already represents its value is
the identity and fires not a single topic, and removing an
already-empty child fires only the owning branch's keys topic, nothing
inside the child. -/
theorem C2_locality :
    (getNodeT 0 c2tree ["a", "y"] = some (6, .tLeaf 7 (some (.num 2))) ∧
     c2events = [7] ∧
     marksDirty [7] c2events = true ∧
     marksDirty (useDeps 10 c2tree ["a"]).2.2 c2events = true ∧
     marksDirty (useDeps 10 c2tree ["a", "x"]).2.2 c2events = false ∧
     marksDirty (useDeps 10 c2tree ["b"]).2.2 c2events = false) ∧
    (∀ (v : JSVal) (c nid : Nat) (t : Tree),
        repV t v = true → updateGo c nid t v = (c, t, [])) ∧
    (∀ (kid : Nat) (keys : List String) (m : ChildMap) (k : String) (cid : Nat),
        clookup m k = some (cid, .tUndef) →
        (brRemoveKey kid keys m k).2.2 = if k ∈ keys then [kid] else []) := by
  refine ⟨⟨rfl, rfl, rfl, rfl, rfl, rfl⟩, updateGo_noop, ?_⟩
  intro kid keys m k cid hlk
  rcases hbr : brRemoveKey kid keys m k with ⟨keys2, m2, ev2⟩
  obtain ⟨_, _, _, hev⟩ := brRemoveKey_spec hbr
  dsimp only
  rw [hev, hlk]
  simp [Tree.isUndef]

/-- Witness for `C2_locality`: the no-op component applied to a leaf
already holding its value, and the empty-child removal component on a
one-key branch. -/
theorem C2_locality_witness :
    updateGo 9 4 (.tLeaf 5 (some (.num 1))) (.atom (.num 1))
      = (9, .tLeaf 5 (some (.num 1)), []) ∧
    (brRemoveKey 3 ["x"] [("x", 4, .tUndef)] "x").2.2
      = if "x" ∈ ["x"] then [3] else [] :=
  ⟨C2_locality.2.1 (.atom (.num 1)) 9 4 (.tLeaf 5 (some (.num 1))) (by decide),
   C2_locality.2.2 3 ["x"] [("x", 4, .tUndef)] "x" 4 rfl⟩

/-! ## C1: round-trip on a fresh root -/

mutual

/-- JavaScript-style deep equality (the notion "deep-equals" used for
the round-trip law): equal primitives under strict comparison, arrays
pointwise in order, plain records by key *set* with pointwise deep
equality (field order irrelevant, as for `lodash.isEqual`). -/
def deepEq : JSVal → JSVal → Bool
  | .undef, .undef => true
  | .null, .null => true
  | .atom a, .atom b => a = b
  | .arr es, .arr fs => deepEqL es fs
  | .obj fs, .obj gs => deepEqF fs gs && gs.all (fun g => decide (g.1 ∈ fs.map Prod.fst))
  | .exotic i, .exotic j => i = j
  | _, _ => false

def deepEqL : List JSVal → List JSVal → Bool
  | [], [] => true
  | e :: es, f :: fs => deepEq e f && deepEqL es fs
  | _, _ => false

def deepEqF : List (String × JSVal) → List (String × JSVal) → Bool
  | [], _ => true
  | f :: fs, gs =>
      (match List.lookup f.1 gs with
       | some w => deepEq f.2 w
       | none => false) && deepEqF fs gs

end

theorem lookup_self_of_nodup :
    ∀ (fs : List (String × JSVal)), (fs.map Prod.fst).Nodup →
    ∀ f ∈ fs, List.lookup f.1 fs = some f.2 := by
  intro fs
  induction fs with
  | nil => intro _ f hf; cases hf
  | cons g gs ih =>
      intro hnd f hf
      obtain ⟨k0, v0⟩ := g
      rw [List.map_cons, List.nodup_cons] at hnd
      cases hf with
      | head =>
          show List.lookup k0 ((k0, v0) :: gs) = some v0
          rw [List.lookup]
          simp
      | tail _ hf2 =>
          have hmem : f.1 ∈ gs.map Prod.fst := List.mem_map_of_mem Prod.fst hf2
          have hne : f.1 ≠ k0 := by
            intro he
            rw [he] at hmem
            exact hnd.1 hmem
          rw [List.lookup]
          rw [beq_eq_false_iff_ne.mpr hne]
          exact ih hnd.2 f hf2

theorem deepEqF_of_lookup :
    ∀ (fs gs : List (String × JSVal)),
    (∀ f ∈ fs, List.lookup f.1 gs = some f.2 ∧ deepEq f.2 f.2 = true) →
    deepEqF fs gs = true := by
  intro fs
  induction fs with
  | nil => intro gs _; rfl
  | cons f fs ih =>
      intro gs h
      rw [deepEqF, Bool.and_eq_true]
      obtain ⟨hl, hd⟩ := h f (List.mem_cons_self _ _)
      refine ⟨?_, ih gs (fun f2 hf2 => h f2 (List.mem_cons_of_mem _ hf2))⟩
      rw [hl]
      exact hd

theorem deepEqL_refl :
    ∀ (es : List JSVal), (∀ e ∈ es, deepEq e e = true) → deepEqL es es = true := by
  intro es
  induction es with
  | nil => intro _; rfl
  | cons e es ih =>
      intro h
      rw [deepEqL, Bool.and_eq_true]
      exact ⟨h e (List.mem_cons_self _ _),
        ih (fun e2 he2 => h e2 (List.mem_cons_of_mem _ he2))⟩

/-- Deep equality is reflexive on values without duplicate record
keys (every value a JavaScript object can take). -/
theorem deepEq_refl : ∀ (v : JSVal), JSVal.cleanIn v = true → deepEq v v = true := by
  intro v
  induction v using JSVal.indOn with
  | h1 => intro h; cases h
  | h2 => intro h; cases h
  | h3 a => intro _; simp [deepEq]
  | h4 i => intro h; cases h
  | h5 es ih =>
      intro h
      have h2 : JSVal.cleanL es = true := h
      rw [JSVal.cleanL_eq, List.all_eq_true] at h2
      show deepEqL es es = true
      exact deepEqL_refl es (fun e he => ih e he (h2 e he))
  | h6 fs ih =>
      intro h
      have h2 : JSVal.cleanIn (.obj fs) = true := h
      rw [JSVal.cleanIn, Bool.and_eq_true] at h2
      obtain ⟨hnd, hcl⟩ := h2
      rw [JSVal.cleanF_eq, List.all_eq_true] at hcl
      have hnd2 : (fs.map Prod.fst).Nodup := of_decide_eq_true hnd
      show (deepEqF fs fs && fs.all (fun g => decide (g.1 ∈ fs.map Prod.fst))) = true
      rw [Bool.and_eq_true]
      constructor
      · exact deepEqF_of_lookup fs fs
          (fun f hf => ⟨lookup_self_of_nodup fs hnd2 f hf, ih f hf (hcl f hf)⟩)
      · rw [List.all_eq_true]
        intro g hg
        exact decide_eq_true (List.mem_map_of_mem Prod.fst hg)

theorem lookup_extractM (m : ChildMap) (k : String) :
    List.lookup k (extractM m) = Option.map (fun p => extractT p.2) (clookup m k) := by
  induction m with
  | nil => rfl
  | cons e rest ih =>
      obtain ⟨ke, cid, ct⟩ := e
      rw [extractM]
      by_cases h : k = ke
      · subst h
        rw [List.lookup, clookup_cons]
        simp
      · rw [List.lookup, beq_eq_false_iff_ne.mpr h, clookup_cons, if_neg h]
        exact ih

theorem gocn_miss {c kid : Nat} {keys : List String} {m : ChildMap} {k : String}
    (hk : k ∉ keys) (hlk : clookup m k = none) :
    gocn c kid keys m k = (c + 1, keys ++ [k], cset m k (c, .tUndef), [kid], c, .tUndef) := by
  rw [gocn, hlk]
  dsimp only
  rw [if_neg hk]

theorem updObj_fresh : ∀ (fs : List (String × JSVal)) (c kid : Nat)
    (keys : List String) (m : ChildMap),
    (∀ f ∈ fs, JSVal.cleanIn f.2 = true) →
    (objKeys fs).Nodup →
    (∀ f ∈ fs, f.1 ∉ keys ∧ clookup m f.1 = none) →
    (∀ f ∈ fs, ∀ (c2 nid2 : Nat), extractT (updateGo c2 nid2 .tUndef f.2).2.1 = f.2) →
    (updObj c kid keys m fs).2.1 = keys ++ objKeys fs ∧
    (∀ k, k ∉ objKeys fs → clookup (updObj c kid keys m fs).2.2.1 k = clookup m k) ∧
    (objKeys fs).map (fun k => (k, lookupD (extractM (updObj c kid keys m fs).2.2.1) k)) = fs := by
  intro fs
  induction fs with
  | nil =>
      intro c kid keys m _ _ _ _
      exact ⟨by simp [updObj, objKeys], fun k _ => rfl, rfl⟩
  | cons f fs ih =>
      intro c kid keys m hclean hnodup hmiss hIH
      obtain ⟨k0, v0⟩ := f
      have hcl0 : JSVal.cleanIn v0 = true := hclean (k0, v0) (List.mem_cons_self _ _)
      have hobjcons : objKeys ((k0, v0) :: fs) = k0 :: objKeys fs := rfl
      have hk0nin : k0 ∉ objKeys fs := by
        rw [hobjcons] at hnodup
        exact (List.nodup_cons.mp hnodup).1
      have hnodup2 : (objKeys fs).Nodup := by
        rw [hobjcons] at hnodup
        exact (List.nodup_cons.mp hnodup).2
      obtain ⟨hm0, hl0⟩ := hmiss (k0, v0) (List.mem_cons_self _ _)
      have hclean2 : ∀ f ∈ fs, JSVal.cleanIn f.2 = true :=
        fun f hf => hclean f (List.mem_cons_of_mem _ hf)
      have hIH2 : ∀ f ∈ fs, ∀ (c2 nid2 : Nat),
          extractT (updateGo c2 nid2 .tUndef f.2).2.1 = f.2 :=
        fun f hf => hIH f (List.mem_cons_of_mem _ hf)
      -- the child update on the freshly created node
      have step : ∀ (c2 : Nat) (ct2 : Tree) (ev2 : Events)
          (hrun : updObj c kid keys m ((k0, v0) :: fs) =
            (let r := updObj c2 kid (keys ++ [k0])
                (cset (cset m k0 (c, .tUndef)) k0 (c, ct2)) fs
             (r.1, r.2.1, r.2.2.1, [kid] ++ ev2 ++ r.2.2.2)))
          (hex : extractT ct2 = v0),
          (updObj c kid keys m ((k0, v0) :: fs)).2.1 = keys ++ objKeys ((k0, v0) :: fs) ∧
          (∀ k, k ∉ objKeys ((k0, v0) :: fs) →
              clookup (updObj c kid keys m ((k0, v0) :: fs)).2.2.1 k = clookup m k) ∧
          (objKeys ((k0, v0) :: fs)).map
            (fun k => (k, lookupD (extractM (updObj c kid keys m ((k0, v0) :: fs)).2.2.1) k))
            = (k0, v0) :: fs := by
        intro c2 ct2 ev2 hrun hex
        have hmiss2 : ∀ f ∈ fs, f.1 ∉ keys ++ [k0] ∧
            clookup (cset (cset m k0 (c, .tUndef)) k0 (c, ct2)) f.1 = none := by
          intro f hf
          have hne : f.1 ≠ k0 := by
            intro he
            exact hk0nin (he ▸ List.mem_map_of_mem Prod.fst hf)
          constructor
          · rw [List.mem_append]
            push_neg
            exact ⟨(hmiss f (List.mem_cons_of_mem _ hf)).1, by simp [hne]⟩
          · rw [clookup_cset, if_neg hne, clookup_cset, if_neg hne]
            exact (hmiss f (List.mem_cons_of_mem _ hf)).2
        obtain ⟨ihkeys, ihpres, ihext⟩ :=
          ih c2 kid (keys ++ [k0]) (cset (cset m k0 (c, .tUndef)) k0 (c, ct2))
            hclean2 hnodup2 hmiss2 hIH2
        rw [hrun]
        dsimp only
        have hlkf : clookup (updObj c2 kid (keys ++ [k0])
            (cset (cset m k0 (c, .tUndef)) k0 (c, ct2)) fs).2.2.1 k0 = some (c, ct2) := by
          rw [ihpres k0 hk0nin, clookup_cset, if_pos rfl]
        refine ⟨?_, ?_, ?_⟩
        · rw [ihkeys, hobjcons]
          simp
        · intro k hk
          rw [hobjcons, List.mem_cons] at hk
          push_neg at hk
          rw [ihpres k hk.2, clookup_cset, if_neg hk.1, clookup_cset, if_neg hk.1]
        · rw [hobjcons, List.map_cons]
          have hlook : List.lookup k0 (extractM (updObj c2 kid (keys ++ [k0])
              (cset (cset m k0 (c, .tUndef)) k0 (c, ct2)) fs).2.2.1) = some (extractT ct2) := by
            rw [lookup_extractM, hlkf]
            rfl
          have hhead : lookupD (extractM (updObj c2 kid (keys ++ [k0])
              (cset (cset m k0 (c, .tUndef)) k0 (c, ct2)) fs).2.2.1) k0 = v0 := by
            rw [lookupD, hlook, Option.getD_some, hex]
          rw [hhead, ihext]
      cases v0 with
      | undef => cases hcl0
      | null => cases hcl0
      | exotic i => cases hcl0
      | atom a =>
          refine step (c + 2) (.tLeaf (c + 1) (some a)) [c, c + 1] ?_ rfl
          rw [updObj, gocn_miss hm0 hl0]
          dsimp only [leafSet]
      | arr es0 =>
          rcases hup : updateGo (c + 1) c .tUndef (.arr es0) with ⟨c2, ct2, ev2⟩
          have hex : extractT ct2 = .arr es0 := by
            have := hIH (k0, .arr es0) (List.mem_cons_self _ _) (c + 1) c
            rw [hup] at this
            exact this
          refine step c2 ct2 ev2 ?_ hex
          rw [updObj, gocn_miss hm0 hl0]
          dsimp only
          rw [hup]
      | obj fs0 =>
          rcases hup : updateGo (c + 1) c .tUndef (.obj fs0) with ⟨c2, ct2, ev2⟩
          have hex : extractT ct2 = .obj fs0 := by
            have := hIH (k0, .obj fs0) (List.mem_cons_self _ _) (c + 1) c
            rw [hup] at this
            exact this
          refine step c2 ct2 ev2 ?_ hex
          rw [updObj, gocn_miss hm0 hl0]
          dsimp only
          rw [hup]

theorem updArr_fresh : ∀ (es : List JSVal) (c kid : Nat)
    (keys : List String) (m : ChildMap) (i : Nat),
    (∀ e ∈ es, JSVal.cleanIn e = true) →
    (∀ k ∈ idxKeys i es.length, k ∉ keys ∧ clookup m k = none) →
    (∀ e ∈ es, ∀ (c2 nid2 : Nat), extractT (updateGo c2 nid2 .tUndef e).2.1 = e) →
    (updArr c kid keys m i es).2.1 = keys ++ idxKeys i es.length ∧
    (∀ k, k ∉ idxKeys i es.length → clookup (updArr c kid keys m i es).2.2.1 k = clookup m k) ∧
    (idxKeys i es.length).map (fun k => lookupD (extractM (updArr c kid keys m i es).2.2.1) k) = es := by
  intro es
  induction es with
  | nil =>
      intro c kid keys m i _ _ _
      exact ⟨by simp [updArr, idxKeys], fun k _ => rfl, rfl⟩
  | cons e es ih =>
      intro c kid keys m i hclean hmiss hIH
      have hcl0 : JSVal.cleanIn e = true := hclean e (List.mem_cons_self _ _)
      have hidxcons : idxKeys i (e :: es).length = toString i :: idxKeys (i + 1) es.length := by
        rw [List.length_cons, idxKeys_succ_left]
      have hk0mem : toString i ∈ idxKeys i (e :: es).length := by
        rw [hidxcons]
        exact List.mem_cons_self _ _
      have hk0nin : toString i ∉ idxKeys (i + 1) es.length := by
        intro hmem
        rw [mem_idxKeys_iff] at hmem
        omega
      obtain ⟨hm0, hl0⟩ := hmiss (toString i) hk0mem
      have hclean2 : ∀ e2 ∈ es, JSVal.cleanIn e2 = true :=
        fun e2 he2 => hclean e2 (List.mem_cons_of_mem _ he2)
      have hIH2 : ∀ e2 ∈ es, ∀ (c2 nid2 : Nat),
          extractT (updateGo c2 nid2 .tUndef e2).2.1 = e2 :=
        fun e2 he2 => hIH e2 (List.mem_cons_of_mem _ he2)
      have step : ∀ (c2 : Nat) (ct2 : Tree) (ev2 : Events)
          (hrun : updArr c kid keys m i (e :: es) =
            (let r := updArr c2 kid (keys ++ [toString i])
                (cset (cset m (toString i) (c, .tUndef)) (toString i) (c, ct2)) (i + 1) es
             (r.1, r.2.1, r.2.2.1, [kid] ++ ev2 ++ r.2.2.2)))
          (hex : extractT ct2 = e),
          (updArr c kid keys m i (e :: es)).2.1 = keys ++ idxKeys i (e :: es).length ∧
          (∀ k, k ∉ idxKeys i (e :: es).length →
              clookup (updArr c kid keys m i (e :: es)).2.2.1 k = clookup m k) ∧
          (idxKeys i (e :: es).length).map
            (fun k => lookupD (extractM (updArr c kid keys m i (e :: es)).2.2.1) k)
            = e :: es := by
        intro c2 ct2 ev2 hrun hex
        have hmiss2 : ∀ k ∈ idxKeys (i + 1) es.length, k ∉ keys ++ [toString i] ∧
            clookup (cset (cset m (toString i) (c, .tUndef)) (toString i) (c, ct2)) k = none := by
          intro k hk
          have hkin : k ∈ idxKeys i (e :: es).length := by
            rw [hidxcons]
            exact List.mem_cons_of_mem _ hk
          have hne : k ≠ toString i := by
            intro he
            rw [he] at hk
            exact hk0nin hk
          constructor
          · rw [List.mem_append]
            push_neg
            exact ⟨(hmiss k hkin).1, by simp [hne]⟩
          · rw [clookup_cset, if_neg hne, clookup_cset, if_neg hne]
            exact (hmiss k hkin).2
        obtain ⟨ihkeys, ihpres, ihext⟩ :=
          ih c2 kid (keys ++ [toString i])
            (cset (cset m (toString i) (c, .tUndef)) (toString i) (c, ct2)) (i + 1)
            hclean2 hmiss2 hIH2
        rw [hrun]
        dsimp only
        have hlkf : clookup (updArr c2 kid (keys ++ [toString i])
            (cset (cset m (toString i) (c, .tUndef)) (toString i) (c, ct2)) (i + 1) es).2.2.1
            (toString i) = some (c, ct2) := by
          rw [ihpres (toString i) hk0nin, clookup_cset, if_pos rfl]
        refine ⟨?_, ?_, ?_⟩
        · rw [ihkeys, hidxcons]
          simp
        · intro k hk
          rw [hidxcons, List.mem_cons] at hk
          push_neg at hk
          rw [ihpres k hk.2, clookup_cset, if_neg hk.1, clookup_cset, if_neg hk.1]
        · rw [hidxcons, List.map_cons]
          have hlook : List.lookup (toString i) (extractM (updArr c2 kid (keys ++ [toString i])
              (cset (cset m (toString i) (c, .tUndef)) (toString i) (c, ct2)) (i + 1) es).2.2.1)
              = some (extractT ct2) := by
            rw [lookup_extractM, hlkf]
            rfl
          have hhead : lookupD (extractM (updArr c2 kid (keys ++ [toString i])
              (cset (cset m (toString i) (c, .tUndef)) (toString i) (c, ct2)) (i + 1) es).2.2.1)
              (toString i) = e := by
            rw [lookupD, hlook, Option.getD_some, hex]
          rw [hhead, ihext]
      cases e with
      | undef => cases hcl0
      | null => cases hcl0
      | exotic j => cases hcl0
      | atom a =>
          refine step (c + 2) (.tLeaf (c + 1) (some a)) [c, c + 1] ?_ rfl
          rw [updArr, gocn_miss hm0 hl0]
          dsimp only [leafSet]
      | arr es0 =>
          rcases hup : updateGo (c + 1) c .tUndef (.arr es0) with ⟨c2, ct2, ev2⟩
          have hex : extractT ct2 = .arr es0 := by
            have := hIH (.arr es0) (List.mem_cons_self _ _) (c + 1) c
            rw [hup] at this
            exact this
          refine step c2 ct2 ev2 ?_ hex
          rw [updArr, gocn_miss hm0 hl0]
          dsimp only
          rw [hup]
      | obj fs0 =>
          rcases hup : updateGo (c + 1) c .tUndef (.obj fs0) with ⟨c2, ct2, ev2⟩
          have hex : extractT ct2 = .obj fs0 := by
            have := hIH (.obj fs0) (List.mem_cons_self _ _) (c + 1) c
            rw [hup] at this
            exact this
          refine step c2 ct2 ev2 ?_ hex
          rw [updArr, gocn_miss hm0 hl0]
          dsimp only
          rw [hup]

/-- **Round-trip on a fresh subtree.**  Updating a fresh (empty) node
with a value containing no `undefined`/`null` (and no non-plain
instance) and extracting gives back exactly the value, field order
included. -/
theorem roundtrip_fresh : ∀ (v : JSVal) (c nid : Nat),
    JSVal.cleanIn v = true → extractT (updateGo c nid .tUndef v).2.1 = v := by
  intro v
  induction v using JSVal.indOn with
  | h1 => intro c nid h; cases h
  | h2 => intro c nid h; cases h
  | h3 a => intro c nid _; rfl
  | h4 i => intro c nid h; cases h
  | h5 es ih =>
      intro c nid h
      have h2 : JSVal.cleanL es = true := h
      rw [JSVal.cleanL_eq, List.all_eq_true] at h2
      have hIH : ∀ e ∈ es, ∀ (c2 nid2 : Nat),
          extractT (updateGo c2 nid2 .tUndef e).2.1 = e :=
        fun e he c2 nid2 => ih e he c2 nid2 (h2 e he)
      obtain ⟨hkeys, _, hext⟩ :=
        updArr_fresh es (c + 1) c [] [] 0 h2 (fun k _ => ⟨by simp, rfl⟩) hIH
      rw [updateGo_arr_tUndef]
      dsimp only
      rw [extractT]
      rw [if_pos rfl]
      rw [hkeys]
      rw [List.nil_append, hext]
  | h6 fs ih =>
      intro c nid h
      have h2 : JSVal.cleanIn (.obj fs) = true := h
      rw [JSVal.cleanIn, Bool.and_eq_true] at h2
      obtain ⟨hnd, hcl⟩ := h2
      rw [JSVal.cleanF_eq, List.all_eq_true] at hcl
      have hnd2 : (objKeys fs).Nodup := of_decide_eq_true hnd
      have hIH : ∀ f ∈ fs, ∀ (c2 nid2 : Nat),
          extractT (updateGo c2 nid2 .tUndef f.2).2.1 = f.2 :=
        fun f hf c2 nid2 => ih f hf c2 nid2 (hcl f hf)
      obtain ⟨hkeys, _, hext⟩ :=
        updObj_fresh fs (c + 1) c [] [] hcl hnd2 (fun f _ => ⟨by simp, rfl⟩) hIH
      rw [updateGo_obj_tUndef]
      dsimp only
      rw [extractT]
      rw [if_neg (by simp)]
      rw [hkeys]
      rw [List.nil_append, hext]

/-- The value `{a: null}`, accepted by the code's validation. -/
def c1null : JSVal := .obj [("a", .null)]

/-- **C1 counterexample.**  The claim quantifies over every valid
structural value; `{a: null}` is accepted by `validateStateInput`, but
`extractValue(update(freshRoot, {a: null}))` is `{}` — the nested
`null` removes the key — which does not deep-equal `{a: null}`. -/
theorem C1_counterexample :
    JSVal.validate c1null = true ∧
    extractT (buildState c1null).2.1 = .obj [] ∧
    deepEq (extractT (buildState c1null).2.1) c1null = false :=
  ⟨rfl, rfl, rfl⟩

/-- **C1 (amended).**  For every value `v` that is either top-level
empty or contains no `undefined`/`null` anywhere (nested atomics,
arrays and plain records with distinct field names), creating a fresh
root and updating it with `v` followed by `extractValue` returns `v`
exactly — in particular a value that deep-equals `v`. -/
theorem C1_roundtrip (v : JSVal) (h : v = .undef ∨ JSVal.cleanIn v = true) :
    extractT (buildState v).2.1 = v ∧ deepEq (extractT (buildState v).2.1) v = true := by
  cases h with
  | inl h => subst h; exact ⟨rfl, rfl⟩
  | inr h =>
      have he : extractT (buildState v).2.1 = v := roundtrip_fresh v 1 0 h
      refine ⟨he, ?_⟩
      rw [he]
      exact deepEq_refl v h

/-- Witness for `C1_roundtrip` at `{a: [1, "s"], b: {c: true}}`. -/
theorem C1_roundtrip_witness :
    extractT (buildState (.obj [("a", .arr [.atom (.num 1), .atom (.str "s")]),
        ("b", .obj [("c", .atom (.bool true))])])).2.1
      = .obj [("a", .arr [.atom (.num 1), .atom (.str "s")]),
        ("b", .obj [("c", .atom (.bool true))])] ∧
    deepEq (extractT (buildState (.obj [("a", .arr [.atom (.num 1), .atom (.str "s")]),
        ("b", .obj [("c", .atom (.bool true))])])).2.1)
      (.obj [("a", .arr [.atom (.num 1), .atom (.str "s")]),
        ("b", .obj [("c", .atom (.bool true))])]) = true :=
  C1_roundtrip (.obj [("a", .arr [.atom (.num 1), .atom (.str "s")]),
    ("b", .obj [("c", .atom (.bool true))])]) (Or.inr (by decide))

/-! ## C6: clearing of dropped children -/

/-- The child-update loop leaves every key outside the value's own key
set alone: its map entry and its keys-topic membership are unchanged
(true for arbitrary field values, including emptying ones). -/
theorem updObj_pres : ∀ (fs : List (String × JSVal)) (c kid : Nat)
    (keys : List String) (m : ChildMap) (k : String), k ∉ objKeys fs →
    clookup (updObj c kid keys m fs).2.2.1 k = clookup m k ∧
    (k ∈ (updObj c kid keys m fs).2.1 ↔ k ∈ keys) := by
  intro fs
  induction fs with
  | nil => intro c kid keys m k _; exact ⟨rfl, Iff.rfl⟩
  | cons f fs ih =>
      intro c kid keys m k hk
      obtain ⟨k0, v0⟩ := f
      have hne : k ≠ k0 := by
        intro he
        exact hk (he ▸ List.mem_cons_self k0 (objKeys fs))
      have hk2 : k ∉ objKeys fs := fun hmem => hk (List.mem_cons_of_mem _ hmem)
      rcases hgeq : gocn c kid keys m k0 with ⟨c1, keys1, m1, ev1, cid, ct⟩
      obtain ⟨hkeys1, _, _, hpres1, _⟩ := gocn_spec hgeq
      have hmem1 := mem_of_gocn_keys hkeys1
      have hkmem1 : k ∈ keys1 ↔ k ∈ keys := by
        rw [hmem1 k]
        constructor
        · intro h
          cases h with
          | inl h => exact h
          | inr h => exact absurd h hne
        · exact Or.inl
      cases v0 with
      | undef =>
          rcases hbr : brRemoveKey kid keys1 m1 k0 with ⟨keys2, m2, ev2⟩
          obtain ⟨hk2e, _, hpres2, _⟩ := brRemoveKey_spec hbr
          have hrun : updObj c kid keys m ((k0, .undef) :: fs) =
              (let r := updObj c1 kid keys2 m2 fs
               (r.1, r.2.1, r.2.2.1, ev1 ++ ev2 ++ r.2.2.2)) := by
            rw [updObj, hgeq]
            dsimp only
            rw [hbr]
          rw [hrun]
          dsimp only
          obtain ⟨ihl, ihk⟩ := ih c1 kid keys2 m2 k hk2
          refine ⟨?_, ?_⟩
          · rw [ihl, hpres2 k hne, hpres1 k hne]
          · rw [ihk, hk2e, ← hkmem1]
            exact List.mem_erase_of_ne hne
      | null =>
          rcases hbr : brRemoveKey kid keys1 m1 k0 with ⟨keys2, m2, ev2⟩
          obtain ⟨hk2e, _, hpres2, _⟩ := brRemoveKey_spec hbr
          have hrun : updObj c kid keys m ((k0, .null) :: fs) =
              (let r := updObj c1 kid keys2 m2 fs
               (r.1, r.2.1, r.2.2.1, ev1 ++ ev2 ++ r.2.2.2)) := by
            rw [updObj, hgeq]
            dsimp only
            rw [hbr]
          rw [hrun]
          dsimp only
          obtain ⟨ihl, ihk⟩ := ih c1 kid keys2 m2 k hk2
          refine ⟨?_, ?_⟩
          · rw [ihl, hpres2 k hne, hpres1 k hne]
          · rw [ihk, hk2e, ← hkmem1]
            exact List.mem_erase_of_ne hne
      | atom a =>
          rcases hls : leafSet c1 cid ct a with ⟨c2, ct2, ev2⟩
          have hrun : updObj c kid keys m ((k0, .atom a) :: fs) =
              (let r := updObj c2 kid keys1 (cset m1 k0 (cid, ct2)) fs
               (r.1, r.2.1, r.2.2.1, ev1 ++ ev2 ++ r.2.2.2)) := by
            rw [updObj, hgeq]
            dsimp only
            rw [hls]
          rw [hrun]
          dsimp only
          obtain ⟨ihl, ihk⟩ := ih c2 kid keys1 (cset m1 k0 (cid, ct2)) k hk2
          refine ⟨?_, ?_⟩
          · rw [ihl, clookup_cset, if_neg hne, hpres1 k hne]
          · rw [ihk, hkmem1]
      | arr es0 =>
          rcases hup : updateGo c1 cid ct (.arr es0) with ⟨c2, ct2, ev2⟩
          have hrun : updObj c kid keys m ((k0, .arr es0) :: fs) =
              (let r := updObj c2 kid keys1 (cset m1 k0 (cid, ct2)) fs
               (r.1, r.2.1, r.2.2.1, ev1 ++ ev2 ++ r.2.2.2)) := by
            rw [updObj, hgeq]
            dsimp only
            rw [hup]
          rw [hrun]
          dsimp only
          obtain ⟨ihl, ihk⟩ := ih c2 kid keys1 (cset m1 k0 (cid, ct2)) k hk2
          refine ⟨?_, ?_⟩
          · rw [ihl, clookup_cset, if_neg hne, hpres1 k hne]
          · rw [ihk, hkmem1]
      | obj fs0 =>
          rcases hup : updateGo c1 cid ct (.obj fs0) with ⟨c2, ct2, ev2⟩
          have hrun : updObj c kid keys m ((k0, .obj fs0) :: fs) =
              (let r := updObj c2 kid keys1 (cset m1 k0 (cid, ct2)) fs
               (r.1, r.2.1, r.2.2.1, ev1 ++ ev2 ++ r.2.2.2)) := by
            rw [updObj, hgeq]
            dsimp only
            rw [hup]
          rw [hrun]
          dsimp only
          obtain ⟨ihl, ihk⟩ := ih c2 kid keys1 (cset m1 k0 (cid, ct2)) k hk2
          refine ⟨?_, ?_⟩
          · rw [ihl, clookup_cset, if_neg hne, hpres1 k hne]
          · rw [ihk, hkmem1]
      | exotic i0 =>
          rcases hup : updateGo c1 cid ct (.exotic i0) with ⟨c2, ct2, ev2⟩
          have hrun : updObj c kid keys m ((k0, .exotic i0) :: fs) =
              (let r := updObj c2 kid keys1 (cset m1 k0 (cid, ct2)) fs
               (r.1, r.2.1, r.2.2.1, ev1 ++ ev2 ++ r.2.2.2)) := by
            rw [updObj, hgeq]
            dsimp only
            rw [hup]
          rw [hrun]
          dsimp only
          obtain ⟨ihl, ihk⟩ := ih c2 kid keys1 (cset m1 k0 (cid, ct2)) k hk2
          refine ⟨?_, ?_⟩
          · rw [ihl, clookup_cset, if_neg hne, hpres1 k hne]
          · rw [ihk, hkmem1]

/-- The tree built by `createState({a: {x: 1}})`.  Topic identities:
root node 0, root keys 1, node `a` 2, keys of `a` 3, node `a.x` 4,
leaf `a.x` 5. -/
def c6tree : Tree := (buildState (.obj [("a", .obj [("x", .atom (.num 1))])])).2.1

/-- The topics fired by updating that tree with `{}` (dropping the
whole `a` subtree). -/
def c6events : Events := (updateGo 6 0 c6tree (.obj [])).2.2

/-- **C6 counterexample.**  The claim states that a dropped child is
*recursively* cleared, every descendant topic under it being emptied
(hence firing, since emptying a topic holding a value notifies) and
becoming detach-eligible.  Dropping `a` from the tree built from
`{a: {x: 1}}` fires exactly the node topic of `a` (id 2) and the root
keys topic (id 1): the leaf topic of `a.x` (id 5, holding `1`), the
keys topic of `a`'s branch (id 3) and the node topic of `a.x` (id 4)
are not emptied and do not fire — and the dropped leaf topic was
created without any detach callback at all (`new Topic(undefined)` in
`getOrCreateTopic`), so it can never become detach-eligible. -/
theorem C6_counterexample :
    getNodeT 0 c6tree ["a", "x"] = some (4, .tLeaf 5 (some (.num 1))) ∧
    c6events = [2, 1] ∧
    5 ∉ c6events ∧ 3 ∉ c6events ∧ 4 ∉ c6events :=
  ⟨rfl, rfl, by decide, by decide, by decide⟩

/-- **C6 (amended).**  When `update` applies a record value to a node
holding a branch, every existing child whose key is absent from the
new key set is *shallowly* cleared: its content is set to `undefined`
— firing its own node topic iff it held content, and nothing else —
whereupon the child node (whose detach callback the owning branch
installed) detaches from the `nodes` map; its key is removed from the
branch's `keys` topic.  The dropped subtree is discarded wholesale:
topics strictly inside it are not emptied and never fire. -/
theorem C6_stale_children :
    (∀ (keys nk : List String) (m : ChildMap) (k : String), k ∉ nk →
        clookup (staleClear keys nk m).1 k = (if k ∈ keys then none else clookup m k)) ∧
    (∀ (keys nk : List String) (m : ChildMap), ∀ x ∈ (staleClear keys nk m).2,
        ∃ k p, k ∈ keys ∧ k ∉ nk ∧ clookup m k = some p ∧
          p.2.isUndef = false ∧ x = p.1) ∧
    (∀ (ia : Bool) (kid : Nat) (keys : List String) (m : ChildMap)
        (fs : List (String × JSVal)) (c nid : Nat) (k : String),
        k ∈ keys → k ∉ objKeys fs →
        ∀ keys2 m2, (updateGo c nid (.tBranch ia kid keys m) (.obj fs)).2.1
            = .tBranch false kid keys2 m2 →
          k ∉ keys2 ∧ clookup m2 k = none) := by
  refine ⟨staleClear_stale, staleClear_events, ?_⟩
  intro ia kid keys m fs c nid k hk hknin keys2 m2 heq
  rw [updateGo_obj_eq] at heq
  dsimp only at heq
  simp only [Tree.tBranch.injEq] at heq
  obtain ⟨_, _, hkeys2, hm2⟩ := heq
  obtain ⟨hpl, hkmem⟩ := updObj_pres fs c kid
    (keys.filter (fun k2 => decide (k2 ∈ objKeys fs)))
    (staleClear keys (objKeys fs) m).1 k hknin
  constructor
  · rw [← hkeys2]
    rw [hkmem]
    intro hmem
    rw [List.mem_filter] at hmem
    exact hknin (of_decide_eq_true hmem.2)
  · rw [← hm2, hpl, staleClear_stale keys (objKeys fs) m k hknin, if_pos hk]

/-- Witness for `C6_stale_children`: dropping the single key of a
one-child branch. -/
theorem C6_stale_children_witness :
    clookup (staleClear ["a"] [] [("a", 2, .tLeaf 3 (some (.num 1)))]).1 "a"
      = (if "a" ∈ ["a"] then none else clookup [("a", 2, .tLeaf 3 (some (.num 1)))] "a") :=
  C6_stale_children.1 ["a"] [] [("a", 2, .tLeaf 3 (some (.num 1)))] "a" (by simp)

/-! ## C7: key-set vs. size independence.  `useSize` subscribes to the
walk's node topics and the branch's keys topic only.  We bound the
topic identities an update can fire: every fired topic is the updated
node's topic, a topic already reachable under the updated content, or
a freshly allocated one — so a keys topic whose identity is distinct
from all of those fires iff the ordered key list changes, which for a
clean array value happens iff the element count changes. -/

theorem mem_collectM {x : Nat} : ∀ {m : ChildMap},
    x ∈ collectM m ↔ ∃ e ∈ m, x = e.2.1 ∨ x ∈ collectT e.2.2 := by
  intro m
  induction m with
  | nil => simp [collectM]
  | cons e rest ih =>
      obtain ⟨k, cid, ct⟩ := e
      rw [collectM]
      constructor
      · intro hx
        rcases List.mem_append.mp hx with hx | hx
        · rcases List.mem_cons.mp hx with rfl | hx
          · exact ⟨(k, x, ct), List.mem_cons_self _ _, Or.inl rfl⟩
          · exact ⟨(k, cid, ct), List.mem_cons_self _ _, Or.inr hx⟩
        · obtain ⟨e, he, hx2⟩ := ih.mp hx
          exact ⟨e, List.mem_cons_of_mem _ he, hx2⟩
      · rintro ⟨e, he, hx⟩
        rcases List.mem_cons.mp he with rfl | he
        · rcases hx with rfl | hx
          · exact List.mem_append.mpr (Or.inl (List.mem_cons_self _ _))
          · exact List.mem_append.mpr (Or.inl (List.mem_cons_of_mem _ hx))
        · exact List.mem_append.mpr (Or.inr (ih.mpr ⟨e, he, hx⟩))

/-- A child found in the map contributes its node topic and all the
topics under its content to the reachable-topic set. -/
theorem collectT_mem_of_lookup {m : ChildMap} {k : String} {p : Nat × Tree}
    (h : clookup m k = some p) :
    p.1 ∈ collectM m ∧ ∀ x ∈ collectT p.2, x ∈ collectM m := by
  have hmem : (k, p) ∈ m := lookup_mem (show List.lookup k m = some p from h)
  exact ⟨mem_collectM.mpr ⟨(k, p), hmem, Or.inl rfl⟩,
         fun x hx => mem_collectM.mpr ⟨(k, p), hmem, Or.inr hx⟩⟩

theorem mem_cset_sub {k : String} {v : Nat × Tree} :
    ∀ {m : ChildMap}, ∀ e ∈ cset m k v, e ∈ m ∨ e = (k, v) := by
  intro m
  induction m with
  | nil =>
      intro e he
      rw [cset] at he
      exact Or.inr (List.mem_singleton.mp he)
  | cons f rest ih =>
      obtain ⟨k', v'⟩ := f
      intro e he
      rw [cset] at he
      by_cases hk : k' = k
      · rw [if_pos hk] at he
        rcases List.mem_cons.mp he with rfl | he
        · exact Or.inr rfl
        · exact Or.inl (List.mem_cons_of_mem _ he)
      · rw [if_neg hk] at he
        rcases List.mem_cons.mp he with rfl | he
        · exact Or.inl (List.mem_cons_self _ _)
        · rcases ih e he with h1 | h1
          · exact Or.inl (List.mem_cons_of_mem _ h1)
          · exact Or.inr h1

theorem mem_cdel_sub {k : String} : ∀ {m : ChildMap}, ∀ e ∈ cdel m k, e ∈ m := by
  intro m
  induction m with
  | nil => intro e he; cases he
  | cons f rest ih =>
      obtain ⟨k', v'⟩ := f
      intro e he
      rw [cdel] at he
      by_cases hk : k' = k
      · rw [if_pos hk] at he
        exact List.mem_cons_of_mem _ (ih e he)
      · rw [if_neg hk] at he
        rcases List.mem_cons.mp he with rfl | he
        · exact List.mem_cons_self _ _
        · exact List.mem_cons_of_mem _ (ih e he)

theorem collectM_cset_sub {m : ChildMap} {k : String} {v : Nat × Tree} :
    ∀ x ∈ collectM (cset m k v), x ∈ collectM m ∨ x = v.1 ∨ x ∈ collectT v.2 := by
  intro x hx
  obtain ⟨e, he, hx⟩ := mem_collectM.mp hx
  rcases mem_cset_sub e he with hm | heq
  · exact Or.inl (mem_collectM.mpr ⟨e, hm, hx⟩)
  · subst heq
    rcases hx with h1 | h1
    · exact Or.inr (Or.inl h1)
    · exact Or.inr (Or.inr h1)

theorem collectM_cdel_sub {m : ChildMap} {k : String} :
    ∀ x ∈ collectM (cdel m k), x ∈ collectM m := by
  intro x hx
  obtain ⟨e, he, hx⟩ := mem_collectM.mp hx
  exact mem_collectM.mpr ⟨e, mem_cdel_sub e he, hx⟩

/-- The stale-child pass only removes children from the map; it never
introduces a topic identity. -/
theorem collectM_staleClear_sub (keys : List String) : ∀ (nk : List String) (m : ChildMap),
    ∀ x ∈ collectM (staleClear keys nk m).1, x ∈ collectM m := by
  induction keys with
  | nil => intro nk m x hx; exact hx
  | cons k0 ks ih =>
      intro nk m x hx
      rw [staleClear] at hx
      by_cases h0 : k0 ∈ nk
      · rw [if_pos h0] at hx
        exact ih nk m x hx
      · rw [if_neg h0] at hx
        cases hlk : clookup m k0 with
        | none =>
            rw [hlk] at hx
            exact ih nk m x hx
        | some p =>
            obtain ⟨cid0, ct0⟩ := p
            rw [hlk] at hx
            cases hsc : staleClear ks nk (cdel m k0) with
            | mk m1 ev =>
                rw [hsc] at hx
                dsimp only at hx
                exact collectM_cdel_sub x (ih nk (cdel m k0) x (by rw [hsc]; exact hx))

/-- Every topic the stale-child pass fires is a node topic of a child
already in the map. -/
theorem staleClear_ev_sub (keys nk : List String) (m : ChildMap) :
    ∀ x ∈ (staleClear keys nk m).2, x ∈ collectM m := by
  intro x hx
  obtain ⟨k, p, -, -, hlk, -, heq⟩ := staleClear_events keys nk m x hx
  subst heq
  exact (collectT_mem_of_lookup hlk).1

/-- `getOrCreateNode` bound: it fires at most the keys topic, the
returned child's topic and content-topics are existing or fresh, and
the updated map adds only fresh identities. -/
theorem gocn_bound {c kid : Nat} {keys : List String} {m : ChildMap} {k : String}
    {c1 : Nat} {keys1 : List String} {m1 : ChildMap} {ev1 : Events} {cid : Nat} {ct : Tree}
    (h : gocn c kid keys m k = (c1, keys1, m1, ev1, cid, ct)) :
    c ≤ c1 ∧
    (∀ x ∈ ev1, x = kid) ∧
    (∀ x, x = cid ∨ x ∈ collectT ct → x ∈ collectM m ∨ (c ≤ x ∧ x < c1)) ∧
    (∀ x ∈ collectM m1, x ∈ collectM m ∨ (c ≤ x ∧ x < c1)) := by
  rw [gocn] at h
  cases hlk : clookup m k with
  | some p =>
      obtain ⟨cid0, ct0⟩ := p
      rw [hlk] at h
      dsimp only at h
      obtain ⟨hc, htc⟩ := collectT_mem_of_lookup hlk
      by_cases hk : k ∈ keys
      · rw [if_pos hk] at h
        simp only [Prod.mk.injEq] at h
        obtain ⟨rfl, rfl, rfl, rfl, rfl, rfl⟩ := h
        refine ⟨Nat.le_refl c, fun x hx => absurd hx (List.not_mem_nil x), ?_,
                fun x hx => Or.inl hx⟩
        intro x hx
        rcases hx with rfl | hx
        · exact Or.inl hc
        · exact Or.inl (htc x hx)
      · rw [if_neg hk] at h
        simp only [Prod.mk.injEq] at h
        obtain ⟨rfl, rfl, rfl, rfl, rfl, rfl⟩ := h
        refine ⟨Nat.le_refl c, fun x hx => List.mem_singleton.mp hx, ?_,
                fun x hx => Or.inl hx⟩
        intro x hx
        rcases hx with rfl | hx
        · exact Or.inl hc
        · exact Or.inl (htc x hx)
  | none =>
      rw [hlk] at h
      dsimp only at h
      by_cases hk : k ∈ keys
      · rw [if_pos hk] at h
        simp only [Prod.mk.injEq] at h
        obtain ⟨rfl, rfl, rfl, rfl, rfl, rfl⟩ := h
        refine ⟨Nat.le_succ c, fun x hx => absurd hx (List.not_mem_nil x), ?_, ?_⟩
        · intro x hx
          rcases hx with rfl | hx
          · exact Or.inr ⟨Nat.le_refl x, Nat.lt_succ_self x⟩
          · exact absurd hx (by simp [collectT])
        · intro x hx
          rcases collectM_cset_sub x hx with h1 | h1 | h1
          · exact Or.inl h1
          · have hxc : x = c := h1
            subst hxc
            exact Or.inr ⟨Nat.le_refl x, Nat.lt_succ_self x⟩
          · exact absurd h1 (by simp [collectT])
      · rw [if_neg hk] at h
        simp only [Prod.mk.injEq] at h
        obtain ⟨rfl, rfl, rfl, rfl, rfl, rfl⟩ := h
        refine ⟨Nat.le_succ c, fun x hx => List.mem_singleton.mp hx, ?_, ?_⟩
        · intro x hx
          rcases hx with rfl | hx
          · exact Or.inr ⟨Nat.le_refl x, Nat.lt_succ_self x⟩
          · exact absurd hx (by simp [collectT])
        · intro x hx
          rcases collectM_cset_sub x hx with h1 | h1 | h1
          · exact Or.inl h1
          · have hxc : x = c := h1
            subst hxc
            exact Or.inr ⟨Nat.le_refl x, Nat.lt_succ_self x⟩
          · exact absurd h1 (by simp [collectT])

/-- `set` on a node's leaf topic fires at most the node topic, the
existing leaf topic, or a fresh topic; the resulting content's topics
are existing or fresh. -/
theorem leafSet_bound {c nid : Nat} {t : Tree} {a : Atom} {c2 : Nat} {t2 : Tree} {ev : Events}
    (h : leafSet c nid t a = (c2, t2, ev)) :
    c ≤ c2 ∧
    (∀ x ∈ ev, x = nid ∨ x ∈ collectT t ∨ (c ≤ x ∧ x < c2)) ∧
    (∀ x ∈ collectT t2, x ∈ collectT t ∨ (c ≤ x ∧ x < c2)) := by
  cases t with
  | tLeaf lid w =>
      simp only [leafSet, Prod.mk.injEq] at h
      obtain ⟨rfl, rfl, rfl⟩ := h
      refine ⟨Nat.le_refl c, ?_, fun x hx => Or.inl hx⟩
      intro x hx
      by_cases hw : w = some a
      · rw [if_pos hw] at hx
        cases hx
      · rw [if_neg hw] at hx
        have hxl : x = lid := List.mem_singleton.mp hx
        subst hxl
        exact Or.inr (Or.inl (List.mem_singleton.mpr rfl))
  | tUndef =>
      simp only [leafSet, Prod.mk.injEq] at h
      obtain ⟨rfl, rfl, rfl⟩ := h
      refine ⟨Nat.le_succ c, ?_, ?_⟩
      · intro x hx
        rcases List.mem_cons.mp hx with rfl | hx
        · exact Or.inl rfl
        · have hxc : x = c := List.mem_singleton.mp hx
          subst hxc
          exact Or.inr (Or.inr ⟨Nat.le_refl x, Nat.lt_succ_self x⟩)
      · intro x hx
        have hxc : x = c := List.mem_singleton.mp hx
        subst hxc
        exact Or.inr ⟨Nat.le_refl x, Nat.lt_succ_self x⟩
  | tBranch ia kid keys m =>
      simp only [leafSet, Prod.mk.injEq] at h
      obtain ⟨rfl, rfl, rfl⟩ := h
      refine ⟨Nat.le_succ c, ?_, ?_⟩
      · intro x hx
        rcases List.mem_cons.mp hx with rfl | hx
        · exact Or.inl rfl
        · have hxc : x = c := List.mem_singleton.mp hx
          subst hxc
          exact Or.inr (Or.inr ⟨Nat.le_refl x, Nat.lt_succ_self x⟩)
      · intro x hx
        have hxc : x = c := List.mem_singleton.mp hx
        subst hxc
        exact Or.inr ⟨Nat.le_refl x, Nat.lt_succ_self x⟩

/-- `removeKey` bound: it fires at most the keys topic and an existing
child's node topic, and only removes map entries. -/
theorem brRemoveKey_bound {kid : Nat} {keys : List String} {m : ChildMap} {k : String}
    {keys2 : List String} {m2 : ChildMap} {ev2 : Events}
    (h : brRemoveKey kid keys m k = (keys2, m2, ev2)) :
    (∀ x ∈ ev2, x = kid ∨ x ∈ collectM m) ∧
    (∀ x ∈ collectM m2, x ∈ collectM m) := by
  rw [brRemoveKey] at h
  cases hlk : clookup m k with
  | none =>
      rw [hlk] at h
      dsimp only at h
      simp only [Prod.mk.injEq] at h
      obtain ⟨-, rfl, rfl⟩ := h
      refine ⟨?_, fun x hx => hx⟩
      intro x hx
      by_cases hk : k ∈ keys
      · rw [if_pos hk] at hx
        exact Or.inl (List.mem_singleton.mp hx)
      · rw [if_neg hk] at hx
        cases hx
  | some p =>
      obtain ⟨cid0, ct0⟩ := p
      rw [hlk] at h
      dsimp only at h
      simp only [Prod.mk.injEq] at h
      obtain ⟨-, rfl, rfl⟩ := h
      refine ⟨?_, fun x hx => collectM_cdel_sub x hx⟩
      intro x hx
      rcases List.mem_append.mp hx with hx | hx
      · by_cases hk : k ∈ keys
        · rw [if_pos hk] at hx
          exact Or.inl (List.mem_singleton.mp hx)
        · rw [if_neg hk] at hx
          cases hx
      · by_cases hu : ct0.isUndef
        · rw [if_pos hu] at hx
          cases hx
        · rw [if_neg hu] at hx
          have hxc : x = cid0 := List.mem_singleton.mp hx
          subst hxc
          exact Or.inr (collectT_mem_of_lookup hlk).1

/-- Invariant of one `Node.update` step at node `nid` with content `t`
starting from counter `c`: the counter grows, every fired topic is the
node topic, reachable under `t`, or fresh, and every topic reachable
under the new content is reachable under `t` or fresh. -/
def GoodStep (c nid : Nat) (t : Tree) (r : Nat × Tree × Events) : Prop :=
  c ≤ r.1 ∧
  (∀ x ∈ r.2.2, x = nid ∨ x ∈ collectT t ∨ (c ≤ x ∧ x < r.1)) ∧
  (∀ x ∈ collectT r.2.1, x ∈ collectT t ∨ (c ≤ x ∧ x < r.1))

/-- Invariant of the per-child loops of `Node.update` over a branch
with keys topic `kid` and map `m`: fired topics are the keys topic, in
the map, or fresh; new map topics are old or fresh. -/
def GoodLoop (c kid : Nat) (m : ChildMap) (r : Nat × List String × ChildMap × Events) : Prop :=
  c ≤ r.1 ∧
  (∀ x ∈ r.2.2.2, x = kid ∨ x ∈ collectM m ∨ (c ≤ x ∧ x < r.1)) ∧
  (∀ x ∈ collectM r.2.2.1, x ∈ collectM m ∨ (c ≤ x ∧ x < r.1))

/-- `Node.update` on a branch content with a non-plain object instance
(modelled with no own enumerable keys), spelled out. -/
theorem updateGo_exotic_branch (c nid : Nat) (ia : Bool) (kid : Nat) (keys : List String)
    (m : ChildMap) (j : Nat) :
    updateGo c nid (.tBranch ia kid keys m) (.exotic j) =
      (c, .tBranch false kid (keys.filter (fun k => decide (k ∈ ([] : List String))))
         (staleClear keys [] m).1,
       (staleClear keys [] m).2 ++
         (if keys.filter (fun k => decide (k ∈ ([] : List String))) = keys
          then [] else [kid])) := by
  rw [updateGo]
  dsimp only [ensureBranch]
  cases staleClear keys [] m with
  | mk m1 ev1 => simp

/-- Assembling one removal step of the per-child loop into the loop
invariant. -/
theorem updLoop_step_rm {c c1 kid : Nat} {m m1 m2 : ChildMap}
    {ev1 ev2 : Events} {r : Nat × List String × ChildMap × Events}
    (hcle1 : c ≤ c1)
    (hev1 : ∀ x ∈ ev1, x = kid)
    (hm1 : ∀ x ∈ collectM m1, x ∈ collectM m ∨ (c ≤ x ∧ x < c1))
    (hev2 : ∀ x ∈ ev2, x = kid ∨ x ∈ collectM m1)
    (hm2 : ∀ x ∈ collectM m2, x ∈ collectM m1)
    (hrec : GoodLoop c1 kid m2 r) :
    GoodLoop c kid m (r.1, r.2.1, r.2.2.1, ev1 ++ ev2 ++ r.2.2.2) := by
  obtain ⟨ihc, ihev, ihm⟩ := hrec
  refine ⟨Nat.le_trans hcle1 ihc, ?_, ?_⟩
  · intro x hx
    rcases List.mem_append.mp hx with hx | hx
    · rcases List.mem_append.mp hx with hx | hx
      · exact Or.inl (hev1 x hx)
      · rcases hev2 x hx with h1 | h1
        · exact Or.inl h1
        · rcases hm1 x h1 with h2 | h2
          · exact Or.inr (Or.inl h2)
          · exact Or.inr (Or.inr ⟨h2.1, Nat.lt_of_lt_of_le h2.2 ihc⟩)
    · rcases ihev x hx with h1 | h1 | h1
      · exact Or.inl h1
      · rcases hm1 x (hm2 x h1) with h2 | h2
        · exact Or.inr (Or.inl h2)
        · exact Or.inr (Or.inr ⟨h2.1, Nat.lt_of_lt_of_le h2.2 ihc⟩)
      · exact Or.inr (Or.inr ⟨Nat.le_trans hcle1 h1.1, h1.2⟩)
  · intro x hx
    rcases ihm x hx with h1 | h1
    · rcases hm1 x (hm2 x h1) with h2 | h2
      · exact Or.inl h2
      · exact Or.inr ⟨h2.1, Nat.lt_of_lt_of_le h2.2 ihc⟩
    · exact Or.inr ⟨Nat.le_trans hcle1 h1.1, h1.2⟩

/-- Assembling one content-setting step (leaf set or recursive update
of the child's content) of the per-child loop into the loop
invariant. -/
theorem updLoop_step_set (k : String) {c c1 c2 kid : Nat} {m m1 : ChildMap}
    {cid : Nat} {ct ct1 : Tree} {ev1 ev2 : Events}
    {r : Nat × List String × ChildMap × Events}
    (hcle1 : c ≤ c1)
    (hev1 : ∀ x ∈ ev1, x = kid)
    (hct : ∀ x, x = cid ∨ x ∈ collectT ct → x ∈ collectM m ∨ (c ≤ x ∧ x < c1))
    (hm1 : ∀ x ∈ collectM m1, x ∈ collectM m ∨ (c ≤ x ∧ x < c1))
    (hcle2 : c1 ≤ c2)
    (hev2 : ∀ x ∈ ev2, x = cid ∨ x ∈ collectT ct ∨ (c1 ≤ x ∧ x < c2))
    (hct1 : ∀ x ∈ collectT ct1, x ∈ collectT ct ∨ (c1 ≤ x ∧ x < c2))
    (hrec : GoodLoop c2 kid (cset m1 k (cid, ct1)) r) :
    GoodLoop c kid m (r.1, r.2.1, r.2.2.1, ev1 ++ ev2 ++ r.2.2.2) := by
  obtain ⟨ihc, ihev, ihm⟩ := hrec
  have hmset : ∀ x ∈ collectM (cset m1 k (cid, ct1)),
      x ∈ collectM m ∨ (c ≤ x ∧ x < c2) := by
    intro x hx
    rcases collectM_cset_sub x hx with h1 | h1 | h1
    · rcases hm1 x h1 with h2 | h2
      · exact Or.inl h2
      · exact Or.inr ⟨h2.1, Nat.lt_of_lt_of_le h2.2 hcle2⟩
    · rcases hct x (Or.inl h1) with h2 | h2
      · exact Or.inl h2
      · exact Or.inr ⟨h2.1, Nat.lt_of_lt_of_le h2.2 hcle2⟩
    · rcases hct1 x h1 with h2 | h2
      · rcases hct x (Or.inr h2) with h3 | h3
        · exact Or.inl h3
        · exact Or.inr ⟨h3.1, Nat.lt_of_lt_of_le h3.2 hcle2⟩
      · exact Or.inr ⟨Nat.le_trans hcle1 h2.1, h2.2⟩
  refine ⟨Nat.le_trans hcle1 (Nat.le_trans hcle2 ihc), ?_, ?_⟩
  · intro x hx
    rcases List.mem_append.mp hx with hx | hx
    · rcases List.mem_append.mp hx with hx | hx
      · exact Or.inl (hev1 x hx)
      · rcases hev2 x hx with h1 | h1 | h1
        · rcases hct x (Or.inl h1) with h2 | h2
          · exact Or.inr (Or.inl h2)
          · exact Or.inr (Or.inr ⟨h2.1,
              Nat.lt_of_lt_of_le h2.2 (Nat.le_trans hcle2 ihc)⟩)
        · rcases hct x (Or.inr h1) with h2 | h2
          · exact Or.inr (Or.inl h2)
          · exact Or.inr (Or.inr ⟨h2.1,
              Nat.lt_of_lt_of_le h2.2 (Nat.le_trans hcle2 ihc)⟩)
        · exact Or.inr (Or.inr ⟨Nat.le_trans hcle1 h1.1,
            Nat.lt_of_lt_of_le h1.2 ihc⟩)
    · rcases ihev x hx with h1 | h1 | h1
      · exact Or.inl h1
      · rcases hmset x h1 with h2 | h2
        · exact Or.inr (Or.inl h2)
        · exact Or.inr (Or.inr ⟨h2.1, Nat.lt_of_lt_of_le h2.2 ihc⟩)
      · exact Or.inr (Or.inr ⟨Nat.le_trans hcle1 (Nat.le_trans hcle2 h1.1), h1.2⟩)
  · intro x hx
    rcases ihm x hx with h1 | h1
    · rcases hmset x h1 with h2 | h2
      · exact Or.inl h2
      · exact Or.inr ⟨h2.1, Nat.lt_of_lt_of_le h2.2 ihc⟩
    · exact Or.inr ⟨Nat.le_trans hcle1 (Nat.le_trans hcle2 h1.1), h1.2⟩

/-- The array loop preserves the loop invariant, given the step
invariant for every element. -/
theorem updArr_bound : ∀ (es : List JSVal) (c kid : Nat) (keys : List String)
    (m : ChildMap) (i : Nat),
    (∀ e ∈ es, ∀ (c2 nid2 : Nat) (t2 : Tree),
        GoodStep c2 nid2 t2 (updateGo c2 nid2 t2 e)) →
    GoodLoop c kid m (updArr c kid keys m i es) := by
  intro es
  induction es with
  | nil =>
      intro c kid keys m i _
      exact ⟨Nat.le_refl c, fun x hx => absurd hx (List.not_mem_nil x),
             fun x hx => Or.inl hx⟩
  | cons e es ih =>
      intro c kid keys m i hIH
      have hIH2 := fun e2 he2 => hIH e2 (List.mem_cons_of_mem e he2)
      rcases hgeq : gocn c kid keys m (toString i) with ⟨c1, keys1, m1, ev1, cid, ct⟩
      obtain ⟨hcle1, hev1, hct, hm1⟩ := gocn_bound hgeq
      cases e with
      | undef =>
          rcases hbr : brRemoveKey kid keys1 m1 (toString i) with ⟨keys2, m2, ev2⟩
          obtain ⟨hev2, hm2⟩ := brRemoveKey_bound hbr
          have hrun : updArr c kid keys m i (.undef :: es) =
              (let r := updArr c1 kid keys2 m2 (i + 1) es
               (r.1, r.2.1, r.2.2.1, ev1 ++ ev2 ++ r.2.2.2)) := by
            rw [updArr, hgeq]
            dsimp only
            rw [hbr]
          rw [hrun]
          exact updLoop_step_rm hcle1 hev1 hm1 hev2 hm2 (ih c1 kid keys2 m2 (i + 1) hIH2)
      | null =>
          rcases hbr : brRemoveKey kid keys1 m1 (toString i) with ⟨keys2, m2, ev2⟩
          obtain ⟨hev2, hm2⟩ := brRemoveKey_bound hbr
          have hrun : updArr c kid keys m i (.null :: es) =
              (let r := updArr c1 kid keys2 m2 (i + 1) es
               (r.1, r.2.1, r.2.2.1, ev1 ++ ev2 ++ r.2.2.2)) := by
            rw [updArr, hgeq]
            dsimp only
            rw [hbr]
          rw [hrun]
          exact updLoop_step_rm hcle1 hev1 hm1 hev2 hm2 (ih c1 kid keys2 m2 (i + 1) hIH2)
      | atom a =>
          rcases hls : leafSet c1 cid ct a with ⟨c2, ct1, ev2⟩
          obtain ⟨hcle2, hev2, hct1⟩ := leafSet_bound hls
          have hrun : updArr c kid keys m i (.atom a :: es) =
              (let r := updArr c2 kid keys1 (cset m1 (toString i) (cid, ct1)) (i + 1) es
               (r.1, r.2.1, r.2.2.1, ev1 ++ ev2 ++ r.2.2.2)) := by
            rw [updArr, hgeq]
            dsimp only
            rw [hls]
          rw [hrun]
          exact updLoop_step_set (toString i) hcle1 hev1 hct hm1 hcle2 hev2 hct1
            (ih c2 kid keys1 (cset m1 (toString i) (cid, ct1)) (i + 1) hIH2)
      | arr es2 =>
          rcases hup : updateGo c1 cid ct (.arr es2) with ⟨c2, ct1, ev2⟩
          have hstep := hIH (.arr es2) (List.mem_cons_self _ _) c1 cid ct
          rw [hup] at hstep
          obtain ⟨hcle2, hev2, hct1⟩ := hstep
          have hrun : updArr c kid keys m i (.arr es2 :: es) =
              (let r := updArr c2 kid keys1 (cset m1 (toString i) (cid, ct1)) (i + 1) es
               (r.1, r.2.1, r.2.2.1, ev1 ++ ev2 ++ r.2.2.2)) := by
            rw [updArr, hgeq]
            dsimp only
            rw [hup]
          rw [hrun]
          exact updLoop_step_set (toString i) hcle1 hev1 hct hm1 hcle2 hev2 hct1
            (ih c2 kid keys1 (cset m1 (toString i) (cid, ct1)) (i + 1) hIH2)
      | obj fs2 =>
          rcases hup : updateGo c1 cid ct (.obj fs2) with ⟨c2, ct1, ev2⟩
          have hstep := hIH (.obj fs2) (List.mem_cons_self _ _) c1 cid ct
          rw [hup] at hstep
          obtain ⟨hcle2, hev2, hct1⟩ := hstep
          have hrun : updArr c kid keys m i (.obj fs2 :: es) =
              (let r := updArr c2 kid keys1 (cset m1 (toString i) (cid, ct1)) (i + 1) es
               (r.1, r.2.1, r.2.2.1, ev1 ++ ev2 ++ r.2.2.2)) := by
            rw [updArr, hgeq]
            dsimp only
            rw [hup]
          rw [hrun]
          exact updLoop_step_set (toString i) hcle1 hev1 hct hm1 hcle2 hev2 hct1
            (ih c2 kid keys1 (cset m1 (toString i) (cid, ct1)) (i + 1) hIH2)
      | exotic j =>
          rcases hup : updateGo c1 cid ct (.exotic j) with ⟨c2, ct1, ev2⟩
          have hstep := hIH (.exotic j) (List.mem_cons_self _ _) c1 cid ct
          rw [hup] at hstep
          obtain ⟨hcle2, hev2, hct1⟩ := hstep
          have hrun : updArr c kid keys m i (.exotic j :: es) =
              (let r := updArr c2 kid keys1 (cset m1 (toString i) (cid, ct1)) (i + 1) es
               (r.1, r.2.1, r.2.2.1, ev1 ++ ev2 ++ r.2.2.2)) := by
            rw [updArr, hgeq]
            dsimp only
            rw [hup]
          rw [hrun]
          exact updLoop_step_set (toString i) hcle1 hev1 hct hm1 hcle2 hev2 hct1
            (ih c2 kid keys1 (cset m1 (toString i) (cid, ct1)) (i + 1) hIH2)

/-- The record loop preserves the loop invariant, given the step
invariant for every field value. -/
theorem updObj_bound : ∀ (fs : List (String × JSVal)) (c kid : Nat) (keys : List String)
    (m : ChildMap),
    (∀ f ∈ fs, ∀ (c2 nid2 : Nat) (t2 : Tree),
        GoodStep c2 nid2 t2 (updateGo c2 nid2 t2 f.2)) →
    GoodLoop c kid m (updObj c kid keys m fs) := by
  intro fs
  induction fs with
  | nil =>
      intro c kid keys m _
      exact ⟨Nat.le_refl c, fun x hx => absurd hx (List.not_mem_nil x),
             fun x hx => Or.inl hx⟩
  | cons f fs ih =>
      intro c kid keys m hIH
      obtain ⟨k0, v0⟩ := f
      have hIH2 := fun f2 hf2 => hIH f2 (List.mem_cons_of_mem _ hf2)
      rcases hgeq : gocn c kid keys m k0 with ⟨c1, keys1, m1, ev1, cid, ct⟩
      obtain ⟨hcle1, hev1, hct, hm1⟩ := gocn_bound hgeq
      cases v0 with
      | undef =>
          rcases hbr : brRemoveKey kid keys1 m1 k0 with ⟨keys2, m2, ev2⟩
          obtain ⟨hev2, hm2⟩ := brRemoveKey_bound hbr
          have hrun : updObj c kid keys m ((k0, .undef) :: fs) =
              (let r := updObj c1 kid keys2 m2 fs
               (r.1, r.2.1, r.2.2.1, ev1 ++ ev2 ++ r.2.2.2)) := by
            rw [updObj, hgeq]
            dsimp only
            rw [hbr]
          rw [hrun]
          exact updLoop_step_rm hcle1 hev1 hm1 hev2 hm2 (ih c1 kid keys2 m2 hIH2)
      | null =>
          rcases hbr : brRemoveKey kid keys1 m1 k0 with ⟨keys2, m2, ev2⟩
          obtain ⟨hev2, hm2⟩ := brRemoveKey_bound hbr
          have hrun : updObj c kid keys m ((k0, .null) :: fs) =
              (let r := updObj c1 kid keys2 m2 fs
               (r.1, r.2.1, r.2.2.1, ev1 ++ ev2 ++ r.2.2.2)) := by
            rw [updObj, hgeq]
            dsimp only
            rw [hbr]
          rw [hrun]
          exact updLoop_step_rm hcle1 hev1 hm1 hev2 hm2 (ih c1 kid keys2 m2 hIH2)
      | atom a =>
          rcases hls : leafSet c1 cid ct a with ⟨c2, ct1, ev2⟩
          obtain ⟨hcle2, hev2, hct1⟩ := leafSet_bound hls
          have hrun : updObj c kid keys m ((k0, .atom a) :: fs) =
              (let r := updObj c2 kid keys1 (cset m1 k0 (cid, ct1)) fs
               (r.1, r.2.1, r.2.2.1, ev1 ++ ev2 ++ r.2.2.2)) := by
            rw [updObj, hgeq]
            dsimp only
            rw [hls]
          rw [hrun]
          exact updLoop_step_set k0 hcle1 hev1 hct hm1 hcle2 hev2 hct1
            (ih c2 kid keys1 (cset m1 k0 (cid, ct1)) hIH2)
      | arr es2 =>
          rcases hup : updateGo c1 cid ct (.arr es2) with ⟨c2, ct1, ev2⟩
          have hstep := hIH (k0, .arr es2) (List.mem_cons_self _ _) c1 cid ct
          rw [hup] at hstep
          obtain ⟨hcle2, hev2, hct1⟩ := hstep
          have hrun : updObj c kid keys m ((k0, .arr es2) :: fs) =
              (let r := updObj c2 kid keys1 (cset m1 k0 (cid, ct1)) fs
               (r.1, r.2.1, r.2.2.1, ev1 ++ ev2 ++ r.2.2.2)) := by
            rw [updObj, hgeq]
            dsimp only
            rw [hup]
          rw [hrun]
          exact updLoop_step_set k0 hcle1 hev1 hct hm1 hcle2 hev2 hct1
            (ih c2 kid keys1 (cset m1 k0 (cid, ct1)) hIH2)
      | obj fs2 =>
          rcases hup : updateGo c1 cid ct (.obj fs2) with ⟨c2, ct1, ev2⟩
          have hstep := hIH (k0, .obj fs2) (List.mem_cons_self _ _) c1 cid ct
          rw [hup] at hstep
          obtain ⟨hcle2, hev2, hct1⟩ := hstep
          have hrun : updObj c kid keys m ((k0, .obj fs2) :: fs) =
              (let r := updObj c2 kid keys1 (cset m1 k0 (cid, ct1)) fs
               (r.1, r.2.1, r.2.2.1, ev1 ++ ev2 ++ r.2.2.2)) := by
            rw [updObj, hgeq]
            dsimp only
            rw [hup]
          rw [hrun]
          exact updLoop_step_set k0 hcle1 hev1 hct hm1 hcle2 hev2 hct1
            (ih c2 kid keys1 (cset m1 k0 (cid, ct1)) hIH2)
      | exotic j =>
          rcases hup : updateGo c1 cid ct (.exotic j) with ⟨c2, ct1, ev2⟩
          have hstep := hIH (k0, .exotic j) (List.mem_cons_self _ _) c1 cid ct
          rw [hup] at hstep
          obtain ⟨hcle2, hev2, hct1⟩ := hstep
          have hrun : updObj c kid keys m ((k0, .exotic j) :: fs) =
              (let r := updObj c2 kid keys1 (cset m1 k0 (cid, ct1)) fs
               (r.1, r.2.1, r.2.2.1, ev1 ++ ev2 ++ r.2.2.2)) := by
            rw [updObj, hgeq]
            dsimp only
            rw [hup]
          rw [hrun]
          exact updLoop_step_set k0 hcle1 hev1 hct hm1 hcle2 hev2 hct1
            (ih c2 kid keys1 (cset m1 k0 (cid, ct1)) hIH2)

/-- Event bound for `Node.update`: starting from counter `c` at node
`nid` with content `t`, every fired topic is the node's own topic, a
topic already reachable under `t`, or a freshly allocated one, and
every topic reachable under the new content is old or fresh. -/
theorem updateGo_bound : ∀ (v : JSVal) (c nid : Nat) (t : Tree),
    GoodStep c nid t (updateGo c nid t v) := by
  intro v
  induction v using JSVal.indOn with
  | h1 =>
      intro c nid t
      have he : updateGo c nid t .undef = (c, .tUndef, if t.isUndef then [] else [nid]) := by
        cases t <;> rfl
      rw [he]
      refine ⟨Nat.le_refl c, ?_, fun x hx => absurd hx (by simp [collectT])⟩
      intro x hx
      by_cases hu : t.isUndef
      · rw [if_pos hu] at hx
        cases hx
      · rw [if_neg hu] at hx
        exact Or.inl (List.mem_singleton.mp hx)
  | h2 =>
      intro c nid t
      have he : updateGo c nid t .null = (c, .tUndef, if t.isUndef then [] else [nid]) := by
        cases t <;> rfl
      rw [he]
      refine ⟨Nat.le_refl c, ?_, fun x hx => absurd hx (by simp [collectT])⟩
      intro x hx
      by_cases hu : t.isUndef
      · rw [if_pos hu] at hx
        cases hx
      · rw [if_neg hu] at hx
        exact Or.inl (List.mem_singleton.mp hx)
  | h3 a =>
      intro c nid t
      have he : updateGo c nid t (.atom a) = leafSet c nid t a := by
        cases t <;> rfl
      rw [he]
      rcases hls : leafSet c nid t a with ⟨c2, t2, ev⟩
      exact leafSet_bound hls
  | h4 j =>
      intro c nid t
      cases t with
      | tUndef =>
          have he : updateGo c nid .tUndef (.exotic j) =
              (c + 1, .tBranch false c [] [], [nid]) := rfl
          rw [he]
          refine ⟨Nat.le_succ c, ?_, ?_⟩
          · intro x hx
            exact Or.inl (List.mem_singleton.mp hx)
          · intro x hx
            have hxc : x = c := by
              simpa [collectT, collectM] using hx
            subst hxc
            exact Or.inr ⟨Nat.le_refl x, Nat.lt_succ_self x⟩
      | tLeaf lid w =>
          have he : updateGo c nid (.tLeaf lid w) (.exotic j) =
              (c + 1, .tBranch false c [] [], [nid]) := rfl
          rw [he]
          refine ⟨Nat.le_succ c, ?_, ?_⟩
          · intro x hx
            exact Or.inl (List.mem_singleton.mp hx)
          · intro x hx
            have hxc : x = c := by
              simpa [collectT, collectM] using hx
            subst hxc
            exact Or.inr ⟨Nat.le_refl x, Nat.lt_succ_self x⟩
      | tBranch ia kid keys m =>
          rw [updateGo_exotic_branch]
          refine ⟨Nat.le_refl c, ?_, ?_⟩
          · intro x hx
            rcases List.mem_append.mp hx with hx | hx
            · have := staleClear_ev_sub keys [] m x hx
              exact Or.inr (Or.inl (List.mem_cons_of_mem _ this))
            · by_cases hkf : keys.filter (fun k => decide (k ∈ ([] : List String))) = keys
              · rw [if_pos hkf] at hx
                cases hx
              · rw [if_neg hkf] at hx
                have hxk : x = kid := List.mem_singleton.mp hx
                subst hxk
                exact Or.inr (Or.inl (List.mem_cons_self _ _))
          · intro x hx
            simp only [collectT, List.mem_cons] at hx ⊢
            rcases hx with rfl | hx
            · exact Or.inl (Or.inl rfl)
            · exact Or.inl (Or.inr (collectM_staleClear_sub keys [] m x hx))
  | h5 es ihes =>
      intro c nid t
      have hIH : ∀ e ∈ es, ∀ (c2 nid2 : Nat) (t2 : Tree),
          GoodStep c2 nid2 t2 (updateGo c2 nid2 t2 e) :=
        fun e he c2 nid2 t2 => ihes e he c2 nid2 t2
      cases t with
      | tUndef =>
          rw [updateGo_arr_tUndef]
          obtain ⟨hcl, hev, hm⟩ := updArr_bound es (c + 1) c [] [] 0 hIH
          refine ⟨Nat.le_trans (Nat.le_succ c) hcl, ?_, ?_⟩
          · intro x hx
            rcases List.mem_cons.mp hx with rfl | hx
            · exact Or.inl rfl
            · rcases hev x hx with h1 | h1 | h1
              · subst h1
                exact Or.inr (Or.inr ⟨Nat.le_refl x, Nat.lt_of_lt_of_le (Nat.lt_succ_self x) hcl⟩)
              · exact absurd h1 (by simp [collectM])
              · exact Or.inr (Or.inr ⟨by omega, h1.2⟩)
          · intro x hx
            simp only [collectT, List.mem_cons] at hx
            rcases hx with rfl | hx
            · exact Or.inr ⟨Nat.le_refl x, Nat.lt_of_lt_of_le (Nat.lt_succ_self x) hcl⟩
            · rcases hm x hx with h1 | h1
              · exact absurd h1 (by simp [collectM])
              · exact Or.inr ⟨by omega, h1.2⟩
      | tLeaf lid w =>
          rw [updateGo_arr_tLeaf]
          obtain ⟨hcl, hev, hm⟩ := updArr_bound es (c + 1) c [] [] 0 hIH
          refine ⟨Nat.le_trans (Nat.le_succ c) hcl, ?_, ?_⟩
          · intro x hx
            rcases List.mem_cons.mp hx with rfl | hx
            · exact Or.inl rfl
            · rcases hev x hx with h1 | h1 | h1
              · subst h1
                exact Or.inr (Or.inr ⟨Nat.le_refl x, Nat.lt_of_lt_of_le (Nat.lt_succ_self x) hcl⟩)
              · exact absurd h1 (by simp [collectM])
              · exact Or.inr (Or.inr ⟨by omega, h1.2⟩)
          · intro x hx
            simp only [collectT, List.mem_cons] at hx
            rcases hx with rfl | hx
            · exact Or.inr ⟨Nat.le_refl x, Nat.lt_of_lt_of_le (Nat.lt_succ_self x) hcl⟩
            · rcases hm x hx with h1 | h1
              · exact absurd h1 (by simp [collectM])
              · exact Or.inr ⟨by omega, h1.2⟩
      | tBranch ia kid keys m =>
          rw [updateGo_arr_eq]
          obtain ⟨hcl, hev, hm⟩ := updArr_bound es c kid
            (keys.filter (fun k => decide (k ∈ arrKeys es.length)))
            (staleClear keys (arrKeys es.length) m).1 0 hIH
          refine ⟨hcl, ?_, ?_⟩
          · intro x hx
            rcases List.mem_append.mp hx with hx | hx
            · rcases List.mem_append.mp hx with hx | hx
              · have := staleClear_ev_sub keys (arrKeys es.length) m x hx
                exact Or.inr (Or.inl (List.mem_cons_of_mem _ this))
              · by_cases hkf : keys.filter (fun k => decide (k ∈ arrKeys es.length)) = keys
                · rw [if_pos hkf] at hx
                  cases hx
                · rw [if_neg hkf] at hx
                  have hxk : x = kid := List.mem_singleton.mp hx
                  subst hxk
                  exact Or.inr (Or.inl (List.mem_cons_self _ _))
            · rcases hev x hx with h1 | h1 | h1
              · subst h1
                exact Or.inr (Or.inl (List.mem_cons_self _ _))
              · have := collectM_staleClear_sub keys (arrKeys es.length) m x h1
                exact Or.inr (Or.inl (List.mem_cons_of_mem _ this))
              · exact Or.inr (Or.inr h1)
          · intro x hx
            simp only [collectT, List.mem_cons] at hx ⊢
            rcases hx with rfl | hx
            · exact Or.inl (Or.inl rfl)
            · rcases hm x hx with h1 | h1
              · exact Or.inl (Or.inr (collectM_staleClear_sub keys (arrKeys es.length) m x h1))
              · exact Or.inr h1
  | h6 fs ihfs =>
      intro c nid t
      have hIH : ∀ f ∈ fs, ∀ (c2 nid2 : Nat) (t2 : Tree),
          GoodStep c2 nid2 t2 (updateGo c2 nid2 t2 f.2) :=
        fun f hf c2 nid2 t2 => ihfs f hf c2 nid2 t2
      cases t with
      | tUndef =>
          rw [updateGo_obj_tUndef]
          obtain ⟨hcl, hev, hm⟩ := updObj_bound fs (c + 1) c [] [] hIH
          refine ⟨Nat.le_trans (Nat.le_succ c) hcl, ?_, ?_⟩
          · intro x hx
            rcases List.mem_cons.mp hx with rfl | hx
            · exact Or.inl rfl
            · rcases hev x hx with h1 | h1 | h1
              · subst h1
                exact Or.inr (Or.inr ⟨Nat.le_refl x, Nat.lt_of_lt_of_le (Nat.lt_succ_self x) hcl⟩)
              · exact absurd h1 (by simp [collectM])
              · exact Or.inr (Or.inr ⟨by omega, h1.2⟩)
          · intro x hx
            simp only [collectT, List.mem_cons] at hx
            rcases hx with rfl | hx
            · exact Or.inr ⟨Nat.le_refl x, Nat.lt_of_lt_of_le (Nat.lt_succ_self x) hcl⟩
            · rcases hm x hx with h1 | h1
              · exact absurd h1 (by simp [collectM])
              · exact Or.inr ⟨by omega, h1.2⟩
      | tLeaf lid w =>
          rw [updateGo_obj_tLeaf]
          obtain ⟨hcl, hev, hm⟩ := updObj_bound fs (c + 1) c [] [] hIH
          refine ⟨Nat.le_trans (Nat.le_succ c) hcl, ?_, ?_⟩
          · intro x hx
            rcases List.mem_cons.mp hx with rfl | hx
            · exact Or.inl rfl
            · rcases hev x hx with h1 | h1 | h1
              · subst h1
                exact Or.inr (Or.inr ⟨Nat.le_refl x, Nat.lt_of_lt_of_le (Nat.lt_succ_self x) hcl⟩)
              · exact absurd h1 (by simp [collectM])
              · exact Or.inr (Or.inr ⟨by omega, h1.2⟩)
          · intro x hx
            simp only [collectT, List.mem_cons] at hx
            rcases hx with rfl | hx
            · exact Or.inr ⟨Nat.le_refl x, Nat.lt_of_lt_of_le (Nat.lt_succ_self x) hcl⟩
            · rcases hm x hx with h1 | h1
              · exact absurd h1 (by simp [collectM])
              · exact Or.inr ⟨by omega, h1.2⟩
      | tBranch ia kid keys m =>
          rw [updateGo_obj_eq]
          obtain ⟨hcl, hev, hm⟩ := updObj_bound fs c kid
            (keys.filter (fun k => decide (k ∈ objKeys fs)))
            (staleClear keys (objKeys fs) m).1 hIH
          refine ⟨hcl, ?_, ?_⟩
          · intro x hx
            rcases List.mem_append.mp hx with hx | hx
            · rcases List.mem_append.mp hx with hx | hx
              · have := staleClear_ev_sub keys (objKeys fs) m x hx
                exact Or.inr (Or.inl (List.mem_cons_of_mem _ this))
              · by_cases hkf : keys.filter (fun k => decide (k ∈ objKeys fs)) = keys
                · rw [if_pos hkf] at hx
                  cases hx
                · rw [if_neg hkf] at hx
                  have hxk : x = kid := List.mem_singleton.mp hx
                  subst hxk
                  exact Or.inr (Or.inl (List.mem_cons_self _ _))
            · rcases hev x hx with h1 | h1 | h1
              · subst h1
                exact Or.inr (Or.inl (List.mem_cons_self _ _))
              · have := collectM_staleClear_sub keys (objKeys fs) m x h1
                exact Or.inr (Or.inl (List.mem_cons_of_mem _ this))
              · exact Or.inr (Or.inr h1)
          · intro x hx
            simp only [collectT, List.mem_cons] at hx ⊢
            rcases hx with rfl | hx
            · exact Or.inl (Or.inl rfl)
            · rcases hm x hx with h1 | h1
              · exact Or.inl (Or.inr (collectM_staleClear_sub keys (objKeys fs) m x h1))
              · exact Or.inr h1

/-- Facts carrying a protected topic identity `d` through one
content-setting step of the array loop: `d` is not fired by the step
and stays outside the updated map and below the counter. -/
theorem avoid_step_facts (k : String) {c c1 c2 d cid : Nat} {m m1 : ChildMap}
    {ct ct1 : Tree} {ev2 : Events}
    (hdc : d < c) (hcle1 : c ≤ c1)
    (hdm : d ∉ collectM m)
    (hct : ∀ x, x = cid ∨ x ∈ collectT ct → x ∈ collectM m ∨ (c ≤ x ∧ x < c1))
    (hm1 : ∀ x ∈ collectM m1, x ∈ collectM m ∨ (c ≤ x ∧ x < c1))
    (hcle2 : c1 ≤ c2)
    (hev2 : ∀ x ∈ ev2, x = cid ∨ x ∈ collectT ct ∨ (c1 ≤ x ∧ x < c2))
    (hct1 : ∀ x ∈ collectT ct1, x ∈ collectT ct ∨ (c1 ≤ x ∧ x < c2)) :
    d ∉ ev2 ∧ d ∉ collectM (cset m1 k (cid, ct1)) ∧ d < c2 := by
  have hdct : ∀ (hx : d = cid ∨ d ∈ collectT ct), False := by
    intro hx
    rcases hct d hx with h1 | h1
    · exact hdm h1
    · omega
  refine ⟨?_, ?_, by omega⟩
  · intro hx
    rcases hev2 d hx with h1 | h1 | h1
    · exact hdct (Or.inl h1)
    · exact hdct (Or.inr h1)
    · omega
  · intro hy
    rcases collectM_cset_sub d hy with h1 | h1 | h1
    · rcases hm1 d h1 with h2 | h2
      · exact hdm h2
      · omega
    · exact hdct (Or.inl h1)
    · rcases hct1 d h1 with h2 | h2
      · exact hdct (Or.inr h2)
      · omega

/-- When a clean array value writes only to indices whose keys are
already present, no topic identity outside the map and below the
counter is ever fired by the loop — in particular neither the branch's
keys topic nor the owning node's topic. -/
theorem updArr_avoid : ∀ (es : List JSVal) (c kid : Nat) (keys : List String)
    (m : ChildMap) (i d : Nat),
    JSVal.cleanL es = true →
    (∀ j, j < es.length → toString (i + j) ∈ keys) →
    d ∉ collectM m → d < c →
    d ∉ (updArr c kid keys m i es).2.2.2 := by
  intro es
  induction es with
  | nil =>
      intro c kid keys m i d _ _ _ _
      exact List.not_mem_nil d
  | cons e es ih =>
      intro c kid keys m i d hclean hkeys hdm hdc
      rw [JSVal.cleanL, Bool.and_eq_true] at hclean
      obtain ⟨hce, hces⟩ := hclean
      have hk0 : toString i ∈ keys := by
        have := hkeys 0 (by simp)
        rwa [Nat.add_zero] at this
      have hkeys2 : ∀ j, j < es.length → toString (i + 1 + j) ∈ keys := by
        intro j hj
        have := hkeys (j + 1) (by simpa using Nat.succ_lt_succ hj)
        rwa [show i + (j + 1) = i + 1 + j by omega] at this
      rcases hgeq : gocn c kid keys m (toString i) with ⟨c1, keys1, m1, ev1, cid, ct⟩
      obtain ⟨hkeq, heveq, -, -, -⟩ := gocn_spec hgeq
      rw [if_pos hk0] at hkeq heveq
      subst hkeq
      subst heveq
      obtain ⟨hcle1, -, hct, hm1⟩ := gocn_bound hgeq
      cases e with
      | undef => simp [JSVal.cleanIn] at hce
      | null => simp [JSVal.cleanIn] at hce
      | exotic j => simp [JSVal.cleanIn] at hce
      | atom a =>
          rcases hls : leafSet c1 cid ct a with ⟨c2, ct1, ev2⟩
          obtain ⟨hcle2, hev2, hct1⟩ := leafSet_bound hls
          obtain ⟨hne2, hdm2, hdc2⟩ := avoid_step_facts (toString i) hdc hcle1 hdm hct hm1
            hcle2 hev2 hct1
          have hrun : updArr c kid keys1 m i (.atom a :: es) =
              (let r := updArr c2 kid keys1 (cset m1 (toString i) (cid, ct1)) (i + 1) es
               (r.1, r.2.1, r.2.2.1, [] ++ ev2 ++ r.2.2.2)) := by
            rw [updArr, hgeq]
            dsimp only
            rw [hls]
          rw [hrun]
          dsimp only
          intro hx
          rcases List.mem_append.mp hx with hx | hx
          · rcases List.mem_append.mp hx with hx | hx
            · cases hx
            · exact hne2 hx
          · exact ih c2 kid keys1 (cset m1 (toString i) (cid, ct1)) (i + 1) d
              hces hkeys2 hdm2 hdc2 hx
      | arr es2 =>
          rcases hup : updateGo c1 cid ct (.arr es2) with ⟨c2, ct1, ev2⟩
          have hstep := updateGo_bound (.arr es2) c1 cid ct
          rw [hup] at hstep
          obtain ⟨hcle2, hev2, hct1⟩ := hstep
          obtain ⟨hne2, hdm2, hdc2⟩ := avoid_step_facts (toString i) hdc hcle1 hdm hct hm1
            hcle2 hev2 hct1
          have hrun : updArr c kid keys1 m i (.arr es2 :: es) =
              (let r := updArr c2 kid keys1 (cset m1 (toString i) (cid, ct1)) (i + 1) es
               (r.1, r.2.1, r.2.2.1, [] ++ ev2 ++ r.2.2.2)) := by
            rw [updArr, hgeq]
            dsimp only
            rw [hup]
          rw [hrun]
          dsimp only
          intro hx
          rcases List.mem_append.mp hx with hx | hx
          · rcases List.mem_append.mp hx with hx | hx
            · cases hx
            · exact hne2 hx
          · exact ih c2 kid keys1 (cset m1 (toString i) (cid, ct1)) (i + 1) d
              hces hkeys2 hdm2 hdc2 hx
      | obj fs2 =>
          rcases hup : updateGo c1 cid ct (.obj fs2) with ⟨c2, ct1, ev2⟩
          have hstep := updateGo_bound (.obj fs2) c1 cid ct
          rw [hup] at hstep
          obtain ⟨hcle2, hev2, hct1⟩ := hstep
          obtain ⟨hne2, hdm2, hdc2⟩ := avoid_step_facts (toString i) hdc hcle1 hdm hct hm1
            hcle2 hev2 hct1
          have hrun : updArr c kid keys1 m i (.obj fs2 :: es) =
              (let r := updArr c2 kid keys1 (cset m1 (toString i) (cid, ct1)) (i + 1) es
               (r.1, r.2.1, r.2.2.1, [] ++ ev2 ++ r.2.2.2)) := by
            rw [updArr, hgeq]
            dsimp only
            rw [hup]
          rw [hrun]
          dsimp only
          intro hx
          rcases List.mem_append.mp hx with hx | hx
          · rcases List.mem_append.mp hx with hx | hx
            · cases hx
            · exact hne2 hx
          · exact ih c2 kid keys1 (cset m1 (toString i) (cid, ct1)) (i + 1) d
              hces hkeys2 hdm2 hdc2 hx

/-- When a clean array value reaches an index whose key is missing
from the keys topic, the loop fires the keys topic (the
`getOrCreateNode` of that index adds the key). -/
theorem updArr_fires : ∀ (es : List JSVal) (j0 c kid : Nat) (keys : List String)
    (m : ChildMap) (i : Nat),
    JSVal.cleanL es = true →
    (∀ j, j < j0 → toString (i + j) ∈ keys) →
    j0 < es.length → toString (i + j0) ∉ keys →
    kid ∈ (updArr c kid keys m i es).2.2.2 := by
  intro es
  induction es with
  | nil =>
      intro j0 c kid keys m i _ _ hlt _
      exact absurd hlt (Nat.not_lt_zero j0)
  | cons e es ih =>
      intro j0 c kid keys m i hclean hkeys hlt hmiss
      rw [JSVal.cleanL, Bool.and_eq_true] at hclean
      obtain ⟨hce, hces⟩ := hclean
      cases j0 with
      | zero =>
          rw [Nat.add_zero] at hmiss
          rcases hgeq : gocn c kid keys m (toString i) with ⟨c1, keys1, m1, ev1, cid, ct⟩
          obtain ⟨-, heveq, -, -, -⟩ := gocn_spec hgeq
          rw [if_neg hmiss] at heveq
          subst heveq
          cases e with
          | undef => simp [JSVal.cleanIn] at hce
          | null => simp [JSVal.cleanIn] at hce
          | exotic j => simp [JSVal.cleanIn] at hce
          | atom a =>
              rcases hls : leafSet c1 cid ct a with ⟨c2, ct1, ev2⟩
              have hrun : updArr c kid keys m i (.atom a :: es) =
                  (let r := updArr c2 kid keys1 (cset m1 (toString i) (cid, ct1)) (i + 1) es
                   (r.1, r.2.1, r.2.2.1, [kid] ++ ev2 ++ r.2.2.2)) := by
                rw [updArr, hgeq]
                dsimp only
                rw [hls]
              rw [hrun]
              dsimp only
              exact List.mem_append.mpr (Or.inl (List.mem_append.mpr
                (Or.inl (List.mem_singleton.mpr rfl))))
          | arr es2 =>
              rcases hup : updateGo c1 cid ct (.arr es2) with ⟨c2, ct1, ev2⟩
              have hrun : updArr c kid keys m i (.arr es2 :: es) =
                  (let r := updArr c2 kid keys1 (cset m1 (toString i) (cid, ct1)) (i + 1) es
                   (r.1, r.2.1, r.2.2.1, [kid] ++ ev2 ++ r.2.2.2)) := by
                rw [updArr, hgeq]
                dsimp only
                rw [hup]
              rw [hrun]
              dsimp only
              exact List.mem_append.mpr (Or.inl (List.mem_append.mpr
                (Or.inl (List.mem_singleton.mpr rfl))))
          | obj fs2 =>
              rcases hup : updateGo c1 cid ct (.obj fs2) with ⟨c2, ct1, ev2⟩
              have hrun : updArr c kid keys m i (.obj fs2 :: es) =
                  (let r := updArr c2 kid keys1 (cset m1 (toString i) (cid, ct1)) (i + 1) es
                   (r.1, r.2.1, r.2.2.1, [kid] ++ ev2 ++ r.2.2.2)) := by
                rw [updArr, hgeq]
                dsimp only
                rw [hup]
              rw [hrun]
              dsimp only
              exact List.mem_append.mpr (Or.inl (List.mem_append.mpr
                (Or.inl (List.mem_singleton.mpr rfl))))
      | succ j =>
          have hk0 : toString i ∈ keys := by
            have := hkeys 0 (Nat.succ_pos j)
            rwa [Nat.add_zero] at this
          have hkeys2 : ∀ j2, j2 < j → toString (i + 1 + j2) ∈ keys := by
            intro j2 hj2
            have := hkeys (j2 + 1) (Nat.succ_lt_succ hj2)
            rwa [show i + (j2 + 1) = i + 1 + j2 by omega] at this
          have hmiss2 : toString (i + 1 + j) ∉ keys := by
            rwa [show i + (j + 1) = i + 1 + j by omega] at hmiss
          have hlt2 : j < es.length := by
            simp only [List.length_cons] at hlt
            omega
          rcases hgeq : gocn c kid keys m (toString i) with ⟨c1, keys1, m1, ev1, cid, ct⟩
          obtain ⟨hkeq, -, -, -, -⟩ := gocn_spec hgeq
          rw [if_pos hk0] at hkeq
          subst hkeq
          cases e with
          | undef => simp [JSVal.cleanIn] at hce
          | null => simp [JSVal.cleanIn] at hce
          | exotic j2 => simp [JSVal.cleanIn] at hce
          | atom a =>
              rcases hls : leafSet c1 cid ct a with ⟨c2, ct1, ev2⟩
              have hrun : updArr c kid keys1 m i (.atom a :: es) =
                  (let r := updArr c2 kid keys1 (cset m1 (toString i) (cid, ct1)) (i + 1) es
                   (r.1, r.2.1, r.2.2.1, ev1 ++ ev2 ++ r.2.2.2)) := by
                rw [updArr, hgeq]
                dsimp only
                rw [hls]
              rw [hrun]
              dsimp only
              exact List.mem_append.mpr (Or.inr
                (ih j c2 kid keys1 (cset m1 (toString i) (cid, ct1)) (i + 1)
                  hces hkeys2 hlt2 hmiss2))
          | arr es2 =>
              rcases hup : updateGo c1 cid ct (.arr es2) with ⟨c2, ct1, ev2⟩
              have hrun : updArr c kid keys1 m i (.arr es2 :: es) =
                  (let r := updArr c2 kid keys1 (cset m1 (toString i) (cid, ct1)) (i + 1) es
                   (r.1, r.2.1, r.2.2.1, ev1 ++ ev2 ++ r.2.2.2)) := by
                rw [updArr, hgeq]
                dsimp only
                rw [hup]
              rw [hrun]
              dsimp only
              exact List.mem_append.mpr (Or.inr
                (ih j c2 kid keys1 (cset m1 (toString i) (cid, ct1)) (i + 1)
                  hces hkeys2 hlt2 hmiss2))
          | obj fs2 =>
              rcases hup : updateGo c1 cid ct (.obj fs2) with ⟨c2, ct1, ev2⟩
              have hrun : updArr c kid keys1 m i (.obj fs2 :: es) =
                  (let r := updArr c2 kid keys1 (cset m1 (toString i) (cid, ct1)) (i + 1) es
                   (r.1, r.2.1, r.2.2.1, ev1 ++ ev2 ++ r.2.2.2)) := by
                rw [updArr, hgeq]
                dsimp only
                rw [hup]
              rw [hrun]
              dsimp only
              exact List.mem_append.mpr (Or.inr
                (ih j c2 kid keys1 (cset m1 (toString i) (cid, ct1)) (i + 1)
                  hces hkeys2 hlt2 hmiss2))

/-- A subscriber is marked dirty iff one of its dependency topics is
among the fired topics. -/
theorem marksDirty_iff {deps : List Nat} {es : Events} :
    marksDirty deps es = true ↔ ∃ d ∈ deps, d ∈ es := by
  simp [marksDirty, List.any_eq_true, decide_eq_true_eq]

/-- `useSize()` at the root of a branch subscribes to exactly the root
node topic and the branch's keys topic. -/
theorem useSizeDeps_root (c : Nat) (ia : Bool) (kid : Nat) (keys : List String)
    (m : ChildMap) :
    useSizeDeps c (.tBranch ia kid keys m) [] =
      (c, .tBranch ia kid keys m, [0, kid]) := rfl

/-- **C7** (key-set vs. size independence): a subscriber whose
dependencies come from `useSize()` at an array node (the walk's node
topic and the branch's `keys` topic, never children) is marked dirty
by a subsequent update with a clean array value (no `undefined`/`null`
elements, so element count = key count) iff the element count changes;
in particular, an update that changes existing elements' values while
keeping the element count is never marked.  The tree is an array
branch over index keys `0..n-1` with keys-topic identity `kid` and any
child map `m`; the identity hypotheses say the root node topic `0` and
`kid` are distinct from every topic inside the map and below the
allocation counter `c`, as holds for every tree the facade builds. -/
theorem C7_size_independence (c kid n : Nat) (m : ChildMap) (es : List JSVal)
    (hclean : JSVal.cleanL es = true)
    (h0 : 0 ∉ collectM m) (hkid : kid ∉ collectM m)
    (hc0 : 0 < c) (hck : kid < c) :
    (marksDirty (useSizeDeps c (.tBranch true kid (arrKeys n) m) []).2.2
        (updateGo c 0 (.tBranch true kid (arrKeys n) m) (.arr es)).2.2 = true)
      ↔ es.length ≠ n := by
  have hdeps : (useSizeDeps c (.tBranch true kid (arrKeys n) m) []).2.2 = [0, kid] := by
    rw [useSizeDeps_root]
  rw [hdeps]
  have hsame : es.length = n →
      marksDirty [0, kid]
        (updateGo c 0 (.tBranch true kid (arrKeys n) m) (.arr es)).2.2 = false := by
    intro hlen
    subst hlen
    rw [updateGo_arr_eq]
    dsimp only
    rw [staleClear_noop (arrKeys es.length) (arrKeys es.length) m (fun k hk => hk),
        @keysFilter_self (arrKeys es.length) (arrKeys es.length) (fun k hk => hk),
        if_pos rfl]
    dsimp only
    simp only [List.nil_append]
    rw [Bool.eq_false_iff]
    intro hdirty
    rcases marksDirty_iff.mp hdirty with ⟨d, hd, hdev⟩
    have hkeysall : ∀ j, j < es.length → toString (0 + j) ∈ arrKeys es.length := by
      intro j hj
      rw [Nat.zero_add]
      exact mem_arrKeys_iff.mpr hj
    rcases List.mem_cons.mp hd with rfl | hd2
    · exact updArr_avoid es c kid (arrKeys es.length) m 0 0 hclean hkeysall h0 hc0 hdev
    · rcases List.mem_cons.mp hd2 with rfl | hd3
      · exact updArr_avoid es c d (arrKeys es.length) m 0 d hclean hkeysall
          hkid hck hdev
      · cases hd3
  have hdiff : es.length ≠ n →
      marksDirty [0, kid]
        (updateGo c 0 (.tBranch true kid (arrKeys n) m) (.arr es)).2.2 = true := by
    intro hne
    rw [updateGo_arr_eq]
    dsimp only
    rw [marksDirty_iff]
    refine ⟨kid, by simp, ?_⟩
    rcases Nat.lt_or_ge es.length n with hlt | hge
    · have hneq : (arrKeys n).filter (fun k => decide (k ∈ arrKeys es.length))
          ≠ arrKeys n := by
        intro heq
        have h2 := List.filter_eq_self.mp heq (toString es.length)
          (mem_arrKeys_iff.mpr hlt)
        rw [decide_eq_true_eq] at h2
        exact absurd (mem_arrKeys_iff.mp h2) (Nat.lt_irrefl _)
      refine List.mem_append.mpr (Or.inl (List.mem_append.mpr (Or.inr ?_)))
      rw [if_neg hneq]
      exact List.mem_singleton.mpr rfl
    · have hlt : n < es.length := by omega
      refine List.mem_append.mpr (Or.inr ?_)
      exact updArr_fires es n c kid _ _ 0 hclean
        (fun j hj => by
          rw [Nat.zero_add]
          exact List.mem_filter.mpr ⟨mem_arrKeys_iff.mpr hj,
            decide_eq_true (mem_arrKeys_iff.mpr (Nat.lt_trans hj hlt))⟩)
        hlt
        (fun hmem => by
          rw [Nat.zero_add] at hmem
          exact absurd (mem_arrKeys_iff.mp (List.mem_filter.mp hmem).1)
            (Nat.lt_irrefl n))
  constructor
  · intro hdirty hlen
    rw [hsame hlen] at hdirty
    simp at hdirty
  · exact hdiff

/-- Witness for C7 on the branch with one index key and an empty map:
a one-element clean array keeps the count, so the size subscriber is
not dirtied; a two-element one changes it, so it is. -/
theorem C7_size_independence_witness :
    ((marksDirty (useSizeDeps 2 (Tree.tBranch true 1 (arrKeys 1) []) []).2.2
        (updateGo 2 0 (Tree.tBranch true 1 (arrKeys 1) [])
          (JSVal.arr [JSVal.atom (Atom.num 5)])).2.2 = true)
      ↔ [JSVal.atom (Atom.num 5)].length ≠ 1) ∧
    ((marksDirty (useSizeDeps 2 (Tree.tBranch true 1 (arrKeys 1) []) []).2.2
        (updateGo 2 0 (Tree.tBranch true 1 (arrKeys 1) [])
          (JSVal.arr [JSVal.atom (Atom.num 5), JSVal.atom (Atom.num 6)])).2.2 = true)
      ↔ [JSVal.atom (Atom.num 5), JSVal.atom (Atom.num 6)].length ≠ 1) :=
  ⟨C7_size_independence 2 1 1 [] [JSVal.atom (Atom.num 5)]
      (by decide) (by decide) (by decide) (by decide) (by decide),
   C7_size_independence 2 1 1 [] [JSVal.atom (Atom.num 5), JSVal.atom (Atom.num 6)]
      (by decide) (by decide) (by decide) (by decide) (by decide)⟩

end StructRx
